import Mathlib

/-!
# RepoScope: project discovery and the sortable project table

A shallow embedding of `src/main.go`: the discovery walk (`scanProjects`),
the aggregation walk (`analyzeProject`), the status probe
(`getGitSmartStatus`), the sorting of the table (`sortData`) and the
interaction loop (`Update`), followed by the properties proved of them.

Modelling conventions.

* A filesystem path is the list of its components after `filepath.Clean`,
  so `filepath.Join p name` is `p ++ [name]`, `filepath.Dir p` is
  `p.dropLast` and `filepath.Base p` is the last component.
* A directory tree is an `Entry`.  The children of a directory are listed in
  the order in which `os.ReadDir` returns them, which is sorted by file name
  (`Entry.Sorted`).  A directory that cannot be read completely is a
  directory with the entries that were returned: both walk callbacks answer
  `nil` to the error report and the walk goes on with those entries.
* Every non-directory entry is a `file`; its `size` is what `d.Info()`
  reports, and `0` when `d.Info()` fails (the size is then not added).
* `int` and `int64` counters are natural numbers: sizes and file counts stay
  far below `2^63`.
* The `git` commands are an oracle `GitProbe` per path: what each command
  wrote to its standard output and whether it failed.
* `sort.Slice` is the pattern-defeating quicksort of Go's package `sort`
  (Go 1.19 and later), on a list with the index arithmetic of the original;
  its loops are recursive functions whose first argument counts the rounds
  left.  The step of its pseudo-random generator and `strings.ToLower` are
  parameters (`Lib`).
* Of the table widget (package `table`) the model keeps the columns and the
  rows that `main.go` sets and the cursor that it reads.  What the widget
  does with a message is a parameter (`Widget`): it moves its cursor and
  returns a command, and keeps the columns and rows.  `SetColumns` and
  `SetRows` are the assignments of the columns and rows; nothing proved here
  depends on where they leave the cursor.
* `sortColumnIdx` is a Go `int` of 64 bits: the additions of `Update` wrap
  around (`wrapInt`) and `%` is the truncated remainder.
* A message is a key press with the name `msg.String()` gives it, or
  another message.  `openFolder` is recorded as the list of the paths it is
  called with.
-/

namespace RepoScope

/-! ## Data model -/

/-- A cleaned path, as its list of components. -/
abbrev Path := List String

/-- Go `filepath.Dir` on a cleaned path. -/
def filepathDir (p : Path) : Path := p.dropLast

/-- Go `filepath.Base` on a cleaned path; the path without components is `"."`. -/
def filepathBase (p : Path) : String := (p.getLast?).getD "."

/-- Go `filepath.Join path name` for a single component `name`. -/
def filepathJoin (p : Path) (name : String) : Path := p ++ [name]

/-- The `Project` record of `main.go`. -/
structure Project where
  Name : String
  Marker : String
  Size : Nat
  FileCount : Nat
  Status : String
  Path : Path
  deriving DecidableEq, Repr, Inhabited

/-- A directory entry together with what lies below it. -/
inductive Entry where
  | file (name : String) (size : Nat) : Entry
  | dir (name : String) (children : List Entry) : Entry
  deriving Repr

/-- Go `d.Name()`. -/
def Entry.name : Entry → String
  | .file n _ => n
  | .dir n _ => n

/-- Go `d.IsDir()`. -/
def Entry.isDir : Entry → Bool
  | .file _ _ => false
  | .dir _ _ => true

/-- The entries `os.ReadDir` returns for the entry; none for a file. -/
def Entry.children : Entry → List Entry
  | .file _ _ => []
  | .dir _ cs => cs

/-- The table `markers` of `main.go`. -/
def markers (name : String) : Option String :=
  if name = ".git" then some "Git"
  else if name = "package.json" then some "JS"
  else if name = "go.mod" then some "Go"
  else if name = "requirements.txt" then some "Py"
  else if name = "pyproject.toml" then some "Py"
  else if name = "Cargo.toml" then some "Rust"
  else if name = "pom.xml" then some "Java"
  else if name = "composer.json" then some "PHP"
  else none

/-- The table `blacklist` of `main.go`. -/
def blacklist (name : String) : Bool :=
  name = "node_modules" || name = "venv" || name = ".venv" || name = ".git" ||
  name = "dist" || name = "build" || name = "vendor" || name = "target"

/-- Go `strings.HasPrefix`. -/
def HasPrefix (s pre : String) : Bool := pre.data.isPrefixOf s.data

/-! ## getGitSmartStatus -/

/-- Go `unicode.IsSpace`. -/
def isSpace (c : Char) : Bool :=
  c = '\t' || c = '\n' || c.val = 0x0B || c.val = 0x0C || c = '\r' || c = ' ' ||
  c.val = 0x85 || c.val = 0xA0 || c.val = 0x1680 ||
  (0x2000 ≤ c.val && c.val ≤ 0x200A) ||
  c.val = 0x2028 || c.val = 0x2029 || c.val = 0x202F || c.val = 0x205F || c.val = 0x3000

/-- Go `strings.TrimSpace`, on the characters of the string. -/
def TrimSpace (s : List Char) : List Char :=
  ((s.dropWhile isSpace).reverse.dropWhile isSpace).reverse

/-- What the world outside answers in one directory: whether
`git rev-parse --verify HEAD` succeeds; the bytes `Output()` returns for
`git remote` and for `git status --short`, which are what the command wrote
to its standard output, and whether `Output()` returns an error with them
(the command failed); and whether an entry named `.git` of the directory is
a symbolic link to nothing, which `os.Stat` reports as not existing. -/
structure GitProbe where
  headOk : Bool
  remotes : List Char
  changes : List Char
  remotesFailed : Bool
  changesFailed : Bool
  gitDangling : Bool

/-- The body of `getGitSmartStatus`; `gitMissing` is
`os.IsNotExist(err)` for the `os.Stat` of `path/.git`.  The errors of the two
`Output()` calls are assigned to `_`: `remotesFailed` and `changesFailed` are
not looked at. -/
def getGitSmartStatus (gitMissing : Bool) (g : GitProbe) : String :=
  if gitMissing then "—"
  else if !g.headOk then "No Commits"
  else
    let hasRemote := decide ((TrimSpace g.remotes).length > 0)
    let hasChanges := decide ((TrimSpace g.changes).length > 0)
    if hasChanges then "Uncommitted"
    else if !hasRemote then "No Remote"
    else "Synced"

/-- The decision in the words of the specification, to compare with
`getGitSmartStatus`: a command that failed counts as one that wrote nothing. -/
def statusAsSpecified (gitMissing : Bool) (g : GitProbe) : String :=
  let remotes := if g.remotesFailed then [] else g.remotes
  let changes := if g.changesFailed then [] else g.changes
  if gitMissing then "—"
  else if !g.headOk then "No Commits"
  else if (TrimSpace changes).length > 0 then "Uncommitted"
  else if !decide ((TrimSpace remotes).length > 0) then "No Remote"
  else "Synced"

/-- A directory with commits and a remote, in which `git status --short`
wrote one line and then failed. -/
def failedStatusProbe : GitProbe :=
  { headOk := true, remotes := "origin".data ++ ['\n'],
    changes := " M main.go".data ++ ['\n'],
    remotesFailed := false, changesFailed := true, gitDangling := false }

/-! ## analyzeProject -/

/-- The two counters `analyzeProject` accumulates. -/
structure Agg where
  FileCount : Nat
  Size : Nat
  deriving DecidableEq, Repr

mutual
/-- The walk `filepath.WalkDir` performs with the callback of
`analyzeProject`, from entry `d`. -/
def aggWalk : Entry → Agg → Agg
  | .file _ sz, a => { FileCount := a.FileCount + 1, Size := a.Size + sz }
  | .dir name cs, a => if blacklist name then a else aggEntries cs a
/-- The loop of `walkDir` over the entries of a directory, with the callback
of `analyzeProject` (which never stops the loop). -/
def aggEntries : List Entry → Agg → Agg
  | [], a => a
  | d1 :: rest, a => aggEntries rest (aggWalk d1 a)
end

/-- The check `os.IsNotExist` of `os.Stat(filepath.Join(path, ".git"))`: there
is no entry named `.git` in the directory, or the entry is a symbolic link
to nothing (`os.Stat` follows the link). -/
def gitMissing (node : Entry) (g : GitProbe) : Bool :=
  !(node.children.any (fun c => c.name = ".git")) || g.gitDangling

/-- Go `analyzeProject(path, marker)`, where `node` is the directory found at
`path`. -/
def analyzeProject (git : Path → GitProbe) (node : Entry) (path : Path) (marker : String) :
    Project :=
  let a := aggWalk node ⟨0, 0⟩
  { Name := filepathBase path, Marker := marker, Path := path,
    FileCount := a.FileCount, Size := a.Size,
    Status := getGitSmartStatus (gitMissing node (git path)) (git path) }

/-! ## scanProjects -/

/-- The variables `projects` and `processed` that the callback of
`scanProjects` updates. -/
structure ScanState where
  projects : List Project
  processed : List Path
  deriving Repr

/-- What a `WalkDirFunc` returns: `nil` or `filepath.SkipDir`. -/
inductive WalkRes where
  | ok
  | skipDir
  deriving DecidableEq, Repr

/-- The pruning test of the callback of `scanProjects`. -/
def pruned (d : Entry) : Bool :=
  d.isDir && (blacklist d.name || (HasPrefix d.name "." && d.name ≠ ".git"))

/-- The callback of `scanProjects` at `path` with entry `d`; `par` is the
directory at `filepath.Dir(path)`. -/
def visit (git : Path → GitProbe) (par : Entry) (path : Path) (d : Entry) (st : ScanState) :
    ScanState × WalkRes :=
  if pruned d then (st, .skipDir)
  else
    match markers d.name with
    | some marker =>
      let projectRoot := filepathDir path
      if projectRoot ∈ st.processed then (st, .skipDir)
      else
        ({ processed := projectRoot :: st.processed,
           projects := st.projects ++ [analyzeProject git par projectRoot marker] }, .skipDir)
    | none => (st, .ok)

mutual
/-- Go `walkDir(path, d, fn)` with the callback of `scanProjects`. -/
def walkDir (git : Path → GitProbe) (par : Entry) (path : Path) :
    Entry → ScanState → ScanState × WalkRes
  | .file n sz, st => visit git par path (.file n sz) st
  | .dir n cs, st =>
    match visit git par path (.dir n cs) st with
    | (st1, .skipDir) => (st1, .ok)
    | (st1, .ok) => (walkEntries git (.dir n cs) path cs st1, .ok)
/-- The loop of `walkDir` over the entries of the directory `par` at `path`;
`filepath.SkipDir` from an entry ends the loop. -/
def walkEntries (git : Path → GitProbe) (par : Entry) (path : Path) :
    List Entry → ScanState → ScanState
  | [], st => st
  | d1 :: rest, st =>
    match walkDir git par (filepathJoin path d1.name) d1 st with
    | (st1, .skipDir) => st1
    | (st1, .ok) => walkEntries git par path rest st1
end

/-- Go `scanProjects(root)`: `t` is the entry at `root` and `up` the
directory at `filepath.Dir(root)`, which is only looked at when the name of
`root` itself is a marker. -/
def scanProjects (git : Path → GitProbe) (up : Entry) (root : Path) (t : Entry) :
    List Project :=
  (walkDir git up root t ⟨[], []⟩).1.projects

/-- The names of the entries of every directory are strictly increasing, as
`os.ReadDir` returns them. -/
def Entry.Sorted : Entry → Bool
  | .file _ _ => true
  | .dir _ cs => sortedNames cs && allSorted cs
where
  /-- Consecutive names are strictly increasing. -/
  sortedNames : List Entry → Bool
    | [] => true
    | [_] => true
    | a :: b :: rest => decide (a.name.data < b.name.data) && sortedNames (b :: rest)
  /-- Every entry of the list is sorted below itself. -/
  allSorted : List Entry → Bool
    | [] => true
    | a :: rest => a.Sorted && allSorted rest

/-! ## Positions in a tree and the files below an entry -/

/-- The entry reached from `e` by following child positions. -/
def Entry.getAt : Entry → List Nat → Option Entry
  | e, [] => some e
  | .file _ _, _ :: _ => none
  | .dir _ cs, i :: pos =>
    match cs[i]? with
    | some c => c.getAt pos
    | none => none

/-- The tree `e` with the entry at the child positions `pos` replaced by `new`. -/
def Entry.setAt : Entry → List Nat → Entry → Entry
  | _, [], new => new
  | .file n s, _ :: _, _ => .file n s
  | .dir n cs, i :: pos, new =>
    match cs[i]? with
    | some c => .dir n (cs.set i (c.setAt pos new))
    | none => .dir n cs

mutual
/-- Every file at or below the entry, with the names of the directories
around it from the entry downwards, and its size. -/
def Entry.files : Entry → List (List String × Nat)
  | .file _ sz => [([], sz)]
  | .dir n cs => (filesOf cs).map (fun f => (n :: f.1, f.2))
/-- The files at or below the entries of a list. -/
def filesOf : List Entry → List (List String × Nat)
  | [] => []
  | c :: cs => c.files ++ filesOf cs
end

/-- The files of the tree that have no blacklisted directory around them. -/
def Entry.counted (e : Entry) : List (List String × Nat) :=
  e.files.filter (fun f => f.1.all (fun n => !blacklist n))

/-- The files of a list of entries that have no blacklisted directory around them. -/
def countedOf (cs : List Entry) : List (List String × Nat) :=
  (filesOf cs).filter (fun f => f.1.all (fun n => !blacklist n))

/-- The counters after walking, in terms of a list of files. -/
def Agg.add (a : Agg) (fs : List (List String × Nat)) : Agg :=
  { FileCount := a.FileCount + fs.length, Size := a.Size + (fs.map Prod.snd).sum }

/-! ## Predicates on the state of the discovery walk -/

/-- Every recorded project has its path in `processed`, and no path is
recorded twice. -/
def ScanState.Dedup (st : ScanState) : Prop :=
  (∀ p ∈ st.projects, p.Path ∈ st.processed) ∧ (st.projects.map (·.Path)).Nodup

/-- The path lies at or below `root`, and no component below `root` is a
blacklisted or a hidden name. -/
def CleanBelow (root p : Path) : Prop :=
  ∃ rel, p = root ++ rel ∧ ∀ c ∈ rel, blacklist c = false ∧ HasPrefix c "." = false

/-- Every recorded project lies at `filepath.Dir(root)` or cleanly below `root`. -/
def ScanState.Placed (root : Path) (st : ScanState) : Prop :=
  ∀ p ∈ st.projects, p.Path = filepathDir root ∨ CleanBelow root p.Path

/-! ## Trees in which discovery is followed step by step -/

mutual
/-- No two entries of a directory share a name, and no directory that the
discovery walk would enter bears a marker name. -/
def Entry.Tidy : Entry → Bool
  | .file _ _ => true
  | .dir _ cs => decide ((namesOf cs).Nodup) && tidyAll cs
/-- Every entry of the list is tidy and, when it is a directory that is not
pruned, has no marker name. -/
def tidyAll : List Entry → Bool
  | [] => true
  | c :: cs => (!(c.isDir && !pruned c) || (markers c.name).isNone) && c.Tidy && tidyAll cs
/-- The names of the entries of a list. -/
def namesOf : List Entry → List String
  | [] => []
  | c :: cs => c.name :: namesOf cs
end

/-- No project found earlier encloses a project found later. -/
def ScanState.Ordered (st : ScanState) : Prop :=
  st.projects.Pairwise (fun p q => ¬ (p.Path <+: q.Path ∧ p.Path ≠ q.Path))

/-- No project recorded so far sits at the path `p` or above it. -/
def ScanState.NotAbove (st : ScanState) (p : Path) : Prop :=
  ∀ q ∈ st.projects, ¬ q.Path <+: p

/-- No project recorded so far sits at or below one of the entries `cs` of
the directory at `p`. -/
def ScanState.Fresh (st : ScanState) (p : Path) (cs : List Entry) : Prop :=
  ∀ q ∈ st.projects, ∀ c ∈ cs, ¬ filepathJoin p c.name <+: q.Path

/-- The entry lets the loop over its directory go on and declares no root: it
is a pruned directory, or its name is no marker. -/
def passes (e : Entry) : Bool := pruned e || (markers e.name).isNone

/-- The path of the entry at the child positions `pos`, from the entry `t`
at `root`. -/
def pathAt : Entry → Path → List Nat → Path
  | _, root, [] => root
  | .file _ _, root, _ :: _ => root
  | .dir _ cs, root, i :: pos =>
    match cs[i]? with
    | some c => pathAt c (filepathJoin root c.name) pos
    | none => root

/-- The discovery walk enters the directory at the child positions `pos`: on
the way to it every directory is entered, none is pruned or bears a marker
name, and no entry listed before the next one on the way declares a root. -/
def entersAt : Entry → List Nat → Bool
  | .file _ _, _ => false
  | .dir n cs, [] => !pruned (.dir n cs) && (markers n).isNone
  | .dir n cs, i :: pos =>
    !pruned (.dir n cs) && (markers n).isNone && (cs.take i).all passes &&
      match cs[i]? with
      | some c => entersAt c pos
      | none => false

/-- Every processed path is the path of a recorded project. -/
def ScanState.Linked (st : ScanState) : Prop :=
  ∀ x ∈ st.processed, ∃ q ∈ st.projects, q.Path = x

/-- The loop over a directory goes on after the entry: only a file with a
marker name ends it. -/
def goesOn (e : Entry) : Bool := e.isDir || (markers e.name).isNone

/-- The discovery walk enters the directory at the child positions `pos`:
every directory on the way, the last one included, is neither pruned nor
marker-named, and no file listed before the next directory on the way has a
marker name. -/
def entered : Entry → List Nat → Bool
  | .file _ _, _ => false
  | .dir n cs, [] => !pruned (.dir n cs) && (markers n).isNone
  | .dir n cs, i :: pos =>
    !pruned (.dir n cs) && (markers n).isNone && (cs.take i).all goesOn &&
      match cs[i]? with
      | some c => entered c pos
      | none => false

/-- No processed path lies at or below the path `p`. -/
def ScanState.NoneBelow (st : ScanState) (p : Path) : Prop :=
  ∀ x ∈ st.processed, ¬ p <+: x

/-! ## Example trees -/

/-- A `git` oracle in which no directory has a commit. -/
def noGit : Path → GitProbe := fun _ => ⟨false, [], [], false, false, false⟩

/-- A Go project `a` whose sub-directory `cmd` holds a `package.json`. -/
def treeNested : Entry :=
  .dir "r" [.dir "a" [.dir "cmd" [.file "package.json" 10], .file "go.mod" 20]]

/-- A directory `a` whose only marker-named entry is a `.git` directory. -/
def treeGitOnly : Entry :=
  .dir "r" [.dir "a" [.dir ".git" [.file "HEAD" 23], .file "README.md" 40]]

/-- A project `a` with `go.mod`, a `node_modules` directory and a source file. -/
def treeWithDeps : Entry :=
  .dir "a" [.file "go.mod" 30, .file "main.go" 70,
    .dir "node_modules" [.file "index.js" 1000, .dir "dep" [.file "package.json" 200]]]

/-- A project `a` with a hidden directory `.idea` next to `go.mod`. -/
def treeWithHidden : Entry :=
  .dir "a" [.dir ".idea" [.file "workspace.xml" 7], .file "go.mod" 5]

/-- The tree of the two-project scenario: directory `a` holds `go.mod` and one
other file, directory `b` holds `package.json`. -/
def scenarioTree (rn other : String) (s1 s2 s3 : Nat) (otherFirst : Bool) : Entry :=
  .dir rn [
    .dir "a" (if otherFirst then [.file other s2, .file "go.mod" s1]
              else [.file "go.mod" s1, .file other s2]),
    .dir "b" [.file "package.json" s3]]

/-- A directory `a` with the three marker files `Cargo.toml`, `go.mod` and
`package.json`, next to a directory `b` with `go.mod` and `package.json`. -/
def treeTwoMarkers : Entry :=
  .dir "r" [
    .dir "a" [.file "Cargo.toml" 1, .file "go.mod" 2, .file "package.json" 3],
    .dir "b" [.dir ".git" [.file "HEAD" 23], .file "go.mod" 2, .file "package.json" 3]]

/-! ## sort.Slice -/

section SortSlice
variable {α : Type}

/-- Go `data.Less(i, j)` on the current contents of the slice; for an index
outside the slice, where Go panics, the answer is `false`. -/
def lessAt (less : α → α → Bool) (data : List α) (i j : Nat) : Bool :=
  match data[i]?, data[j]? with
  | some x, some y => less x y
  | _, _ => false

/-- Go `data.Swap(i, j)`; for an index outside the slice, where Go panics, the
slice is left as it is. -/
def swapAt (data : List α) (i j : Nat) : List α :=
  match data[i]?, data[j]? with
  | some x, some y => (data.set i y).set j x
  | _, _ => data

/-- The inner loop of `insertionSort_func`:
`for j := i; j > a && data.Less(j, j-1); j-- { data.Swap(j, j-1) }`. -/
def insertionInner (less : α → α → Bool) (a : Nat) : Nat → List α → List α
  | 0, data => data
  | j + 1, data =>
    if a < j + 1 && lessAt less data (j + 1) j then
      insertionInner less a j (swapAt data (j + 1) j)
    else data

/-- A counted loop `for i := start; i < start + n; i++ { body }`. -/
def forUp {σ : Type} (body : Nat → σ → σ) : Nat → Nat → σ → σ
  | 0, _, s => s
  | n + 1, i, s => forUp body n (i + 1) (body i s)

/-- A counted loop `for i := n - 1; i >= 0; i-- { body }`. -/
def forDown {σ : Type} (body : Nat → σ → σ) : Nat → σ → σ
  | 0, s => s
  | n + 1, s => forDown body n (body n s)

/-- Go `insertionSort_func(data, a, b)`. -/
def insertionSort (less : α → α → Bool) (data : List α) (a b : Nat) : List α :=
  forUp (fun i d => insertionInner less a i d) (b - (a + 1)) (a + 1) data

/-- Go `siftDown_func(data, lo, hi, first)`; the first argument bounds the
number of rounds of the loop, and `root` starts at `lo`. -/
def siftDown (less : α → α → Bool) (hi first : Nat) : Nat → Nat → List α → List α
  | 0, _, data => data
  | n + 1, root, data =>
    let child := 2 * root + 1
    if child ≥ hi then data
    else
      let child :=
        if child + 1 < hi && lessAt less data (first + child) (first + child + 1) then child + 1
        else child
      if !lessAt less data (first + root) (first + child) then data
      else siftDown less hi first n child (swapAt data (first + root) (first + child))

/-- Go `heapSort_func(data, a, b)`. -/
def heapSort (less : α → α → Bool) (data : List α) (a b : Nat) : List α :=
  let first := a
  let lo := 0
  let hi := b - a
  let data := forDown (fun i d => siftDown less hi first hi i d) ((hi - 1) / 2 + 1) data
  forDown (fun i d => siftDown less i first i lo (swapAt d first (first + i))) hi data

/-- The loop `for i <= j && test(i) { i++ }`, with `n` the number of indices
from `i` to `j`. -/
def scanUp (test : Nat → Bool) : Nat → Nat → Nat
  | 0, i => i
  | n + 1, i => if test i then scanUp test n (i + 1) else i

/-- The loop `for i <= j && test(j) { j-- }`, with `n` the number of indices
from `i` to `j`. -/
def scanDown (test : Nat → Bool) : Nat → Nat → Nat
  | 0, j => j
  | n + 1, j => if test j then scanDown test n (j - 1) else j

/-- The main loop of `partition_func`; the first argument bounds the number
of rounds.  Returns the slice and the final `j`. -/
def partitionLoop (less : α → α → Bool) (a : Nat) : Nat → Nat → Nat → List α → List α × Nat
  | 0, _, j, data => (data, j)
  | n + 1, i, j, data =>
    let i := scanUp (fun k => lessAt less data k a) (j + 1 - i) i
    let j := scanDown (fun k => !lessAt less data k a) (j + 1 - i) j
    if i > j then (data, j)
    else partitionLoop less a n (i + 1) (j - 1) (swapAt data i j)

/-- Go `partition_func(data, a, b, pivot)`: the slice, the new pivot index
and `alreadyPartitioned`. -/
def partition (less : α → α → Bool) (data : List α) (a b pivot : Nat) : List α × Nat × Bool :=
  let data := swapAt data a pivot
  let i := a + 1
  let j := b - 1
  let i := scanUp (fun k => lessAt less data k a) (j + 1 - i) i
  let j := scanDown (fun k => !lessAt less data k a) (j + 1 - i) j
  if i > j then (swapAt data j a, j, true)
  else
    let data := swapAt data i j
    let r := partitionLoop less a (b - a) (i + 1) (j - 1) data
    (swapAt r.1 r.2 a, r.2, false)

/-- The loop of `partitionEqual_func`; returns the slice and the final `i`. -/
def partitionEqualLoop (less : α → α → Bool) (a : Nat) : Nat → Nat → Nat → List α → List α × Nat
  | 0, i, _, data => (data, i)
  | n + 1, i, j, data =>
    let i := scanUp (fun k => !lessAt less data a k) (j + 1 - i) i
    let j := scanDown (fun k => lessAt less data a k) (j + 1 - i) j
    if i > j then (data, i)
    else partitionEqualLoop less a n (i + 1) (j - 1) (swapAt data i j)

/-- Go `partitionEqual_func(data, a, b, pivot)`. -/
def partitionEqual (less : α → α → Bool) (data : List α) (a b pivot : Nat) : List α × Nat :=
  let data := swapAt data a pivot
  partitionEqualLoop less a (b - a) (a + 1) (b - 1) data

/-- The loops `for j := ...; ...; j-- { if !data.Less(j, j-1) { break }; data.Swap(j, j-1) }`
of `partialInsertionSort_func`, running while `j >= 1`. -/
def shiftLeft (less : α → α → Bool) : Nat → List α → List α
  | 0, data => data
  | j + 1, data =>
    if !lessAt less data (j + 1) j then data
    else shiftLeft less j (swapAt data (j + 1) j)

/-- The loop `for j := i + 1; j < b; j++ { if !data.Less(j, j-1) { break }; data.Swap(j, j-1) }`
of `partialInsertionSort_func`, with `n` the number of indices from `j` to `b - 1`. -/
def shiftRight (less : α → α → Bool) : Nat → Nat → List α → List α
  | 0, _, data => data
  | n + 1, j, data =>
    if !lessAt less data j (j - 1) then data
    else shiftRight less n (j + 1) (swapAt data j (j - 1))

/-- The outer loop of `partialInsertionSort_func`, with `steps` rounds left. -/
def partialInsertionLoop (less : α → α → Bool) (a b : Nat) : Nat → Nat → List α → List α × Bool
  | 0, _, data => (data, false)
  | steps + 1, i, data =>
    let i := scanUp (fun k => !lessAt less data k (k - 1)) (b - i) i
    if i = b then (data, true)
    else if b - a < 50 then (data, false)
    else
      let data := swapAt data i (i - 1)
      let data := if i - a ≥ 2 then shiftLeft less (i - 1) data else data
      let data := if b - i ≥ 2 then shiftRight less (b - (i + 1)) (i + 1) data else data
      partialInsertionLoop less a b steps i data

/-- Go `partialInsertionSort_func(data, a, b)`. -/
def partialInsertionSort (less : α → α → Bool) (data : List α) (a b : Nat) : List α × Bool :=
  partialInsertionLoop less a b 5 (a + 1) data

/-- The loop behind `bits.Len`: the number of halvings that bring `n` to `0`. -/
def bitsLenLoop : Nat → Nat → Nat
  | 0, _ => 0
  | f + 1, n => if n = 0 then 0 else 1 + bitsLenLoop f (n / 2)

/-- Go `bits.Len`: the number of bits of `n`. -/
def bitsLen (n : Nat) : Nat := bitsLenLoop n n

/-- Go `breakPatterns_func(data, a, b)`; `next` is the step of the
pseudo-random generator. -/
def breakPatterns (next : Nat → Nat) (data : List α) (a b : Nat) : List α :=
  let length := b - a
  if length ≥ 8 then
    let modulus := 2 ^ bitsLen length
    let idx := a + (length / 4) * 2 - 1
    (forUp (fun i (s : Nat × List α) =>
        let random := next s.1
        let other := random % modulus
        let other := if other ≥ length then other - length else other
        (random, swapAt s.2 (idx + i) (a + other))) 3 0 (length, data)).2
  else data

/-- Go `sortedHint`. -/
inductive SortedHint where
  | unknownHint
  | increasingHint
  | decreasingHint
  deriving DecidableEq, Repr

/-- Go `order2_func(data, a, b, swaps)`. -/
def order2 (less : α → α → Bool) (data : List α) (a b swaps : Nat) : Nat × Nat × Nat :=
  if lessAt less data b a then (b, a, swaps + 1) else (a, b, swaps)

/-- Go `median_func(data, a, b, c, swaps)`: the index of the median and the
count of swaps. -/
def median (less : α → α → Bool) (data : List α) (a b c swaps : Nat) : Nat × Nat :=
  let o1 := order2 less data a b swaps
  let o2 := order2 less data o1.2.1 c o1.2.2
  let o3 := order2 less data o1.1 o2.1 o2.2.2
  (o3.2.1, o3.2.2)

/-- Go `medianAdjacent_func(data, a, swaps)`. -/
def medianAdjacent (less : α → α → Bool) (data : List α) (a swaps : Nat) : Nat × Nat :=
  median less data (a - 1) a (a + 1) swaps

/-- Go `choosePivot_func(data, a, b)`. -/
def choosePivot (less : α → α → Bool) (data : List α) (a b : Nat) : Nat × SortedHint :=
  let l := b - a
  let i := a + l / 4 * 1
  let j := a + l / 4 * 2
  let k := a + l / 4 * 3
  let js : Nat × Nat :=
    if l ≥ 8 then
      if l ≥ 50 then
        let mi := medianAdjacent less data i 0
        let mj := medianAdjacent less data j mi.2
        let mk := medianAdjacent less data k mj.2
        median less data mi.1 mj.1 mk.1 mk.2
      else median less data i j k 0
    else (j, 0)
  if js.2 = 0 then (js.1, .increasingHint)
  else if js.2 = 12 then (js.1, .decreasingHint)
  else (js.1, .unknownHint)

/-- The loop of `reverseRange_func`, with at most `n` rounds. -/
def reverseLoop : Nat → Nat → Nat → List α → List α
  | 0, _, _, data => data
  | n + 1, i, j, data => if i < j then reverseLoop n (i + 1) (j - 1) (swapAt data i j) else data

/-- Go `reverseRange_func(data, a, b)`. -/
def reverseRange (data : List α) (a b : Nat) : List α :=
  reverseLoop (b - a) a (b - 1) data

/-- Go `pdqsort_func(data, a, b, limit)`; `wasBalanced` and `wasPartitioned`
are the two variables of its loop, and the first argument bounds the number
of rounds and the depth of the calls. -/
def pdqsort (less : α → α → Bool) (next : Nat → Nat) :
    Nat → Nat → Nat → Nat → Bool → Bool → List α → List α
  | 0, _, _, _, _, _, data => data
  | n + 1, a, b, limit, wasBalanced, wasPartitioned, data =>
    let length := b - a
    if length ≤ 12 then insertionSort less data a b
    else if limit = 0 then heapSort less data a b
    else
      let data := if !wasBalanced then breakPatterns next data a b else data
      let limit := if !wasBalanced then limit - 1 else limit
      let ph := choosePivot less data a b
      let data := if ph.2 = .decreasingHint then reverseRange data a b else data
      let pivot := if ph.2 = .decreasingHint then (b - 1) - (ph.1 - a) else ph.1
      let hint := if ph.2 = .decreasingHint then SortedHint.increasingHint else ph.2
      let ps :=
        if wasBalanced && wasPartitioned && hint = .increasingHint then
          partialInsertionSort less data a b
        else (data, false)
      if ps.2 then ps.1
      else
        let data := ps.1
        if a > 0 && !lessAt less data (a - 1) pivot then
          let pe := partitionEqual less data a b pivot
          pdqsort less next n pe.2 b limit wasBalanced wasPartitioned pe.1
        else
          let pt := partition less data a b pivot
          let mid := pt.2.1
          let leftLen := mid - a
          let rightLen := b - mid
          let balanceThreshold := length / 8
          if leftLen < rightLen then
            pdqsort less next n (mid + 1) b limit (leftLen ≥ balanceThreshold) pt.2.2
              (pdqsort less next n a mid limit true true pt.1)
          else
            pdqsort less next n a mid limit (rightLen ≥ balanceThreshold) pt.2.2
              (pdqsort less next n (mid + 1) b limit true true pt.1)

/-- Go `sort.Slice(x, less)`, where `less` compares the elements at two
indices of the slice as it stands. -/
def sortSlice (less : α → α → Bool) (next : Nat → Nat) (x : List α) : List α :=
  let length := x.length
  let limit := bitsLen length
  pdqsort less next (length + 1) 0 length limit true true x

end SortSlice

/-! ## What sort.Slice is shown to do -/

section SortSpec
variable {α : Type} [Inhabited α]

/-- The element at index `i`, for the statements about the slice. -/
def nth (data : List α) (i : Nat) : α := (data[i]?).getD default

/-- The order a comparison function sorts by: `x` may stand before `y`. -/
def Le (less : α → α → Bool) (x y : α) : Prop := less x y = true ∨ less y x = false

/-- The comparison function is transitive, and so is its negation; and it is
either asymmetric or holds in one of the two directions for every pair. -/
structure Weak (less : α → α → Bool) : Prop where
  trans : ∀ x y z, less x y = true → less y z = true → less x z = true
  ntrans : ∀ x y z, less x y = false → less y z = false → less x z = false
  split : (∀ x y, less x y = true → less y x = false) ∨
    (∀ x y, less x y = false → less y x = true)

/-- The part `data[a:b]` is ordered. -/
def SortedSeg (less : α → α → Bool) (data : List α) (a b : Nat) : Prop :=
  ∀ i j, a ≤ i → i < j → j < b → Le less (nth data i) (nth data j)

/-- The slice `d2` differs from `d1` only inside `[a, b)`, and what it holds
there comes from there. -/
def Frame (a b : Nat) (d1 d2 : List α) : Prop :=
  d2.length = d1.length ∧ (∀ k, k < a ∨ b ≤ k → nth d2 k = nth d1 k) ∧
    ∀ k, a ≤ k → k < b → ∃ k1, a ≤ k1 ∧ k1 < b ∧ nth d2 k = nth d1 k1

/-- No element of `data[a:b]` is less than the element before the part. -/
def Guard (less : α → α → Bool) (data : List α) (a b : Nat) : Prop :=
  0 < a → ∀ k, a ≤ k → k < b → less (nth data k) (nth data (a - 1)) = false

/-- The state of the two-pointer loops of `partition_func`: everything
before `i` is less than the pivot at `a`, nothing after `j` is. -/
def PartInv (less : α → α → Bool) (a b i j : Nat) (d : List α) : Prop :=
  a + 1 ≤ i ∧ i ≤ j + 1 ∧ j + 1 ≤ b ∧ b ≤ d.length ∧
    (∀ k, a + 1 ≤ k → k < i → less (nth d k) (nth d a) = true) ∧
    (∀ k, j < k → k < b → less (nth d k) (nth d a) = false)

/-- The state of the two-pointer loop of `partitionEqual_func`: the pivot at
`a` is less than nothing before `i` and less than everything after `j`. -/
def PartEqInv (less : α → α → Bool) (a b i j : Nat) (d : List α) : Prop :=
  a + 1 ≤ i ∧ i ≤ j + 1 ∧ j + 1 ≤ b ∧ b ≤ d.length ∧
    (∀ k, a + 1 ≤ k → k < i → less (nth d a) (nth d k) = false) ∧
    (∀ k, j < k → k < b → less (nth d a) (nth d k) = true)

/-- Both children of heap position `p`, where they exist below `hi`, may stand
before `p`. -/
def ChildLe (less : α → α → Bool) (first hi : Nat) (d : List α) (p : Nat) : Prop :=
  ∀ c, (c = 2 * p + 1 ∨ c = 2 * p + 2) → c < hi →
    Le less (nth d (first + c)) (nth d (first + p))

/-- The heap property at every position from `lo` on. -/
def HeapFrom (less : α → α → Bool) (first lo hi : Nat) (d : List α) : Prop :=
  ∀ p, lo ≤ p → ChildLe less first hi d p

/-- The state of the loop of `siftDown_func`: the heap property holds from
`lo` on except at `root`, and the children of `root` may stand before the
parent of `root`. -/
def SiftInv (less : α → α → Bool) (first lo hi root : Nat) (d : List α) : Prop :=
  (∀ p, lo ≤ p → p ≠ root → ChildLe less first hi d p) ∧
    (1 ≤ root → lo ≤ (root - 1) / 2 → ∀ c, (c = 2 * root + 1 ∨ c = 2 * root + 2) → c < hi →
      Le less (nth d (first + c)) (nth d (first + (root - 1) / 2)))

/-- The state of the second loop of `heapSort_func` with `n` elements left
in the heap. -/
def PopInv (less : α → α → Bool) (first hi n : Nat) (d : List α) : Prop :=
  HeapFrom less first 0 n d ∧ SortedSeg less d (first + n) (first + hi) ∧
    ∀ k m, k < n → n ≤ m → m < hi → Le less (nth d (first + k)) (nth d (first + m))

end SortSpec

/-! ## The table model and sortData -/

/-- Library functions that stay abstract: `strings.ToLower`, and the step of
the pseudo-random generator of package `sort`. -/
structure Lib where
  ToLower : String → String
  xorshiftNext : Nat → Nat

/-- A `table.Column`. -/
structure Column where
  Title : String
  Width : Nat
  deriving DecidableEq, Repr

/-- The part of `table.Model` that `main.go` writes and reads. -/
structure Table where
  cols : List Column
  rows : List (List String)
  cursor : Int
  deriving DecidableEq, Repr

/-- The `model` of `main.go`. -/
structure model where
  table : Table
  projects : List Project
  sortColumnIdx : Int
  ascending : Bool
  deriving DecidableEq, Repr

/-- Go `<` on strings. -/
def strLess (a b : String) : Bool := decide (a.data < b.data)

/-- The comparison function `sortData` hands to `sort.Slice`, on the two
projects at the indices it is called with. -/
def sortLess (lib : Lib) (sortColumnIdx : Int) (ascending : Bool) (p1 p2 : Project) : Bool :=
  let res :=
    if sortColumnIdx = 0 then strLess (lib.ToLower p1.Name) (lib.ToLower p2.Name)
    else if sortColumnIdx = 1 then strLess p1.Marker p2.Marker
    else if sortColumnIdx = 2 then decide (p1.Size < p2.Size)
    else if sortColumnIdx = 3 then decide (p1.FileCount < p2.FileCount)
    else if sortColumnIdx = 4 then strLess p1.Status p2.Status
    else false
  if !ascending then !res else res

/-- The `%.1f` rendering of `num / den`: tenths, rounded to nearest, ties
to even. -/
def fmtTenths (num den : Nat) : String :=
  let q := 10 * num / den
  let r := 10 * num % den
  let q := if 2 * r > den ∨ (2 * r = den ∧ q % 2 = 1) then q + 1 else q
  toString (q / 10) ++ "." ++ toString (q % 10)

/-- Go `float64(b)` for an `int64` that is not negative, as the integer the
result is: `b` rounded to 53 significant bits, to nearest, ties to even. -/
def toFloat64 (b : Nat) : Nat :=
  let e := bitsLen b - 53
  let q := b / 2 ^ e
  let r := b % 2 ^ e
  let q := if 2 * r > 2 ^ e ∨ (2 * r = 2 ^ e ∧ q % 2 = 1) then q + 1 else q
  q * 2 ^ e

/-- Go `formatSize(b)`.  The division of a `float64` by a power of two is
exact, so `%.1f` renders `float64(b)` divided by 1024 or by 1024 * 1024. -/
def formatSize (b : Nat) : String :=
  if b < 1024 then toString b ++ " B"
  else if b < 1024 * 1024 then fmtTenths (toFloat64 b) 1024 ++ " KB"
  else fmtTenths (toFloat64 b) (1024 * 1024) ++ " MB"

/-- Go `m.getTableColumns()`. -/
def getTableColumns (m : model) : List Column :=
  let headers := ["Project", "Type", "Size", "Files", "Git Status"]
  let widths := [25, 8, 10, 8, 15]
  (headers.zip widths).enum.map (fun c =>
    { Title := if (c.1 : Int) = m.sortColumnIdx then
        c.2.1 ++ (if m.ascending then " 🔼" else " 🔽") else c.2.1,
      Width := c.2.2 })

/-- The table row `sortData` builds for a project. -/
def projectRow (p : Project) : List String :=
  [p.Name, p.Marker, formatSize p.Size, toString p.FileCount, p.Status]

/-- Go `m.sortData()`. -/
def sortData (lib : Lib) (m : model) : model :=
  let projects :=
    sortSlice (sortLess lib m.sortColumnIdx m.ascending) lib.xorshiftNext m.projects
  { m with
    projects := projects,
    table := { m.table with cols := getTableColumns m, rows := projects.map projectRow } }

/-- The sort key of a project in column `c`, for the columns with a string key. -/
def strKey (lib : Lib) (c : Int) (p : Project) : String :=
  if c = 0 then lib.ToLower p.Name else if c = 1 then p.Marker else p.Status

/-- The sort key of a project in column `c`, for the columns with a numeric key. -/
def natKey (c : Int) (p : Project) : Nat :=
  if c = 2 then p.Size else p.FileCount

/-- Two projects of the same size, and a model sorted by size, descending. -/
def tiedModel : model :=
  { table := ⟨[], [], 0⟩,
    projects := [⟨"a", "Go", 100, 2, "—", ["r", "a"]⟩, ⟨"b", "JS", 100, 1, "—", ["r", "b"]⟩],
    sortColumnIdx := 2, ascending := false }

/-- Four projects, two of them of the same size, in a model sorted by size,
descending; the list is not in that order. -/
def unsortedModel : model :=
  { table := ⟨[], [], 0⟩,
    projects := [⟨"c", "Go", 200, 2, "—", ["r", "c"]⟩, ⟨"a", "JS", 100, 1, "Synced", ["r", "a"]⟩,
      ⟨"d", "Py", 300, 7, "—", ["r", "d"]⟩, ⟨"b", "Go", 100, 4, "No Remote", ["r", "b"]⟩],
    sortColumnIdx := 2, ascending := false }

/-- The projects are in the order of column `c`: `p` may stand before `q`
when sorting in ascending order. -/
def KeyLe (lib : Lib) (c : Int) (p q : Project) : Prop :=
  if c = 0 then lib.ToLower p.Name ≤ lib.ToLower q.Name
  else if c = 1 then p.Marker ≤ q.Marker
  else if c = 2 then p.Size ≤ q.Size
  else if c = 3 then p.FileCount ≤ q.FileCount
  else p.Status ≤ q.Status

/-- A sample of the library functions: ASCII lower-casing, and the xorshift
step on 64 bits with the shifts 13, 7 and 17. -/
def sampleLib : Lib :=
  { ToLower := fun s => s.map Char.toLower,
    xorshiftNext := fun r =>
      let r := (r ^^^ (r <<< 13)) % 2 ^ 64
      let r := r ^^^ (r >>> 7)
      (r ^^^ (r <<< 17)) % 2 ^ 64 }

/-! ## The interaction loop -/

/-- A `tea.Msg`: a key press, with the name `msg.String()` gives it, or any
other message. -/
inductive Msg where
  | key (name : String)
  | other (code : Nat)
  deriving DecidableEq, Repr

/-- A `tea.Cmd`, as far as `Update` tells them apart: `tea.Quit`, or what
`m.table.Update` returned. -/
inductive Cmd where
  | Quit
  | ofTable (code : Nat)
  deriving DecidableEq, Repr

/-- What the table widget does with a message in `table.Update`: where its
cursor goes and the command it returns.  The widget keeps the columns and
rows that were set. -/
structure Widget where
  moveCursor : Table → Msg → Int
  command : Table → Msg → Nat

/-- Go `m.table.Update(msg)`. -/
def tableUpdate (w : Widget) (t : Table) (msg : Msg) : Table × Cmd :=
  ({ t with cursor := w.moveCursor t msg }, .ofTable (w.command t msg))

/-- The value a Go `int` of 64 bits holds after an addition or subtraction
whose exact result is `x`. -/
def wrapInt (x : Int) : Int := (x + 2 ^ 63) % 2 ^ 64 - 2 ^ 63

/-- What one call of `Update` does: the model and the command it returns, and
the paths it hands to `openFolder`. -/
structure Step where
  next : model
  cmd : Cmd
  opened : List Path
  deriving Repr

/-- The last two lines of `Update`: the message goes to the table widget, and
the model is returned with the command of the widget. -/
def forward (w : Widget) (msg : Msg) (m : model) (opened : List Path) : Step :=
  let r := tableUpdate w m.table msg
  { next := { m with table := r.1 }, cmd := r.2, opened := opened }

/-- Go `m.Update(msg)`.  The answer `none` is the run-time panic of an index
outside `m.projects`. -/
def Update (lib : Lib) (w : Widget) (m : model) (msg : Msg) : Option Step :=
  match msg with
  | .key k =>
    if k = "esc" ∨ k = "q" ∨ k = "ctrl+c" then
      some { next := m, cmd := .Quit, opened := [] }
    else if k = "left" ∨ k = "h" then
      let m1 := { m with
        sortColumnIdx := Int.tmod (wrapInt (wrapInt (m.sortColumnIdx - 1) + 5)) 5 }
      some (forward w msg (sortData lib m1) [])
    else if k = "right" ∨ k = "l" then
      let m1 := { m with sortColumnIdx := Int.tmod (wrapInt (m.sortColumnIdx + 1)) 5 }
      some (forward w msg (sortData lib m1) [])
    else if k = "s" then
      let m1 := { m with ascending := !m.ascending }
      some (forward w msg (sortData lib m1) [])
    else if k = "enter" then
      let currIdx := m.table.cursor
      if 0 ≤ currIdx ∧ currIdx < m.projects.length then
        match m.projects[currIdx.toNat]? with
        | some p => some (forward w msg m [p.Path])
        | none => none
      else some (forward w msg m [])
    else some (forward w msg m [])
  | .other _ => some (forward w msg m [])

/-- The model after the messages `msgs`, each handed to `Update` with the
model the message before it left. -/
def run (lib : Lib) (w : Widget) : model → List Msg → Option model
  | m, [] => some m
  | m, msg :: rest =>
    match Update lib w m msg with
    | some s => run lib w s.next rest
    | none => none

/-- The model `main` hands to `tea.NewProgram` for the projects the scan
returned: column 0, ascending, a new table with the columns of that model,
then `sortData`. -/
def mainModel (lib : Lib) (projs : List Project) : model :=
  let m : model :=
    { table := ⟨[], [], 0⟩, projects := projs, sortColumnIdx := 0, ascending := true }
  sortData lib { m with table := ⟨getTableColumns m, [], 0⟩ }

/-- Two projects have the same sort key in column `c`. -/
def SameKey (lib : Lib) (c : Int) (p q : Project) : Prop :=
  if c = 0 then lib.ToLower p.Name = lib.ToLower q.Name
  else if c = 1 then p.Marker = q.Marker
  else if c = 2 then p.Size = q.Size
  else if c = 3 then p.FileCount = q.FileCount
  else p.Status = q.Status

/-- The labels of the five columns. -/
def labels : List String := ["Project", "Type", "Size", "Files", "Git Status"]

/-- A widget whose cursor goes down on "down" and up on "up", within the rows. -/
def sampleWidget : Widget :=
  { moveCursor := fun t msg =>
      if msg = .key "down" then min (t.cursor + 1) (t.rows.length - 1)
      else if msg = .key "up" then max (t.cursor - 1) 0
      else t.cursor,
    command := fun _ _ => 0 }

/-- Three projects with distinct sizes. -/
def threeProjects : List Project :=
  [⟨"b", "JS", 300, 3, "—", ["r", "b"]⟩, ⟨"a", "Go", 100, 2, "Synced", ["r", "a"]⟩,
   ⟨"c", "Py", 200, 5, "No Remote", ["r", "c"]⟩]

/-- A model with the three projects, the sort column Size and the ascending
direction. -/
def sizeModel : model :=
  { table := ⟨[], [], 0⟩, projects := threeProjects, sortColumnIdx := 2, ascending := true }

/-! ## Invariants of the discovery walk -/

mutual
/-- A property of the scan state that the callback keeps is kept by `walkDir`. -/
theorem walkDir_preserves (git : Path → GitProbe) (I : ScanState → Prop)
    (hv : ∀ par path d st, I st → I (visit git par path d st).1) :
    ∀ (d par : Entry) (path : Path) (st : ScanState), I st → I (walkDir git par path d st).1
  | .file n sz, par, path, st, h => by
    rw [walkDir]; exact hv par path _ st h
  | .dir n cs, par, path, st, h => by
    rw [walkDir]
    have h1 := hv par path (.dir n cs) st h
    rcases hvis : visit git par path (.dir n cs) st with ⟨st1, r⟩
    rw [hvis] at h1
    cases r with
    | skipDir => exact h1
    | ok => exact walkEntries_preserves git I hv cs (.dir n cs) path st1 h1
/-- A property of the scan state that the callback keeps is kept by the loop
over the entries of a directory. -/
theorem walkEntries_preserves (git : Path → GitProbe) (I : ScanState → Prop)
    (hv : ∀ par path d st, I st → I (visit git par path d st).1) :
    ∀ (cs : List Entry) (par : Entry) (path : Path) (st : ScanState),
      I st → I (walkEntries git par path cs st)
  | [], par, path, st, h => by rw [walkEntries]; exact h
  | d1 :: rest, par, path, st, h => by
    rw [walkEntries]
    have h1 := walkDir_preserves git I hv d1 par (filepathJoin path d1.name) st h
    rcases hw : walkDir git par (filepathJoin path d1.name) d1 st with ⟨st1, r⟩
    rw [hw] at h1
    cases r with
    | skipDir => exact h1
    | ok => exact walkEntries_preserves git I hv rest par path st1 h1
end

theorem visit_dedup (git : Path → GitProbe) (par : Entry) (path : Path) (d : Entry)
    (st : ScanState) (h : st.Dedup) : (visit git par path d st).1.Dedup := by
  unfold visit
  split
  · exact h
  · split
    · rename_i marker _
      dsimp only
      split
      · exact h
      · rename_i hnot
        refine ⟨?_, ?_⟩
        · intro p hp
          simp only [List.mem_append, List.mem_singleton] at hp
          rcases hp with hp | hp
          · exact List.mem_cons_of_mem _ (h.1 p hp)
          · subst hp; simp [analyzeProject]
        · simp only [List.map_append, List.map_cons, List.map_nil]
          rw [List.nodup_append]
          refine ⟨h.2, by simp, ?_⟩
          intro a ha hb
          simp only [List.mem_singleton] at hb
          subst hb
          rcases List.mem_map.1 ha with ⟨p, hp, hpe⟩
          apply hnot
          have := h.1 p hp
          rw [hpe] at this
          simpa [analyzeProject] using this
    · exact h

/-- C2: the projects `scanProjects` returns have pairwise distinct paths. -/
theorem scanProjects_paths_nodup (git : Path → GitProbe) (up : Entry) (root : Path)
    (t : Entry) : ((scanProjects git up root t).map (·.Path)).Nodup :=
  (walkDir_preserves git ScanState.Dedup (visit_dedup git) t up root ⟨[], []⟩
    ⟨by simp, by simp⟩).2


theorem visit_ok (git : Path → GitProbe) (par : Entry) (path : Path) (d : Entry)
    (st st1 : ScanState) (h : visit git par path d st = (st1, .ok)) :
    st1 = st ∧ pruned d = false := by
  unfold visit at h
  split at h
  · simp at h
  · rename_i hp
    split at h
    · dsimp only at h
      split at h <;> simp at h
    · simp only [Prod.mk.injEq, and_true] at h
      exact ⟨h.symm, by simpa using hp⟩

theorem visit_placed (git : Path → GitProbe) (root : Path) (par : Entry) (path : Path)
    (d : Entry) (st : ScanState)
    (hp : filepathDir path = filepathDir root ∨ CleanBelow root (filepathDir path))
    (h : st.Placed root) : (visit git par path d st).1.Placed root := by
  unfold visit
  split
  · exact h
  · split
    · dsimp only
      split
      · exact h
      · intro p hmem
        simp only [List.mem_append, List.mem_singleton] at hmem
        rcases hmem with hmem | hmem
        · exact h p hmem
        · subst hmem
          simpa [analyzeProject] using hp
    · exact h

theorem filepathDir_join (p : Path) (n : String) : filepathDir (filepathJoin p n) = p := by
  simp [filepathDir, filepathJoin]

theorem cleanBelow_join (root p : Path) (n : String) (cs : List Entry)
    (h : CleanBelow root p) (hn : pruned (.dir n cs) = false) :
    CleanBelow root (filepathJoin p n) := by
  rcases h with ⟨rel, rfl, hrel⟩
  have hb : blacklist n = false ∧ HasPrefix n "." = false := by
    simp only [pruned, Entry.isDir, Entry.name, Bool.true_and, Bool.or_eq_false_iff,
      Bool.and_eq_false_iff] at hn
    refine ⟨hn.1, ?_⟩
    rcases hn.2 with h2 | h2
    · exact h2
    · have : n = ".git" := by simpa using h2
      rw [this] at hn
      exact absurd hn.1 (by decide)
  refine ⟨rel ++ [n], by simp [filepathJoin], ?_⟩
  intro c hc
  simp only [List.mem_append, List.mem_singleton] at hc
  rcases hc with hc | hc
  · exact hrel c hc
  · subst hc; exact hb

mutual
/-- Walking an entry of a directory that lies cleanly below `root` records
projects only cleanly below `root`. -/
theorem walkDir_placed (git : Path → GitProbe) (root : Path) :
    ∀ (d par : Entry) (p : Path) (st : ScanState), CleanBelow root p → st.Placed root →
      (walkDir git par (filepathJoin p d.name) d st).1.Placed root
  | .file n sz, par, p, st, hc, h => by
    rw [walkDir]
    exact visit_placed git root par _ _ st (Or.inr (by rw [filepathDir_join]; exact hc)) h
  | .dir n cs, par, p, st, hc, h => by
    rw [walkDir]
    have h1 := visit_placed git root par (filepathJoin p (Entry.dir n cs).name) (.dir n cs) st
      (Or.inr (by rw [filepathDir_join]; exact hc)) h
    rcases hvis : visit git par (filepathJoin p (Entry.dir n cs).name) (.dir n cs) st
      with ⟨st1, r⟩
    rw [hvis] at h1
    cases r with
    | skipDir => exact h1
    | ok =>
      have hok := visit_ok git par _ _ st st1 hvis
      exact walkEntries_placed git root cs (.dir n cs) _ st1
        (cleanBelow_join root p n cs hc hok.2) h1
/-- The loop over the entries of a directory that lies cleanly below `root`
records projects only cleanly below `root`. -/
theorem walkEntries_placed (git : Path → GitProbe) (root : Path) :
    ∀ (cs : List Entry) (par : Entry) (p : Path) (st : ScanState), CleanBelow root p →
      st.Placed root → (walkEntries git par p cs st).Placed root
  | [], par, p, st, _, h => by rw [walkEntries]; exact h
  | d1 :: rest, par, p, st, hc, h => by
    rw [walkEntries]
    have h1 := walkDir_placed git root d1 par p st hc h
    rcases hw : walkDir git par (filepathJoin p d1.name) d1 st with ⟨st1, r⟩
    rw [hw] at h1
    cases r with
    | skipDir => exact h1
    | ok => exact walkEntries_placed git root rest par p st1 hc h1
end

theorem cleanBelow_root (root : Path) : CleanBelow root root :=
  ⟨[], by simp, by simp⟩

theorem scanProjects_placed (git : Path → GitProbe) (up : Entry) (root : Path) (t : Entry) :
    ∀ p ∈ scanProjects git up root t, p.Path = filepathDir root ∨ CleanBelow root p.Path := by
  have h0 : ScanState.Placed root ⟨[], []⟩ := by intro p hp; simp at hp
  unfold scanProjects
  cases t with
  | file n sz =>
    rw [walkDir]
    exact visit_placed git root up root _ _ (Or.inl rfl) h0
  | dir n cs =>
    rw [walkDir]
    have h1 := visit_placed git root up root (.dir n cs) _ (Or.inl rfl) h0
    rcases hvis : visit git up root (.dir n cs) ⟨[], []⟩ with ⟨st1, r⟩
    rw [hvis] at h1
    cases r with
    | skipDir => exact h1
    | ok => exact walkEntries_placed git root cs (.dir n cs) root st1 (cleanBelow_root root) h1

/-- C4: no project returned by `scanProjects` has a path that is, or lies
beneath, a directory below the scan root whose name is blacklisted or
starts with a dot. -/
theorem scanProjects_not_under_pruned (git : Path → GitProbe) (up : Entry) (root : Path)
    (t : Entry) (p : Project) (hp : p ∈ scanProjects git up root t)
    (pre : Path) (c : String) (hpre : (root ++ pre ++ [c]) <+: p.Path) :
    blacklist c = false ∧ HasPrefix c "." = false := by
  rcases scanProjects_placed git up root t p hp with h | ⟨rel, hrel, hall⟩
  · exfalso
    have hl := hpre.length_le
    rw [h] at hl
    simp [filepathDir] at hl
    omega
  · rw [hrel, List.append_assoc] at hpre
    have h2 : (pre ++ [c]) <+: rel := (List.prefix_append_right_inj root).1 hpre
    exact hall c (h2.subset (by simp))


/-! ## Aggregation -/

theorem aggEntries_set (cs : List Entry) (i : Nat) (c c1 : Entry) (hc : cs[i]? = some c)
    (h : ∀ a, aggWalk c1 a = aggWalk c a) (a : Agg) :
    aggEntries (cs.set i c1) a = aggEntries cs a := by
  induction cs generalizing i a with
  | nil => simp at hc
  | cons d rest ih =>
    cases i with
    | zero =>
      simp only [List.getElem?_cons_zero, Option.some.injEq] at hc
      subst hc
      simp only [List.set_cons_zero]
      rw [aggEntries, aggEntries, h]
    | succ j =>
      simp only [List.getElem?_cons_succ] at hc
      simp only [List.set_cons_succ]
      rw [aggEntries, aggEntries]
      exact ih j hc _

theorem aggWalk_setAt (pos : List Nat) :
    ∀ (node : Entry) (name : String) (cs : List Entry),
      node.getAt pos = some (.dir name cs) → blacklist name = true →
      ∀ a, aggWalk (node.setAt pos (.dir name [])) a = aggWalk node a := by
  induction pos with
  | nil =>
    intro node name cs hg hb a
    simp only [Entry.getAt, Option.some.injEq] at hg
    subst hg
    simp [Entry.setAt, aggWalk, hb]
  | cons i pos ih =>
    intro node name cs hg hb a
    cases node with
    | file n s => simp [Entry.getAt] at hg
    | dir n ds =>
      simp only [Entry.getAt] at hg
      simp only [Entry.setAt]
      cases hd : ds[i]? with
      | none => simp [hd] at hg
      | some c =>
        simp only [hd] at hg
        simp only [aggWalk]
        split
        · rfl
        · exact aggEntries_set ds i c _ hd (ih c name cs hg hb) a

/-- C5: a blacklisted directory anywhere in a project contributes nothing:
`analyzeProject` reports the same `FileCount` and `Size` as on the tree in
which the contents of that directory are removed. -/
theorem analyzeProject_blacklisted_dir_contributes_nothing (git : Path → GitProbe)
    (node : Entry) (path : Path) (marker : String) (pos : List Nat) (name : String)
    (cs : List Entry) (hdir : node.getAt pos = some (.dir name cs))
    (hb : blacklist name = true) :
    (analyzeProject git (node.setAt pos (.dir name [])) path marker).FileCount
        = (analyzeProject git node path marker).FileCount ∧
      (analyzeProject git (node.setAt pos (.dir name [])) path marker).Size
        = (analyzeProject git node path marker).Size := by
  constructor <;> simp only [analyzeProject, aggWalk_setAt pos node name cs hdir hb]

/-- The statement of C5 on a project with a `node_modules` directory. -/
theorem analyzeProject_blacklisted_dir_witness :
    treeWithDeps.getAt [2] = some (.dir "node_modules"
        [.file "index.js" 1000, .dir "dep" [.file "package.json" 200]]) ∧
      blacklist "node_modules" = true ∧
      (analyzeProject noGit treeWithDeps ["r", "a"] "Go").FileCount = 2 ∧
      (analyzeProject noGit
          (treeWithDeps.setAt [2] (.dir "node_modules" [])) ["r", "a"] "Go").FileCount
        = (analyzeProject noGit treeWithDeps ["r", "a"] "Go").FileCount :=
  ⟨rfl, by decide, by decide,
    (analyzeProject_blacklisted_dir_contributes_nothing noGit treeWithDeps
      ["r", "a"] "Go" [2] "node_modules" _ rfl (by decide)).1⟩

theorem Agg.add_nil (a : Agg) : a.add [] = a := by simp [Agg.add]

theorem Agg.add_append (a : Agg) (xs ys : List (List String × Nat)) :
    a.add (xs ++ ys) = (a.add xs).add ys := by
  simp [Agg.add, Nat.add_assoc]

theorem counted_dir (n : String) (cs : List Entry) :
    (Entry.dir n cs).counted =
      if blacklist n then [] else (countedOf cs).map (fun f => (n :: f.1, f.2)) := by
  simp only [Entry.counted, Entry.files, countedOf, List.filter_map]
  split
  · rename_i hb
    simp [Function.comp_def, hb]
  · rename_i hb
    simp [Function.comp_def, hb]

theorem Agg.add_map_cons (a : Agg) (n : String) (fs : List (List String × Nat)) :
    a.add (fs.map (fun f => (n :: f.1, f.2))) = a.add fs := by
  simp [Agg.add, Function.comp_def]

mutual
theorem aggWalk_eq_counted : ∀ (e : Entry) (a : Agg), aggWalk e a = a.add e.counted
  | .file n sz, a => by simp [aggWalk, Entry.counted, Entry.files, Agg.add]
  | .dir n cs, a => by
    rw [aggWalk, counted_dir]
    split
    · simp [Agg.add_nil]
    · rw [Agg.add_map_cons]; exact aggEntries_eq_counted cs a
theorem aggEntries_eq_counted : ∀ (cs : List Entry) (a : Agg), aggEntries cs a = a.add (countedOf cs)
  | [], a => by simp [aggEntries, countedOf, filesOf, Agg.add_nil]
  | c :: cs, a => by
    rw [aggEntries, aggEntries_eq_counted cs, aggWalk_eq_counted c]
    simp only [countedOf, filesOf, List.filter_append, Agg.add_append]
    rfl
end

/-- C6, as the code has it: aggregation prunes exactly the blacklisted
directories.  `FileCount` and `Size` are the number and the total size of
the files with no blacklisted directory around them; whether a directory
name starts with a dot plays no part. -/
theorem analyzeProject_counts_unblacklisted_files (git : Path → GitProbe) (node : Entry)
    (path : Path) (marker : String) :
    (analyzeProject git node path marker).FileCount = node.counted.length ∧
      (analyzeProject git node path marker).Size = (node.counted.map Prod.snd).sum := by
  simp [analyzeProject, aggWalk_eq_counted, Agg.add]

/-- C6 fails as stated: discovery prunes the directory `.idea`, and its
file is still counted by `analyzeProject` (2 files and 12 bytes, against 1 file
and 5 bytes once the contents of `.idea` are removed). -/
theorem analyzeProject_counts_hidden_dir :
    treeWithHidden.Sorted = true ∧
      pruned (.dir ".idea" [.file "workspace.xml" 7]) = true ∧
      treeWithHidden.getAt [0] = some (.dir ".idea" [.file "workspace.xml" 7]) ∧
      (analyzeProject noGit treeWithHidden ["r", "a"] "Go").FileCount = 2 ∧
      (analyzeProject noGit treeWithHidden ["r", "a"] "Go").Size = 12 ∧
      (analyzeProject noGit
        (treeWithHidden.setAt [0] (.dir ".idea" [])) ["r", "a"] "Go").FileCount = 1 ∧
      (analyzeProject noGit
        (treeWithHidden.setAt [0] (.dir ".idea" [])) ["r", "a"] "Go").Size = 5 :=
  ⟨by decide, by decide, rfl, by decide, by decide, by decide, by decide⟩


/-- C7, amended: scanning a root whose name is not blacklisted, not hidden
and not a marker name, and that holds a directory `a` with `go.mod` and one
other file (100 bytes together) and a directory `b` with only `package.json`,
returns the project `a` (Go, 100 bytes, 2 files, status "—") and then the
project `b` (JS, 1 file, status "—"), when the other file is not named `.git`
and, if it is listed before `go.mod`, does not bear a marker name. -/
theorem scanProjects_scenario (git : Path → GitProbe) (up : Entry) (root : Path)
    (rn other : String) (s1 s2 s3 : Nat) (otherFirst : Bool)
    (hb : blacklist rn = false) (hh : HasPrefix rn "." = false) (hm : markers rn = none)
    (hog : other ≠ ".git") (ho : otherFirst = true → markers other = none)
    (hs : s1 + s2 = 100) :
    scanProjects git up root (scenarioTree rn other s1 s2 s3 otherFirst) =
      [{ Name := "a", Marker := "Go", Size := 100, FileCount := 2, Status := "—",
         Path := root ++ ["a"] },
       { Name := "b", Marker := "JS", Size := s3, FileCount := 1, Status := "—",
         Path := root ++ ["b"] }] := by
  have ha : markers "a" = none := by decide
  have hbm : markers "b" = none := by decide
  have hgo : markers "go.mod" = some "Go" := by decide
  have hpj : markers "package.json" = some "JS" := by decide
  have hba : blacklist "a" = false := by decide
  have hbb : blacklist "b" = false := by decide
  have hha : HasPrefix "a" "." = false := by decide
  have hhb : HasPrefix "b" "." = false := by decide
  have hs2 : s2 + s1 = 100 := by omega
  cases otherFirst with
  | false =>
    simp [scanProjects, scenarioTree, walkDir, walkEntries, visit, pruned, Entry.isDir,
      Entry.name, hb, hh, hm, ha, hbm, hgo, hpj, filepathJoin, filepathDir,
      analyzeProject, aggWalk, aggEntries, filepathBase, gitMissing, Entry.children,
      getGitSmartStatus, hog, hba, hbb, hha, hhb, hs, hs2]
  | true =>
    have ho2 : markers other = none := ho rfl
    simp [scanProjects, scenarioTree, walkDir, walkEntries, visit, pruned, Entry.isDir,
      Entry.name, hb, hh, hm, ho2, ha, hbm, hgo, hpj, filepathJoin, filepathDir,
      analyzeProject, aggWalk, aggEntries, filepathBase, gitMissing, Entry.children,
      getGitSmartStatus, hog, hba, hbb, hha, hhb, hs, hs2]

/-- The amended scenario of C7 with `README.md` as the other file of `a`,
listed before `go.mod`, and with `package.json` as the other file, listed
after `go.mod`; 40 and 60 bytes. -/
theorem scanProjects_scenario_witness :
    blacklist "work" = false ∧ HasPrefix "work" "." = false ∧ markers "work" = none ∧
      "README.md" ≠ ".git" ∧ (true = true → markers "README.md" = none) ∧ 40 + 60 = 100 ∧
      (scenarioTree "work" "README.md" 40 60 25 true).Sorted = true ∧
      scanProjects noGit (.dir "home" []) ["home", "work"]
          (scenarioTree "work" "README.md" 40 60 25 true) =
        [{ Name := "a", Marker := "Go", Size := 100, FileCount := 2, Status := "—",
           Path := ["home", "work", "a"] },
         { Name := "b", Marker := "JS", Size := 25, FileCount := 1, Status := "—",
           Path := ["home", "work", "b"] }] ∧
      (scenarioTree "work" "package.json" 40 60 25 false).Sorted = true ∧
      markers "package.json" = some "JS" ∧
      scanProjects noGit (.dir "home" []) ["home", "work"]
          (scenarioTree "work" "package.json" 40 60 25 false) =
        [{ Name := "a", Marker := "Go", Size := 100, FileCount := 2, Status := "—",
           Path := ["home", "work", "a"] },
         { Name := "b", Marker := "JS", Size := 25, FileCount := 1, Status := "—",
           Path := ["home", "work", "b"] }] :=
  ⟨by decide, by decide, by decide, by decide, by decide, by decide, by decide,
    scanProjects_scenario noGit (.dir "home" []) ["home", "work"]
      "work" "README.md" 40 60 25 true (by decide) (by decide) (by decide) (by decide)
      (by decide) (by decide),
    by decide, by decide,
    scanProjects_scenario noGit (.dir "home" []) ["home", "work"]
      "work" "package.json" 40 60 25 false (by decide) (by decide) (by decide) (by decide)
      (by decide) (by decide)⟩

/-- C7 at a failing input: with `Cargo.toml` (60 bytes) as the other file of
`a`, next to `go.mod` (40 bytes), the walk meets `Cargo.toml` first and the
project `a` is reported with the tag "Rust", not "Go". -/
theorem scanProjects_scenario_other_marker :
    (scenarioTree "work" "Cargo.toml" 40 60 25 true).Sorted = true ∧
      blacklist "work" = false ∧ HasPrefix "work" "." = false ∧ markers "work" = none ∧
      scanProjects noGit (.dir "home" []) ["home", "work"]
          (scenarioTree "work" "Cargo.toml" 40 60 25 true) =
        [{ Name := "a", Marker := "Rust", Size := 100, FileCount := 2, Status := "—",
           Path := ["home", "work", "a"] },
         { Name := "b", Marker := "JS", Size := 25, FileCount := 1, Status := "—",
           Path := ["home", "work", "b"] }] :=
  ⟨by decide, by decide, by decide, by decide, by decide⟩

/-! ## The order of discovery -/

theorem namesOf_mem {cs : List Entry} {c : Entry} (h : c ∈ cs) : c.name ∈ namesOf cs := by
  induction cs with
  | nil => simp at h
  | cons d rest ih =>
    rw [namesOf]
    rcases List.mem_cons.1 h with h | h
    · subst h; exact List.mem_cons_self _ _
    · exact List.mem_cons_of_mem _ (ih h)

theorem visit_cases (git : Path → GitProbe) (par : Entry) (path : Path) (d : Entry)
    (st : ScanState) :
    visit git par path d st = (st, .skipDir) ∨
      (visit git par path d st = (st, .ok) ∧ pruned d = false ∧ markers d.name = none) ∨
      ∃ marker, markers d.name = some marker ∧ pruned d = false ∧
        visit git par path d st =
          ({ processed := filepathDir path :: st.processed,
             projects := st.projects ++ [analyzeProject git par (filepathDir path) marker] },
            .skipDir) := by
  unfold visit
  by_cases hp : pruned d = true
  · rw [if_pos hp]; exact Or.inl rfl
  · rw [if_neg hp]
    have hp2 : pruned d = false := by simpa using hp
    cases hm : markers d.name with
    | none => exact Or.inr (Or.inl ⟨rfl, hp2, rfl⟩)
    | some marker =>
      dsimp only
      by_cases hproc : filepathDir path ∈ st.processed
      · rw [if_pos hproc]; exact Or.inl rfl
      · rw [if_neg hproc]; exact Or.inr (Or.inr ⟨marker, rfl, hp2, rfl⟩)

theorem prefix_join_not_prefix (p : Path) (n : String) (q : Path)
    (h : filepathJoin p n <+: q) : ¬ q <+: p := by
  intro h2
  have l1 := h.length_le
  have l2 := h2.length_le
  simp [filepathJoin] at l1
  omega

theorem join_prefix_same (p : Path) (n m : String) (q : Path)
    (h1 : filepathJoin p n <+: q) (h2 : filepathJoin p m <+: q) : n = m := by
  have := List.prefix_of_prefix_length_le h1 h2 (by simp [filepathJoin])
  have e := this.eq_of_length (by simp [filepathJoin])
  simpa [filepathJoin] using e

theorem ScanState.Ordered.append {st : ScanState} (h : st.Ordered) (x : Project)
    (processed : List Path) (hx : ∀ q ∈ st.projects, ¬ q.Path <+: x.Path) :
    ScanState.Ordered { processed := processed, projects := st.projects ++ [x] } := by
  unfold ScanState.Ordered at *
  rw [List.pairwise_append]
  refine ⟨h, List.pairwise_singleton _ _, ?_⟩
  intro a ha b hb
  rw [List.mem_singleton] at hb
  subst hb
  exact fun hh => hx a ha hh.1

mutual
/-- Walking an entry of a tidy directory keeps the order of discovery free of
nesting; when the walk of the directory goes on, no project sits at the
directory or at its entries still to come. -/
theorem walkDir_ordered (git : Path → GitProbe) :
    ∀ (d par : Entry) (p : Path) (rest : List Entry) (st : ScanState), d.Tidy = true →
      (d.isDir = true → pruned d = false → markers d.name = none) →
      (∀ c ∈ rest, c.name ≠ d.name) → st.Ordered → st.NotAbove p → st.Fresh p (d :: rest) →
      (walkDir git par (filepathJoin p d.name) d st).1.Ordered ∧
        (∀ q ∈ (walkDir git par (filepathJoin p d.name) d st).1.projects,
          q ∈ st.projects ∨ p <+: q.Path) ∧
        ((walkDir git par (filepathJoin p d.name) d st).2 = .ok →
          (walkDir git par (filepathJoin p d.name) d st).1.NotAbove p ∧
          (walkDir git par (filepathJoin p d.name) d st).1.Fresh p rest)
  | .file n sz, par, p, rest, st, _, _, _, hord, hna, hfr => by
    rw [walkDir]
    have hfr2 : st.Fresh p rest := fun q hq c hc => hfr q hq c (List.mem_cons_of_mem _ hc)
    rcases visit_cases git par (filepathJoin p (Entry.file n sz).name) (.file n sz) st
      with h | ⟨h, _, _⟩ | ⟨marker, _, _, h⟩
    · rw [h]; exact ⟨hord, fun q hq => Or.inl hq, fun hr => by simp at hr⟩
    · rw [h]; exact ⟨hord, fun q hq => Or.inl hq, fun _ => ⟨hna, hfr2⟩⟩
    · rw [h]
      refine ⟨hord.append _ _ ?_, ?_, fun hr => by simp at hr⟩
      · intro q hq
        simpa [analyzeProject, filepathDir_join] using hna q hq
      · intro q hq
        simp only [List.mem_append, List.mem_singleton] at hq
        rcases hq with hq | hq
        · exact Or.inl hq
        · subst hq
          exact Or.inr (by simp [analyzeProject, filepathDir_join])
  | .dir n cs, par, p, rest, st, htidy, hmark, hnames, hord, hna, hfr => by
    rw [walkDir]
    have hname : (Entry.dir n cs).name = n := rfl
    rw [hname] at hnames ⊢
    have hfr2 : st.Fresh p rest := fun q hq c hc => hfr q hq c (List.mem_cons_of_mem _ hc)
    rcases visit_cases git par (filepathJoin p n) (.dir n cs) st
      with h | ⟨h, hpr, _⟩ | ⟨marker, hm, hpr, _⟩
    · rw [h]; exact ⟨hord, fun q hq => Or.inl hq, fun _ => ⟨hna, hfr2⟩⟩
    · rw [h]
      dsimp only
      have ht : decide ((namesOf cs).Nodup) = true ∧ tidyAll cs = true := by
        simpa [Entry.Tidy] using htidy
      have hsub := walkEntries_ordered git cs (.dir n cs) (filepathJoin p n) st ht.2
        (by simpa using ht.1) hord
        (by
          intro q hq hpre
          rcases List.prefix_or_prefix_of_prefix hpre (List.prefix_append p [n]) with h1 | h1
          · exact hna q hq h1
          · -- the path of `q` is the path of the directory itself
            have hl := hpre.length_le
            have hl1 := h1.length_le
            by_cases hlen : q.Path.length = (filepathJoin p n).length
            · have := hpre.eq_of_length hlen
              exact hfr q hq (.dir n cs) (List.mem_cons_self _ _) (by
                show filepathJoin p n <+: q.Path
                rw [this])
            · have hlt : q.Path.length ≤ p.length := by
                simp [filepathJoin] at hl hlen; omega
              have : q.Path <+: p := List.prefix_of_prefix_length_le hpre
                (List.prefix_append p [n]) hlt
              exact hna q hq this)
        (by
          intro q hq c _ hpre
          exact hfr q hq (.dir n cs) (List.mem_cons_self _ _)
            ((List.prefix_append (filepathJoin p n) [c.name]).trans hpre))
      generalize walkEntries git (.dir n cs) (filepathJoin p n) cs st = st1 at *
      have hnew : ∀ q ∈ st1.projects, q ∈ st.projects ∨ filepathJoin p n <+: q.Path :=
        hsub.2
      refine ⟨hsub.1, ?_, fun _ => ⟨?_, ?_⟩⟩
      · intro q hq
        rcases hnew q hq with h1 | h1
        · exact Or.inl h1
        · exact Or.inr ((List.prefix_append p [n]).trans h1)
      · intro q hq
        rcases hnew q hq with h1 | h1
        · exact hna q h1
        · exact prefix_join_not_prefix p n q.Path h1
      · intro q hq c hc hpre
        rcases hnew q hq with h1 | h1
        · exact hfr2 q h1 c hc hpre
        · exact hnames c hc (join_prefix_same p c.name n q.Path hpre h1)
    · have := hmark rfl hpr
      rw [hm] at this; exact absurd this (by simp)
/-- The loop over the entries of a tidy directory keeps the order of
discovery free of nesting, and records projects only at or below the
directory. -/
theorem walkEntries_ordered (git : Path → GitProbe) :
    ∀ (cs : List Entry) (par : Entry) (p : Path) (st : ScanState), tidyAll cs = true →
      (namesOf cs).Nodup → st.Ordered → st.NotAbove p → st.Fresh p cs →
      (walkEntries git par p cs st).Ordered ∧
        ∀ q ∈ (walkEntries git par p cs st).projects, q ∈ st.projects ∨ p <+: q.Path
  | [], par, p, st, _, _, hord, _, _ => by
    rw [walkEntries]; exact ⟨hord, fun q hq => Or.inl hq⟩
  | d1 :: rest, par, p, st, htidy, hnd, hord, hna, hfr => by
    rw [walkEntries]
    have ht : (((!(d1.isDir && !pruned d1) || (markers d1.name).isNone) = true) ∧
        d1.Tidy = true) ∧ tidyAll rest = true := by
      simpa [tidyAll, Bool.and_eq_true] using htidy
    have hnd2 : d1.name ∉ namesOf rest ∧ (namesOf rest).Nodup := by
      simpa [namesOf] using hnd
    have h1 := walkDir_ordered git d1 par p rest st ht.1.2
      (by
        intro hd hp
        have := ht.1.1
        simpa [hd, hp] using this)
      (fun c hc e => hnd2.1 (e ▸ namesOf_mem hc)) hord hna hfr
    rcases hw : walkDir git par (filepathJoin p d1.name) d1 st with ⟨st1, r⟩
    rw [hw] at h1
    cases r with
    | skipDir => exact ⟨h1.1, h1.2.1⟩
    | ok =>
      have h2 := walkEntries_ordered git rest par p st1 ht.2 hnd2.2 h1.1 (h1.2.2 rfl).1
        (h1.2.2 rfl).2
      refine ⟨h2.1, ?_⟩
      intro q hq
      rcases h2.2 q hq with h3 | h3
      · exact h1.2.1 q h3
      · exact Or.inr h3
end

/-- In a tidy tree no project lies strictly inside a project that
`scanProjects` found before it. -/
theorem scanProjects_ordered (git : Path → GitProbe) (up : Entry) (root : Path) (t : Entry)
    (ht : t.Tidy = true) :
    (scanProjects git up root t).Pairwise (fun p q => ¬ (p.Path <+: q.Path ∧ p.Path ≠ q.Path)) := by
  have h0 : ScanState.Ordered ⟨[], []⟩ := List.Pairwise.nil
  unfold scanProjects
  cases t with
  | file n sz =>
    rw [walkDir]
    rcases visit_cases git up root (.file n sz) ⟨[], []⟩ with h | ⟨h, _, _⟩ | ⟨marker, _, _, h⟩
    · rw [h]; exact h0
    · rw [h]; exact h0
    · rw [h]; exact List.pairwise_singleton _ _
  | dir n cs =>
    rw [walkDir]
    rcases visit_cases git up root (.dir n cs) ⟨[], []⟩ with h | ⟨h, _, _⟩ | ⟨marker, _, _, h⟩
    · rw [h]; exact h0
    · rw [h]
      have ht2 : decide ((namesOf cs).Nodup) = true ∧ tidyAll cs = true := by
        simpa [Entry.Tidy] using ht
      exact (walkEntries_ordered git cs (.dir n cs) root ⟨[], []⟩ ht2.2 (by simpa using ht2.1) h0
        (fun q hq => by simp at hq) (fun q hq => by simp at hq)).1
    · rw [h]; exact List.pairwise_singleton _ _

/-! ## Directories that the walk enters -/

theorem visit_linked (git : Path → GitProbe) (par : Entry) (path : Path) (d : Entry)
    (st : ScanState) (h : st.Linked) : (visit git par path d st).1.Linked := by
  rcases visit_cases git par path d st with e | ⟨e, _, _⟩ | ⟨marker, _, _, e⟩
  · rw [e]; exact h
  · rw [e]; exact h
  · rw [e]
    intro x hx
    rcases List.mem_cons.1 hx with hx | hx
    · exact ⟨_, List.mem_append_right _ (List.mem_singleton_self _), by rw [hx]; rfl⟩
    · rcases h x hx with ⟨q, hq, e2⟩
      exact ⟨q, List.mem_append_left _ hq, e2⟩

theorem visit_keeps (git : Path → GitProbe) (par : Entry) (path : Path) (d : Entry)
    (st : ScanState) (q : Project) (h : q ∈ st.projects) :
    q ∈ (visit git par path d st).1.projects := by
  rcases visit_cases git par path d st with e | ⟨e, _, _⟩ | ⟨marker, _, _, e⟩
  · rw [e]; exact h
  · rw [e]; exact h
  · rw [e]; exact List.mem_append_left _ h

/-- The walk of an entry only adds projects, and keeps every processed path
the path of a project. -/
theorem walkDir_keeps (git : Path → GitProbe) (d par : Entry) (path : Path) (st : ScanState)
    (hl : st.Linked) :
    (walkDir git par path d st).1.Linked ∧
      ∀ q ∈ st.projects, q ∈ (walkDir git par path d st).1.projects :=
  walkDir_preserves git (fun s => s.Linked ∧ ∀ q ∈ st.projects, q ∈ s.projects)
    (fun par path d s hs => ⟨visit_linked git par path d s hs.1,
      fun q hq => visit_keeps git par path d s q (hs.2 q hq)⟩)
    d par path st ⟨hl, fun _ hq => hq⟩

theorem walkEntries_keeps (git : Path → GitProbe) (cs : List Entry) (par : Entry) (path : Path)
    (st : ScanState) (hl : st.Linked) :
    (walkEntries git par path cs st).Linked ∧
      ∀ q ∈ st.projects, q ∈ (walkEntries git par path cs st).projects :=
  walkEntries_preserves git (fun s => s.Linked ∧ ∀ q ∈ st.projects, q ∈ s.projects)
    (fun par path d s hs => ⟨visit_linked git par path d s hs.1,
      fun q hq => visit_keeps git par path d s q (hs.2 q hq)⟩)
    cs par path st ⟨hl, fun _ hq => hq⟩

/-- An entry that is not pruned and bears a marker name leaves a project for
its directory, whether it declares it or finds it declared. -/
theorem visit_marker (git : Path → GitProbe) (par : Entry) (path : Path) (d : Entry)
    (st : ScanState) (hl : st.Linked) (hp : pruned d = false)
    (hm : (markers d.name).isSome = true) :
    (visit git par path d st).2 = .skipDir ∧
      ∃ q ∈ (visit git par path d st).1.projects, q.Path = filepathDir path := by
  unfold visit
  rw [hp]
  simp only [Bool.false_eq_true, if_false]
  cases hmm : markers d.name with
  | none => rw [hmm] at hm; simp at hm
  | some marker =>
    dsimp only
    by_cases hproc : filepathDir path ∈ st.processed
    · rw [if_pos hproc]
      exact ⟨rfl, hl _ hproc⟩
    · rw [if_neg hproc]
      exact ⟨rfl, _, List.mem_append_right _ (List.mem_singleton_self _), rfl⟩

/-- When the loop over a directory stops at an entry, a project for the
directory is recorded. -/
theorem walkDir_skip (git : Path → GitProbe) (d par : Entry) (path : Path) (st st1 : ScanState)
    (hl : st.Linked) (h : walkDir git par path d st = (st1, .skipDir)) :
    ∃ q ∈ st1.projects, q.Path = filepathDir path := by
  cases d with
  | file n sz =>
    rw [walkDir] at h
    rcases visit_cases git par path (.file n sz) st with e | ⟨e, _, _⟩ | ⟨marker, hm, hp, _⟩
    · have hp : pruned (Entry.file n sz) = false := rfl
      by_cases hm : (markers (Entry.file n sz).name).isSome = true
      · have := (visit_marker git par path (.file n sz) st hl hp hm).2
        rw [h] at this; exact this
      · exfalso
        have hn : markers (Entry.file n sz).name = none := by simpa using hm
        have : visit git par path (.file n sz) st = (st, .ok) := by
          unfold visit
          rw [hp, hn]; rfl
        rw [this] at h; simp at h
    · rw [e] at h; simp at h
    · have := (visit_marker git par path (.file n sz) st hl hp (by rw [hm]; rfl)).2
      rw [h] at this; exact this
  | dir n cs =>
    rw [walkDir] at h
    split at h <;> simp at h

/-- The loop over a directory that holds an entry which is not pruned and
bears a marker name records a project for the directory. -/
theorem walkEntries_declares (git : Path → GitProbe) (par : Entry) (path : Path) :
    ∀ (cs : List Entry) (st : ScanState), st.Linked →
      (∃ e ∈ cs, pruned e = false ∧ (markers e.name).isSome = true) →
      ∃ q ∈ (walkEntries git par path cs st).projects, q.Path = path := by
  intro cs
  induction cs with
  | nil => intro st _ h; rcases h with ⟨e, he, _⟩; simp at he
  | cons d1 rest ih =>
    intro st hl h
    rw [walkEntries]
    have hk := walkDir_keeps git d1 par (filepathJoin path d1.name) st hl
    rcases hw : walkDir git par (filepathJoin path d1.name) d1 st with ⟨st1, r⟩
    rw [hw] at hk
    cases r with
    | skipDir =>
      have := walkDir_skip git d1 par _ st st1 hl hw
      rwa [filepathDir_join] at this
    | ok =>
      dsimp only
      rcases h with ⟨e, he, hp, hm⟩
      rcases List.mem_cons.1 he with he | he
      · -- the marker is a directory: the project stands, and the loop goes on
        subst he
        have hq : ∃ q ∈ st1.projects, q.Path = path := by
          cases e with
          | file n sz =>
            rw [walkDir] at hw
            have := (visit_marker git par (filepathJoin path (Entry.file n sz).name)
              (.file n sz) st hl hp hm).1
            rw [hw] at this; simp at this
          | dir n cs =>
            rw [walkDir] at hw
            have hv := visit_marker git par (filepathJoin path (Entry.dir n cs).name)
              (.dir n cs) st hl hp hm
            rcases hvis : visit git par (filepathJoin path (Entry.dir n cs).name) (.dir n cs) st
              with ⟨st2, r2⟩
            rw [hvis] at hv hw
            have hr2 : r2 = .skipDir := hv.1
            subst hr2
            simp only [Prod.mk.injEq, and_true] at hw
            subst hw
            have := hv.2
            rwa [filepathDir_join] at this
        rcases hq with ⟨q, hq, e2⟩
        exact ⟨q, (walkEntries_keeps git rest par path st1 hk.1).2 q hq, e2⟩
      · exact ih st1 hk.1 ⟨e, he, hp, hm⟩

theorem walkDir_passes (git : Path → GitProbe) (d par : Entry) (path : Path) (st : ScanState)
    (h : passes d = true) : (walkDir git par path d st).2 = .ok := by
  cases d with
  | file n sz =>
    rw [walkDir]
    have hp : pruned (Entry.file n sz) = false := rfl
    have hn : markers (Entry.file n sz).name = none := by
      simpa [passes, hp] using h
    unfold visit
    rw [hp, hn]; rfl
  | dir n cs =>
    rw [walkDir]
    split <;> rfl

mutual
/-- The walk of an entry records a project for every directory below it that
the walk enters and that holds an entry which is not pruned and bears a
marker name. -/
theorem walkDir_finds (git : Path → GitProbe) :
    ∀ (pos : List Nat) (t par : Entry) (path : Path) (st : ScanState) (n : String)
      (cs : List Entry), st.Linked → entersAt t pos = true → t.getAt pos = some (.dir n cs) →
      (∃ e ∈ cs, pruned e = false ∧ (markers e.name).isSome = true) →
      ∃ q ∈ (walkDir git par path t st).1.projects, q.Path = pathAt t path pos
  | [], t, par, path, st, n, cs, hl, hent, hget, hmark => by
    simp only [Entry.getAt, Option.some.injEq] at hget
    subst hget
    have hc : pruned (Entry.dir n cs) = false ∧ markers n = none := by
      simpa [entersAt] using hent
    rw [walkDir]
    have hv : visit git par path (.dir n cs) st = (st, .ok) := by
      unfold visit
      rw [hc.1]
      simp only [Bool.false_eq_true, if_false, Entry.name, hc.2]
    rw [hv]
    exact walkEntries_declares git (.dir n cs) path cs st hl hmark
  | i :: pos, .file m sz, par, path, st, n, cs, _, hent, _, _ => by
    simp [entersAt] at hent
  | i :: pos, .dir m ds, par, path, st, n, cs, hl, hent, hget, hmark => by
    have hc : ((pruned (Entry.dir m ds) = false ∧ markers m = none) ∧
        (ds.take i).all passes = true) ∧
        (match ds[i]? with
          | some c => entersAt c pos
          | none => false) = true := by
      simpa [entersAt, Bool.and_eq_true] using hent
    rw [walkDir]
    have hv : visit git par path (.dir m ds) st = (st, .ok) := by
      unfold visit
      rw [hc.1.1.1]
      simp only [Bool.false_eq_true, if_false, Entry.name, hc.1.1.2]
    rw [hv]
    dsimp only
    cases hd : ds[i]? with
    | none => rw [hd] at hc; simp at hc
    | some c =>
      have hent2 : entersAt c pos = true := by
        have := hc.2; rw [hd] at this; exact this
      have hget2 : c.getAt pos = some (.dir n cs) := by
        simp only [Entry.getAt, hd] at hget; exact hget
      simp only [pathAt, hd]
      exact walkEntries_finds git pos ds i c (.dir m ds) path st n cs hl hc.1.2 hd hent2 hget2
        hmark
/-- The loop over a directory reaches its entry number `i` when the entries
before it let the loop go on, and then finds what the walk of that entry
finds. -/
theorem walkEntries_finds (git : Path → GitProbe) :
    ∀ (pos : List Nat) (ds : List Entry) (i : Nat) (c par : Entry) (path : Path)
      (st : ScanState) (n : String) (cs : List Entry), st.Linked →
      (ds.take i).all passes = true → ds[i]? = some c → entersAt c pos = true →
      c.getAt pos = some (.dir n cs) →
      (∃ e ∈ cs, pruned e = false ∧ (markers e.name).isSome = true) →
      ∃ q ∈ (walkEntries git par path ds st).projects,
        q.Path = pathAt c (filepathJoin path c.name) pos
  | _, [], i, c, par, path, st, n, cs, _, _, hd, _, _, _ => by simp at hd
  | pos, d1 :: rest, 0, c, par, path, st, n, cs, hl, _, hd, hent, hget, hmark => by
    simp only [List.getElem?_cons_zero, Option.some.injEq] at hd
    subst hd
    rw [walkEntries]
    have hf := walkDir_finds git pos d1 par (filepathJoin path d1.name) st n cs hl hent hget
      hmark
    have hk := walkDir_keeps git d1 par (filepathJoin path d1.name) st hl
    rcases hw : walkDir git par (filepathJoin path d1.name) d1 st with ⟨st1, r⟩
    rw [hw] at hf hk
    rcases hf with ⟨q, hq, e⟩
    cases r with
    | skipDir => exact ⟨q, hq, e⟩
    | ok => exact ⟨q, (walkEntries_keeps git rest par path st1 hk.1).2 q hq, e⟩
  | pos, d1 :: rest, i + 1, c, par, path, st, n, cs, hl, hpass, hd, hent, hget, hmark => by
    simp only [List.getElem?_cons_succ] at hd
    have hp : passes d1 = true ∧ (rest.take i).all passes = true := by
      simpa [List.take_succ_cons, Bool.and_eq_true] using hpass
    rw [walkEntries]
    have hr := walkDir_passes git d1 par (filepathJoin path d1.name) st hp.1
    have hk := walkDir_keeps git d1 par (filepathJoin path d1.name) st hl
    rcases hw : walkDir git par (filepathJoin path d1.name) d1 st with ⟨st1, r⟩
    rw [hw] at hr hk
    dsimp only at hr
    subst hr
    exact walkEntries_finds git pos rest i c par path st1 n cs hk.1 hp.2 hd hent hget hmark
end

/-- Every directory that the discovery walk enters and that holds an entry
which is not pruned and bears a marker name (any marker-named entry except a
`.git` directory) is the path of a project that `scanProjects` returns. -/
theorem scanProjects_finds (git : Path → GitProbe) (up : Entry) (root : Path) (t : Entry)
    (pos : List Nat) (n : String) (cs : List Entry) (hent : entersAt t pos = true)
    (hget : t.getAt pos = some (.dir n cs))
    (hmark : ∃ e ∈ cs, pruned e = false ∧ (markers e.name).isSome = true) :
    ∃ q ∈ scanProjects git up root t, q.Path = pathAt t root pos :=
  walkDir_finds git pos t up root ⟨[], []⟩ n cs (fun x hx => by simp at hx) hent hget hmark

/-! ## Discovery on concrete trees -/

/-- C1 at a failing input: in the tree `r/a/cmd/package.json`, `r/a/go.mod`
the walk enters `cmd` before it meets `go.mod`, and `scanProjects` returns
the project `r/a/cmd` together with the project `r/a` that encloses it. -/
theorem scanProjects_nested_roots :
    treeNested.Sorted = true ∧ treeNested.Tidy = true ∧
      (scanProjects noGit (.dir "" []) ["r"] treeNested).map (fun p => (p.Path, p.Marker))
        = [(["r", "a", "cmd"], "JS"), (["r", "a"], "Go")] ∧
      ["r", "a"] <+: ["r", "a", "cmd"] ∧ (["r", "a"] : Path) ≠ ["r", "a", "cmd"] :=
  ⟨by decide, by decide, by decide, ⟨["cmd"], rfl⟩, by decide⟩

/-- C3 at a failing input: the walk enters `r/a`, whose only marker-named
entry is a `.git` directory; the blacklist test skips that directory before
the marker table is consulted, and no project is returned. -/
theorem scanProjects_git_dir_only :
    treeGitOnly.Sorted = true ∧ markers ".git" = some "Git" ∧
      entersAt treeGitOnly [0] = true ∧ pathAt treeGitOnly ["r"] [0] = ["r", "a"] ∧
      treeGitOnly.getAt [0]
        = some (.dir "a" [.dir ".git" [.file "HEAD" 23], .file "README.md" 40]) ∧
      scanProjects noGit (.dir "" []) ["r"] treeGitOnly = [] :=
  ⟨by decide, by decide, by decide, by decide, rfl, by decide⟩

/-- The statement of C4 for the project `r/a/cmd` and the directory `a` above it. -/
theorem scanProjects_not_under_pruned_witness :
    (⟨"cmd", "JS", 10, 1, "—", ["r", "a", "cmd"]⟩ : Project)
        ∈ scanProjects noGit (.dir "" []) ["r"] treeNested ∧
      ((["r"] : Path) ++ [] ++ ["a"]) <+: ["r", "a", "cmd"] ∧
      blacklist "a" = false ∧ HasPrefix "a" "." = false :=
  ⟨by decide, ⟨["cmd"], rfl⟩,
    scanProjects_not_under_pruned noGit (.dir "" []) ["r"] treeNested
      ⟨"cmd", "JS", 10, 1, "—", ["r", "a", "cmd"]⟩ (by decide) [] "a" ⟨["cmd"], rfl⟩⟩

/-! ## getGitSmartStatus -/

/-- C8, amended: `getGitSmartStatus` answers "—" without a `.git` entry, else
"No Commits" when `HEAD` does not resolve, else "Uncommitted" when the
trimmed status output is not empty (whatever the remotes), else "No Remote"
when the trimmed remotes output is empty, else "Synced"; the answer is
always one of these five distinct labels.  The output of a command is what
it wrote to its standard output: whether the command failed changes
nothing, and the decision is the one of the specification whenever a failed
command wrote nothing. -/
theorem getGitSmartStatus_decision (missing : Bool) (g : GitProbe) :
    (missing = true → getGitSmartStatus missing g = "—") ∧
      (missing = false → g.headOk = false → getGitSmartStatus missing g = "No Commits") ∧
      (missing = false → g.headOk = true → TrimSpace g.changes ≠ [] →
        getGitSmartStatus missing g = "Uncommitted") ∧
      (missing = false → g.headOk = true → TrimSpace g.changes = [] →
        TrimSpace g.remotes = [] → getGitSmartStatus missing g = "No Remote") ∧
      (missing = false → g.headOk = true → TrimSpace g.changes = [] →
        TrimSpace g.remotes ≠ [] → getGitSmartStatus missing g = "Synced") ∧
      getGitSmartStatus missing g ∈ ["—", "No Commits", "Uncommitted", "No Remote", "Synced"] ∧
      ["—", "No Commits", "Uncommitted", "No Remote", "Synced"].Nodup ∧
      (∀ rf cf : Bool,
        getGitSmartStatus missing { g with remotesFailed := rf, changesFailed := cf } =
          getGitSmartStatus missing g) ∧
      ((g.remotesFailed = true → g.remotes = []) → (g.changesFailed = true → g.changes = []) →
        getGitSmartStatus missing g = statusAsSpecified missing g) := by
  refine ⟨?_, ?_, ?_, ?_, ?_, ?_, by decide, fun _ _ => rfl, ?_⟩
  · intro h; simp [getGitSmartStatus, h]
  · intro h1 h2; simp [getGitSmartStatus, h1, h2]
  · intro h1 h2 h3
    have : 0 < (TrimSpace g.changes).length := List.length_pos.2 h3
    simp [getGitSmartStatus, h1, h2, this]
  · intro h1 h2 h3 h4; simp [getGitSmartStatus, h1, h2, h3, h4]
  · intro h1 h2 h3 h4
    have : 0 < (TrimSpace g.remotes).length := List.length_pos.2 h4
    simp [getGitSmartStatus, h1, h2, h3, this]
  · unfold getGitSmartStatus
    split
    · simp
    · split
      · simp
      · dsimp only
        split
        · simp
        · split <;> simp
  · intro hr hc
    have hr2 : (if g.remotesFailed = true then [] else g.remotes) = g.remotes := by
      by_cases h : g.remotesFailed = true
      · rw [if_pos h, hr h]
      · rw [if_neg h]
    have hc2 : (if g.changesFailed = true then [] else g.changes) = g.changes := by
      by_cases h : g.changesFailed = true
      · rw [if_pos h, hc h]
      · rw [if_neg h]
    unfold getGitSmartStatus statusAsSpecified
    simp only [hr2, hc2]
    split
    · rfl
    · split
      · rfl
      · simp

/-- C8 at a failing input: in a directory with commits and a remote, where
`git status --short` wrote a line and then failed, `getGitSmartStatus`
answers "Uncommitted"; with the failed command counted as empty output the
answer would be "Synced". -/
theorem getGitSmartStatus_uses_failed_output :
    failedStatusProbe.changesFailed = true ∧
      getGitSmartStatus false failedStatusProbe = "Uncommitted" ∧
      statusAsSpecified false failedStatusProbe = "Synced" :=
  ⟨rfl, by decide, by decide⟩

/-! ## sort.Slice sorts -/

section SortProofs
set_option linter.unusedSectionVars false
variable {α : Type} [Inhabited α]

theorem Le.of_less {less : α → α → Bool} {x y : α} (h : less x y = true) : Le less x y :=
  Or.inl h

theorem Le.of_not_less {less : α → α → Bool} {x y : α} (h : less y x = false) : Le less x y :=
  Or.inr h

theorem Le.chain {less : α → α → Bool} (w : Weak less) {x y z : α}
    (h1 : Le less x y) (h2 : Le less y z) : Le less x z := by
  rcases h1 with h1 | h1 <;> rcases h2 with h2 | h2
  · exact Or.inl (w.trans x y z h1 h2)
  · cases hxz : less x z with
    | true => exact Or.inl hxz
    | false =>
      have := w.ntrans x z y hxz h2
      rw [h1] at this; exact absurd this (by simp)
  · cases hzx : less z x with
    | false => exact Or.inr hzx
    | true =>
      have := w.trans y z x h2 hzx
      rw [h1] at this; exact absurd this (by simp)
  · exact Or.inr (w.ntrans z y x h2 h1)

theorem swapAt_length (data : List α) (i j : Nat) : (swapAt data i j).length = data.length := by
  unfold swapAt
  split <;> simp

theorem nth_swapAt (data : List α) (i j k : Nat) (hi : i < data.length) (hj : j < data.length) :
    nth (swapAt data i j) k =
      if k = j then nth data i else if k = i then nth data j else nth data k := by
  unfold swapAt nth
  rw [List.getElem?_eq_getElem hi, List.getElem?_eq_getElem hj]
  simp only [List.getElem?_set, List.length_set]
  by_cases h1 : k = j
  · subst h1; simp [hj]
  · by_cases h2 : k = i
    · subst h2
      simp [h1, hi, Ne.symm h1]
    · simp [h1, h2, Ne.symm h1, Ne.symm h2]

theorem lessAt_eq (less : α → α → Bool) (data : List α) (i j : Nat) (hi : i < data.length)
    (hj : j < data.length) : lessAt less data i j = less (nth data i) (nth data j) := by
  unfold lessAt nth
  rw [List.getElem?_eq_getElem hi, List.getElem?_eq_getElem hj]
  rfl

theorem Frame.refl (a b : Nat) (d : List α) : Frame a b d d :=
  ⟨rfl, fun _ _ => rfl, fun k h1 h2 => ⟨k, h1, h2, rfl⟩⟩

theorem Frame.trans {a b : Nat} {d1 d2 d3 : List α} (h1 : Frame a b d1 d2)
    (h2 : Frame a b d2 d3) : Frame a b d1 d3 := by
  refine ⟨h2.1.trans h1.1, fun k hk => (h2.2.1 k hk).trans (h1.2.1 k hk), ?_⟩
  intro k ha hb
  rcases h2.2.2 k ha hb with ⟨k1, ha1, hb1, e1⟩
  rcases h1.2.2 k1 ha1 hb1 with ⟨k2, ha2, hb2, e2⟩
  exact ⟨k2, ha2, hb2, e1.trans e2⟩

theorem Frame.mono {a b a1 b1 : Nat} {d1 d2 : List α} (h : Frame a1 b1 d1 d2)
    (ha : a ≤ a1) (hb : b1 ≤ b) : Frame a b d1 d2 := by
  refine ⟨h.1, fun k hk => h.2.1 k (by omega), ?_⟩
  intro k hak hkb
  by_cases hin : a1 ≤ k ∧ k < b1
  · rcases h.2.2 k hin.1 hin.2 with ⟨k1, h1, h2, e⟩
    exact ⟨k1, by omega, by omega, e⟩
  · exact ⟨k, hak, hkb, h.2.1 k (by omega)⟩

theorem Frame.swap {a b : Nat} (d : List α) (i j : Nat) (hb : b ≤ d.length)
    (hi : a ≤ i ∧ i < b) (hj : a ≤ j ∧ j < b) : Frame a b d (swapAt d i j) := by
  have hil : i < d.length := by omega
  have hjl : j < d.length := by omega
  refine ⟨swapAt_length d i j, ?_, ?_⟩
  · intro k hk
    rw [nth_swapAt d i j k hil hjl]
    have h1 : k ≠ j := by omega
    have h2 : k ≠ i := by omega
    simp only [h1, h2, if_false]
  · intro k hak hkb
    rw [nth_swapAt d i j k hil hjl]
    by_cases h1 : k = j
    · exact ⟨i, hi.1, hi.2, by rw [if_pos h1]⟩
    · by_cases h2 : k = i
      · exact ⟨j, hj.1, hj.2, by rw [if_neg h1, if_pos h2]⟩
      · exact ⟨k, hak, hkb, by rw [if_neg h1, if_neg h2]⟩

/-- A property of all elements of `d1[a:b]` holds for all elements of `d2[a:b]`. -/
theorem Frame.all {a b : Nat} {d1 d2 : List α} (h : Frame a b d1 d2) (P : α → Prop)
    (hP : ∀ k, a ≤ k → k < b → P (nth d1 k)) : ∀ k, a ≤ k → k < b → P (nth d2 k) := by
  intro k ha hb
  rcases h.2.2 k ha hb with ⟨k1, h1, h2, e⟩
  rw [e]; exact hP k1 h1 h2

theorem Frame.guard {less : α → α → Bool} {a b a1 b1 : Nat} {d1 d2 : List α}
    (h : Frame a1 b1 d1 d2) (ha : a ≤ a1) (hb : b1 ≤ b) (g : Guard less d1 a b) :
    Guard less d2 a b := by
  intro h0 k hak hkb
  have hf := h.mono ha hb
  have hp : nth d2 (a - 1) = nth d1 (a - 1) := hf.2.1 _ (by omega)
  rw [hp]
  exact hf.all (fun x => less x (nth d1 (a - 1)) = false) (fun k h1 h2 => g h0 k h1 h2) k hak hkb

theorem insertionInner_spec {less : α → α → Bool} (w : Weak less) (a i : Nat) :
    ∀ (j : Nat) (d : List α), a ≤ j → j ≤ i → i < d.length →
      (∀ p q, a ≤ p → p < q → q ≤ i → p ≠ j → q ≠ j → Le less (nth d p) (nth d q)) →
      (∀ q, j < q → q ≤ i → Le less (nth d j) (nth d q)) →
      Frame a (i + 1) d (insertionInner less a j d) ∧
        SortedSeg less (insertionInner less a j d) a (i + 1) := by
  intro j
  induction j with
  | zero =>
    intro d ha _ _ H1 H2
    rw [insertionInner]
    refine ⟨Frame.refl _ _ _, ?_⟩
    intro p q hap hpq hq
    by_cases hp0 : p = 0
    · subst hp0; exact H2 q hpq (by omega)
    · exact H1 p q hap hpq (by omega) hp0 (by omega)
  | succ j ih =>
    intro d ha hji hil H1 H2
    rw [insertionInner]
    have hj1 : j + 1 < d.length := by omega
    have hj0 : j < d.length := by omega
    rw [lessAt_eq less d (j + 1) j hj1 hj0]
    by_cases hc : (decide (a < j + 1) && less (nth d (j + 1)) (nth d j)) = true
    · rw [if_pos hc]
      simp only [Bool.and_eq_true, decide_eq_true_eq] at hc
      have hsw := nth_swapAt d (j + 1) j
      have hlen : i < (swapAt d (j + 1) j).length := by rw [swapAt_length]; exact hil
      have := ih (swapAt d (j + 1) j) (by omega) (by omega) hlen ?_ ?_
      · refine ⟨?_, this.2⟩
        exact (Frame.swap d (j + 1) j (by omega) ⟨by omega, by omega⟩ ⟨by omega, by omega⟩).trans
          this.1
      · intro p q hap hpq hq hpj hqj
        rw [hsw p hj1 hj0, hsw q hj1 hj0]
        simp only [hpj, hqj, if_false]
        by_cases hp1 : p = j + 1
        · have hq1 : q ≠ j + 1 := by omega
          simp only [hp1, hq1, if_true, if_false]
          exact H1 j q (by omega) (by omega) hq (by omega) hq1
        · by_cases hq1 : q = j + 1
          · simp only [hp1, hq1, if_true, if_false]
            exact H1 p j hap (by omega) (by omega) hp1 (by omega)
          · simp only [hp1, hq1, if_false]
            exact H1 p q hap hpq hq hp1 hq1
      · intro q hjq hq
        rw [hsw j hj1 hj0, hsw q hj1 hj0]
        have hqj : q ≠ j := by omega
        simp only [hqj, if_true, if_false]
        by_cases hq1 : q = j + 1
        · simp only [hq1, if_true]
          exact Le.of_less hc.2
        · simp only [hq1, if_false]
          exact H2 q (by omega) hq
    · rw [if_neg hc]
      refine ⟨Frame.refl _ _ _, ?_⟩
      intro p q hap hpq hq
      by_cases hp1 : p = j + 1
      · subst hp1; exact H2 q hpq (by omega)
      · by_cases hq1 : q = j + 1
        · subst hq1
          have haj : a < j + 1 := by omega
          have hnl : less (nth d (j + 1)) (nth d j) = false := by
            simpa [haj] using hc
          have hle : Le less (nth d j) (nth d (j + 1)) := Le.of_not_less hnl
          by_cases hpj : p = j
          · subst hpj; exact hle
          · exact (H1 p j hap (by omega) (by omega) hp1 (by omega)).chain w hle
        · exact H1 p q hap hpq (by omega) hp1 hq1

theorem insertionOuter_spec {less : α → α → Bool} (w : Weak less) (a b : Nat) :
    ∀ (n i : Nat) (d : List α), a < i → i + n = b → b ≤ d.length → SortedSeg less d a i →
      Frame a b d (forUp (fun i d => insertionInner less a i d) n i d) ∧
        SortedSeg less (forUp (fun i d => insertionInner less a i d) n i d) a b := by
  intro n
  induction n with
  | zero =>
    intro i d _ hin _ hs
    rw [forUp]
    have : i = b := by omega
    subst this
    exact ⟨Frame.refl _ _ _, hs⟩
  | succ n ih =>
    intro i d hai hin hb hs
    rw [forUp]
    have h1 := insertionInner_spec w a i i d (by omega) (Nat.le_refl _) (by omega)
      (fun p q hap hpq hq _ hqi => hs p q hap hpq (by omega))
      (fun q h1 h2 => by omega)
    have h2 := ih (i + 1) (insertionInner less a i d) (by omega) (by omega)
      (by rw [h1.1.1]; exact hb) h1.2
    exact ⟨(h1.1.mono (Nat.le_refl _) (by omega)).trans h2.1, h2.2⟩

/-- Insertion sort orders `data[a:b]` and touches nothing else. -/
theorem insertionSort_spec {less : α → α → Bool} (w : Weak less) (d : List α) (a b : Nat)
    (hb : b ≤ d.length) :
    Frame a b d (insertionSort less d a b) ∧ SortedSeg less (insertionSort less d a b) a b := by
  unfold insertionSort
  by_cases h : a + 1 ≤ b
  · exact insertionOuter_spec w a b (b - (a + 1)) (a + 1) d (by omega) (by omega) hb
      (fun i j h1 h2 h3 => by omega)
  · have : b - (a + 1) = 0 := by omega
    rw [this, forUp]
    exact ⟨Frame.refl _ _ _, fun i j h1 h2 h3 => by omega⟩

/-- The shifting loop of `partialInsertionSort_func` stops at `a` at the
latest when no element of the part is less than the element before it. -/
theorem shiftLeft_eq {less : α → α → Bool} (a b : Nat) :
    ∀ (j : Nat) (d : List α), a ≤ j → j < b → b ≤ d.length → Guard less d a b →
      shiftLeft less j d = insertionInner less a j d := by
  intro j
  induction j with
  | zero => intro d _ _ _ _; rw [shiftLeft, insertionInner]
  | succ j ih =>
    intro d ha hjb hb g
    rw [shiftLeft, insertionInner]
    have hj1 : j + 1 < d.length := by omega
    have hj0 : j < d.length := by omega
    by_cases haj : a < j + 1
    · by_cases hl : lessAt less d (j + 1) j = true
      · simp only [hl, haj, decide_True, Bool.and_self, if_true, Bool.not_true]
        simp only [Bool.false_eq_true, if_false]
        exact ih _ (by omega) (by omega) (by rw [swapAt_length]; exact hb)
          ((Frame.swap d (j + 1) j hb ⟨by omega, by omega⟩ ⟨by omega, by omega⟩).guard
            (Nat.le_refl _) (Nat.le_refl _) g)
      · simp [hl]
    · have hja : a = j + 1 := by omega
      have hg := g (by omega) (j + 1) (by omega) hjb
      rw [hja] at hg
      simp only [Nat.add_sub_cancel] at hg
      rw [lessAt_eq less d (j + 1) j hj1 hj0, hg]
      simp [haj]

theorem scanUp_spec (test : Nat → Bool) :
    ∀ n i, i ≤ scanUp test n i ∧ scanUp test n i ≤ i + n ∧
      (∀ k, i ≤ k → k < scanUp test n i → test k = true) ∧
      (scanUp test n i < i + n → test (scanUp test n i) = false) := by
  intro n
  induction n with
  | zero =>
    intro i
    rw [scanUp]
    exact ⟨Nat.le_refl _, Nat.le_refl _, fun k h1 h2 => by omega, fun h => by omega⟩
  | succ n ih =>
    intro i
    rw [scanUp]
    by_cases ht : test i = true
    · rw [if_pos ht]
      rcases ih (i + 1) with ⟨h1, h2, h3, h4⟩
      refine ⟨by omega, by omega, ?_, fun h => h4 (by omega)⟩
      intro k hk1 hk2
      by_cases hki : k = i
      · subst hki; exact ht
      · exact h3 k (by omega) hk2
    · rw [if_neg ht]
      exact ⟨Nat.le_refl _, by omega, fun k h1 h2 => by omega, fun _ => by simpa using ht⟩

theorem scanDown_spec (test : Nat → Bool) :
    ∀ n j, n ≤ j → scanDown test n j ≤ j ∧ j ≤ scanDown test n j + n ∧
      (∀ k, scanDown test n j < k → k ≤ j → test k = true) ∧
      (j < scanDown test n j + n → test (scanDown test n j) = false) := by
  intro n
  induction n with
  | zero =>
    intro j _
    rw [scanDown]
    exact ⟨Nat.le_refl _, Nat.le_refl _, fun k h1 h2 => by omega, fun h => by omega⟩
  | succ n ih =>
    intro j hj
    rw [scanDown]
    by_cases ht : test j = true
    · rw [if_pos ht]
      rcases ih (j - 1) (by omega) with ⟨h1, h2, h3, h4⟩
      refine ⟨by omega, by omega, ?_, fun h => h4 (by omega)⟩
      intro k hk1 hk2
      by_cases hki : k = j
      · subst hki; exact ht
      · exact h3 k hk1 (by omega)
    · rw [if_neg ht]
      exact ⟨Nat.le_refl _, by omega, fun k h1 h2 => by omega, fun _ => by simpa using ht⟩

/-- One round of the two scans of `partition_func`. -/
theorem partition_scans {less : α → α → Bool} {a b i j : Nat} {d : List α}
    (h : PartInv less a b i j d) :
    PartInv less a b (scanUp (fun k => lessAt less d k a) (j + 1 - i) i)
        (scanDown (fun k => !lessAt less d k a)
          (j + 1 - scanUp (fun k => lessAt less d k a) (j + 1 - i) i) j) d ∧
      i ≤ scanUp (fun k => lessAt less d k a) (j + 1 - i) i ∧
      scanDown (fun k => !lessAt less d k a)
          (j + 1 - scanUp (fun k => lessAt less d k a) (j + 1 - i) i) j ≤ j ∧
      (scanUp (fun k => lessAt less d k a) (j + 1 - i) i ≤
          scanDown (fun k => !lessAt less d k a)
            (j + 1 - scanUp (fun k => lessAt less d k a) (j + 1 - i) i) j →
        less (nth d (scanUp (fun k => lessAt less d k a) (j + 1 - i) i)) (nth d a) = false ∧
        less (nth d (scanDown (fun k => !lessAt less d k a)
            (j + 1 - scanUp (fun k => lessAt less d k a) (j + 1 - i) i) j)) (nth d a) = true) := by
  rcases h with ⟨h1, h2, h3, h4, h5, h6⟩
  rcases scanUp_spec (fun k => lessAt less d k a) (j + 1 - i) i with ⟨u1, u2, u3, u4⟩
  generalize scanUp (fun k => lessAt less d k a) (j + 1 - i) i = i1 at *
  rcases scanDown_spec (fun k => !lessAt less d k a) (j + 1 - i1) j (by omega)
    with ⟨v1, v2, v3, v4⟩
  generalize scanDown (fun k => !lessAt less d k a) (j + 1 - i1) j = j1 at *
  have hla : a < d.length := by omega
  refine ⟨⟨by omega, by omega, by omega, h4, ?_, ?_⟩, u1, v1, ?_⟩
  · intro k hk1 hk2
    by_cases hki : k < i
    · exact h5 k hk1 hki
    · have := u3 k (by omega) hk2
      rwa [lessAt_eq less d k a (by omega) hla] at this
  · intro k hk1 hk2
    by_cases hkj : j < k
    · exact h6 k hkj hk2
    · have := v3 k hk1 (by omega)
      rw [lessAt_eq less d k a (by omega) hla] at this
      simpa using this
  · intro hle
    constructor
    · have := u4 (by omega)
      rwa [lessAt_eq less d i1 a (by omega) hla] at this
    · have := v4 (by omega)
      rw [lessAt_eq less d j1 a (by omega) hla] at this
      simpa using this

theorem PartInv.exchange {less : α → α → Bool} {a b i j : Nat} {d : List α}
    (h : PartInv less a b i j d) (hij : i ≤ j)
    (hi : less (nth d i) (nth d a) = false) (hj : less (nth d j) (nth d a) = true) :
    i < j ∧ PartInv less a b (i + 1) (j - 1) (swapAt d i j) ∧
      Frame (a + 1) b d (swapAt d i j) := by
  rcases h with ⟨h1, h2, h3, h4, h5, h6⟩
  have hne : i ≠ j := by
    intro e; rw [e, hj] at hi; exact absurd hi (by simp)
  have hlt : i < j := by omega
  have hil : i < d.length := by omega
  have hjl : j < d.length := by omega
  have hsw := nth_swapAt d i j
  have hsa : nth (swapAt d i j) a = nth d a := by
    rw [hsw a hil hjl, if_neg (by omega), if_neg (by omega)]
  refine ⟨hlt, ⟨by omega, by omega, by omega, by rw [swapAt_length]; exact h4, ?_, ?_⟩,
    Frame.swap d i j h4 ⟨by omega, by omega⟩ ⟨by omega, by omega⟩⟩
  · intro k hk1 hk2
    rw [hsa, hsw k hil hjl]
    by_cases hki : k = i
    · rw [if_neg (by omega), if_pos hki]; exact hj
    · rw [if_neg (by omega), if_neg hki]; exact h5 k hk1 (by omega)
  · intro k hk1 hk2
    rw [hsa, hsw k hil hjl]
    by_cases hkj : k = j
    · rw [if_pos hkj]; exact hi
    · rw [if_neg hkj, if_neg (by omega)]; exact h6 k (by omega) hk2

theorem partitionLoop_spec {less : α → α → Bool} (a b : Nat) :
    ∀ (n i j : Nat) (d : List α), PartInv less a b i j d → j + 1 - i ≤ n →
      Frame (a + 1) b d (partitionLoop less a n i j d).1 ∧
        PartInv less a b ((partitionLoop less a n i j d).2 + 1) (partitionLoop less a n i j d).2
          (partitionLoop less a n i j d).1 := by
  intro n
  induction n with
  | zero =>
    intro i j d h hn
    rw [partitionLoop]
    have : i = j + 1 := by have := h.2.1; omega
    subst this
    exact ⟨Frame.refl _ _ _, h⟩
  | succ n ih =>
    intro i j d h hn
    rw [partitionLoop]
    have hs := partition_scans h
    generalize scanUp (fun k => lessAt less d k a) (j + 1 - i) i = i1 at *
    generalize scanDown (fun k => !lessAt less d k a) (j + 1 - i1) j = j1 at *
    rcases hs with ⟨hinv, hi1, hj1, hstop⟩
    by_cases hgt : i1 > j1
    · rw [if_pos hgt]
      refine ⟨Frame.refl _ _ _, ?_⟩
      rcases hinv with ⟨g1, g2, g3, g4, g5, g6⟩
      have : i1 = j1 + 1 := by omega
      subst this
      exact ⟨g1, g2, g3, g4, g5, g6⟩
    · rw [if_neg hgt]
      rcases hstop (by omega) with ⟨s1, s2⟩
      rcases hinv.exchange (by omega) s1 s2 with ⟨hlt, hinv2, hfr⟩
      have := ih (i1 + 1) (j1 - 1) (swapAt d i1 j1) hinv2 (by omega)
      exact ⟨hfr.trans this.1, this.2⟩

/-- What `partition_func` leaves: the pivot at `mid`, before it only elements
less than the pivot, after it none. -/
theorem partition_spec (less : α → α → Bool) (d : List α) (a b pivot : Nat)
    (hb : b ≤ d.length) (hpa : a ≤ pivot) (hpb : pivot < b) :
    Frame a b d (partition less d a b pivot).1 ∧
      a ≤ (partition less d a b pivot).2.1 ∧ (partition less d a b pivot).2.1 < b ∧
      (∀ k, a ≤ k → k < (partition less d a b pivot).2.1 →
        less (nth (partition less d a b pivot).1 k)
          (nth (partition less d a b pivot).1 (partition less d a b pivot).2.1) = true) ∧
      (∀ k, (partition less d a b pivot).2.1 < k → k < b →
        less (nth (partition less d a b pivot).1 k)
          (nth (partition less d a b pivot).1 (partition less d a b pivot).2.1) = false) := by
  have hf0 : Frame a b d (swapAt d a pivot) :=
    Frame.swap d a pivot hb ⟨Nat.le_refl _, by omega⟩ ⟨hpa, hpb⟩
  have hinv0 : PartInv less a b (a + 1) (b - 1) (swapAt d a pivot) :=
    ⟨Nat.le_refl _, by omega, by omega, by rw [swapAt_length]; exact hb,
      fun k h1 h2 => by omega, fun k h1 h2 => by omega⟩
  -- the final swap of the pivot into its place
  have hfinal : ∀ (d1 : List α) (j : Nat), PartInv less a b (j + 1) j d1 →
      Frame a b d d1 →
      Frame a b d (swapAt d1 j a) ∧ a ≤ j ∧ j < b ∧
      (∀ k, a ≤ k → k < j → less (nth (swapAt d1 j a) k) (nth (swapAt d1 j a) j) = true) ∧
      (∀ k, j < k → k < b → less (nth (swapAt d1 j a) k) (nth (swapAt d1 j a) j) = false) := by
    intro d1 j hinv hfr
    rcases hinv with ⟨g1, g2, g3, g4, g5, g6⟩
    have hjl : j < d1.length := by omega
    have hal : a < d1.length := by omega
    have hsw := nth_swapAt d1 j a
    have hpj : nth (swapAt d1 j a) j = nth d1 a := by
      rw [hsw j hjl hal]
      by_cases hja : j = a
      · rw [if_pos hja]; rw [hja]
      · rw [if_neg hja, if_pos rfl]
    refine ⟨hfr.trans (Frame.swap d1 j a (by omega) ⟨by omega, by omega⟩ ⟨Nat.le_refl _, by omega⟩),
      by omega, by omega, ?_, ?_⟩
    · intro k hk1 hk2
      rw [hpj, hsw k hjl hal]
      by_cases hka : k = a
      · rw [if_pos hka]; exact g5 j (by omega) (by omega)
      · rw [if_neg hka, if_neg (by omega)]; exact g5 k (by omega) (by omega)
    · intro k hk1 hk2
      rw [hpj, hsw k hjl hal, if_neg (by omega), if_neg (by omega)]
      exact g6 k hk1 hk2
  unfold partition
  dsimp only
  have hs := partition_scans hinv0
  generalize scanUp (fun k => lessAt less (swapAt d a pivot) k a) (b - 1 + 1 - (a + 1)) (a + 1)
    = i1 at *
  generalize scanDown (fun k => !lessAt less (swapAt d a pivot) k a) (b - 1 + 1 - i1) (b - 1)
    = j1 at *
  rcases hs with ⟨hinv, hi1, hj1, hstop⟩
  by_cases hgt : i1 > j1
  · rw [if_pos hgt]
    dsimp only
    have hij : i1 = j1 + 1 := by have := hinv.2.1; omega
    subst hij
    exact hfinal _ j1 hinv hf0
  · rw [if_neg hgt]
    dsimp only
    rcases hstop (by omega) with ⟨s1, s2⟩
    rcases hinv.exchange (by omega) s1 s2 with ⟨hlt, hinv2, hfr⟩
    have hl := partitionLoop_spec a b (b - a) (i1 + 1) (j1 - 1) (swapAt (swapAt d a pivot) i1 j1)
      hinv2 (by have := hinv.2.2.1; have := hinv.1; omega)
    exact hfinal _ _ hl.2
      (hf0.trans ((hfr.trans hl.1).mono (by omega) (Nat.le_refl _)))

theorem partitionEqualLoop_spec {less : α → α → Bool} (a b : Nat) :
    ∀ (n i j : Nat) (d : List α), PartEqInv less a b i j d → j + 1 - i ≤ n →
      Frame (a + 1) b d (partitionEqualLoop less a n i j d).1 ∧
        PartEqInv less a b (partitionEqualLoop less a n i j d).2
          ((partitionEqualLoop less a n i j d).2 - 1) (partitionEqualLoop less a n i j d).1 := by
  intro n
  induction n with
  | zero =>
    intro i j d h hn
    rw [partitionEqualLoop]
    have : i = j + 1 := by have := h.2.1; omega
    subst this
    exact ⟨Frame.refl _ _ _, h⟩
  | succ n ih =>
    intro i j d h hn
    rw [partitionEqualLoop]
    rcases h with ⟨h1, h2, h3, h4, h5, h6⟩
    rcases scanUp_spec (fun k => !lessAt less d a k) (j + 1 - i) i with ⟨u1, u2, u3, u4⟩
    generalize scanUp (fun k => !lessAt less d a k) (j + 1 - i) i = i1 at *
    rcases scanDown_spec (fun k => lessAt less d a k) (j + 1 - i1) j (by omega)
      with ⟨v1, v2, v3, v4⟩
    generalize scanDown (fun k => lessAt less d a k) (j + 1 - i1) j = j1 at *
    have hla : a < d.length := by omega
    have g5 : ∀ k, a + 1 ≤ k → k < i1 → less (nth d a) (nth d k) = false := by
      intro k hk1 hk2
      by_cases hki : k < i
      · exact h5 k hk1 hki
      · have := u3 k (by omega) hk2
        rw [lessAt_eq less d a k hla (by omega)] at this
        simpa using this
    have g6 : ∀ k, j1 < k → k < b → less (nth d a) (nth d k) = true := by
      intro k hk1 hk2
      by_cases hkj : j < k
      · exact h6 k hkj hk2
      · have := v3 k hk1 (by omega)
        rwa [lessAt_eq less d a k hla (by omega)] at this
    by_cases hgt : i1 > j1
    · rw [if_pos hgt]
      refine ⟨Frame.refl _ _ _, ?_⟩
      have : j1 = i1 - 1 := by omega
      subst this
      exact ⟨by omega, by omega, by omega, h4, g5, g6⟩
    · rw [if_neg hgt]
      have s1 : less (nth d a) (nth d i1) = true := by
        have := u4 (by omega)
        rw [lessAt_eq less d a i1 hla (by omega)] at this
        simpa using this
      have s2 : less (nth d a) (nth d j1) = false := by
        have := v4 (by omega)
        rwa [lessAt_eq less d a j1 hla (by omega)] at this
      have hne : i1 ≠ j1 := by
        intro e; rw [e, s2] at s1; exact absurd s1 (by simp)
      have hil : i1 < d.length := by omega
      have hjl : j1 < d.length := by omega
      have hsw := nth_swapAt d i1 j1
      have hsa : nth (swapAt d i1 j1) a = nth d a := by
        rw [hsw a hil hjl, if_neg (by omega), if_neg (by omega)]
      have hinv2 : PartEqInv less a b (i1 + 1) (j1 - 1) (swapAt d i1 j1) := by
        refine ⟨by omega, by omega, by omega, by rw [swapAt_length]; exact h4, ?_, ?_⟩
        · intro k hk1 hk2
          rw [hsa, hsw k hil hjl]
          by_cases hki : k = i1
          · rw [if_neg (by omega), if_pos hki]; exact s2
          · rw [if_neg (by omega), if_neg hki]; exact g5 k hk1 (by omega)
        · intro k hk1 hk2
          rw [hsa, hsw k hil hjl]
          by_cases hkj : k = j1
          · rw [if_pos hkj]; exact s1
          · rw [if_neg hkj, if_neg (by omega)]; exact g6 k (by omega) hk2
      have := ih (i1 + 1) (j1 - 1) (swapAt d i1 j1) hinv2 (by omega)
      exact ⟨(Frame.swap d i1 j1 h4 ⟨by omega, by omega⟩ ⟨by omega, by omega⟩).trans this.1,
        this.2⟩

/-- What `partitionEqual_func` leaves: the pivot at `a`, then the elements
the pivot is not less than, and from `mid` on those it is less than. -/
theorem partitionEqual_spec (less : α → α → Bool) (d : List α) (a b pivot : Nat)
    (hb : b ≤ d.length) (hpa : a ≤ pivot) (hpb : pivot < b) :
    Frame a b d (partitionEqual less d a b pivot).1 ∧
      a + 1 ≤ (partitionEqual less d a b pivot).2 ∧ (partitionEqual less d a b pivot).2 ≤ b ∧
      nth (partitionEqual less d a b pivot).1 a = nth d pivot ∧
      (∀ k, a < k → k < (partitionEqual less d a b pivot).2 →
        less (nth (partitionEqual less d a b pivot).1 a)
          (nth (partitionEqual less d a b pivot).1 k) = false) ∧
      (∀ k, (partitionEqual less d a b pivot).2 ≤ k → k < b →
        less (nth (partitionEqual less d a b pivot).1 a)
          (nth (partitionEqual less d a b pivot).1 k) = true) := by
  have hf0 : Frame a b d (swapAt d a pivot) :=
    Frame.swap d a pivot hb ⟨Nat.le_refl _, by omega⟩ ⟨hpa, hpb⟩
  have hinv0 : PartEqInv less a b (a + 1) (b - 1) (swapAt d a pivot) :=
    ⟨Nat.le_refl _, by omega, by omega, by rw [swapAt_length]; exact hb,
      fun k h1 h2 => by omega, fun k h1 h2 => by omega⟩
  have ha0 : nth (swapAt d a pivot) a = nth d pivot := by
    rw [nth_swapAt d a pivot a (by omega) (by omega)]
    by_cases h : a = pivot
    · rw [if_pos h, h]
    · rw [if_neg h, if_pos rfl]
  unfold partitionEqual
  dsimp only
  have hl := partitionEqualLoop_spec a b (b - a) (a + 1) (b - 1) (swapAt d a pivot) hinv0
    (by omega)
  rcases hl with ⟨hfr, g1, g2, g3, g4, g5, g6⟩
  refine ⟨hf0.trans (hfr.mono (by omega) (Nat.le_refl _)), g1, by omega, ?_, ?_, ?_⟩
  · rw [hfr.2.1 a (by omega)]; exact ha0
  · intro k hk1 hk2; exact g5 k hk1 hk2
  · intro k hk1 hk2; exact g6 k (by omega) hk2

theorem Le.self (less : α → α → Bool) (x : α) : Le less x x := by
  unfold Le
  cases less x x <;> simp

theorem siftDown_spec {less : α → α → Bool} (w : Weak less) (hi first lo : Nat) :
    ∀ (n root : Nat) (d : List α), first + hi ≤ d.length → hi ≤ root + n → lo ≤ root →
      SiftInv less first lo hi root d →
      Frame first (first + hi) d (siftDown less hi first n root d) ∧
        HeapFrom less first lo hi (siftDown less hi first n root d) := by
  intro n
  induction n with
  | zero =>
    intro root d _ hn _ hinv
    rw [siftDown]
    refine ⟨Frame.refl _ _ _, ?_⟩
    intro p hp
    by_cases hpr : p = root
    · intro c hc hch; omega
    · exact hinv.1 p hp hpr
  | succ n ih =>
    intro root d hlen hn hlo hinv
    rw [siftDown]
    dsimp only
    by_cases hc0 : 2 * root + 1 ≥ hi
    · rw [if_pos hc0]
      refine ⟨Frame.refl _ _ _, ?_⟩
      intro p hp
      by_cases hpr : p = root
      · intro c hc hch; omega
      · exact hinv.1 p hp hpr
    · rw [if_neg hc0]
      have hr : first + root < d.length := by omega
      -- the child the loop goes on with
      obtain ⟨c, hcdef, hc1, hc2, hmax⟩ : ∃ c,
          (if (decide (2 * root + 1 + 1 < hi) &&
              lessAt less d (first + (2 * root + 1)) (first + (2 * root + 1) + 1)) = true
            then 2 * root + 1 + 1 else 2 * root + 1) = c ∧
          (c = 2 * root + 1 ∨ c = 2 * root + 2) ∧ c < hi ∧
          ∀ s, (s = 2 * root + 1 ∨ s = 2 * root + 2) → s < hi →
            Le less (nth d (first + s)) (nth d (first + c)) := by
        by_cases h2 : 2 * root + 1 + 1 < hi
        · rw [lessAt_eq less d _ _ (by omega) (by omega)]
          by_cases hl : less (nth d (first + (2 * root + 1))) (nth d (first + (2 * root + 1) + 1))
              = true
          · refine ⟨2 * root + 2, by simp [h2, hl], Or.inr rfl, by omega, ?_⟩
            intro s hs _
            rcases hs with hs | hs
            · subst hs; exact Le.of_less hl
            · subst hs; exact Le.self _ _
          · refine ⟨2 * root + 1, by simp [hl], Or.inl rfl, by omega, ?_⟩
            intro s hs _
            rcases hs with hs | hs
            · subst hs; exact Le.self _ _
            · subst hs; exact Le.of_not_less (by simpa using hl)
        · refine ⟨2 * root + 1, by simp [h2], Or.inl rfl, by omega, ?_⟩
          intro s hs hsh
          rcases hs with hs | hs
          · subst hs; exact Le.self _ _
          · omega
      rw [hcdef]
      have hcl : first + c < d.length := by omega
      rw [lessAt_eq less d _ _ hr hcl]
      by_cases hl : less (nth d (first + root)) (nth d (first + c)) = true
      · -- the root goes down
        simp only [hl, Bool.not_true, Bool.false_eq_true, if_false]
        have hfr : Frame first (first + hi) d (swapAt d (first + root) (first + c)) :=
          Frame.swap d _ _ hlen ⟨by omega, by omega⟩ ⟨by omega, by omega⟩
        have hcr : c ≠ root := by omega
        have vr : nth (swapAt d (first + root) (first + c)) (first + root)
            = nth d (first + c) := by
          rw [nth_swapAt d _ _ _ hr hcl, if_neg (by omega), if_pos rfl]
        have vc : nth (swapAt d (first + root) (first + c)) (first + c)
            = nth d (first + root) := by
          rw [nth_swapAt d _ _ _ hr hcl, if_pos rfl]
        have vo : ∀ k, k ≠ root → k ≠ c →
            nth (swapAt d (first + root) (first + c)) (first + k) = nth d (first + k) := by
          intro k h1 h2
          rw [nth_swapAt d _ _ _ hr hcl, if_neg (by omega), if_neg (by omega)]
        have hinv2 : SiftInv less first lo hi c (swapAt d (first + root) (first + c)) := by
          constructor
          · intro p hp hpc s hs hsh
            by_cases hpr : p = root
            · subst hpr
              rw [vr]
              by_cases hsc : s = c
              · subst hsc
                rw [vc]
                exact Le.of_less hl
              · rw [vo s (by omega) hsc]
                exact hmax s hs hsh
            · rw [vo p hpr hpc]
              by_cases hsr : s = root
              · subst hsr
                rw [vr]
                have hpar : (s - 1) / 2 = p := by omega
                have := hinv.2 (by omega) (by omega) c hc1 hc2
                rw [hpar] at this
                exact this
              · have hsc : s ≠ c := by omega
                rw [vo s hsr hsc]
                exact hinv.1 p hp hpr s hs hsh
          · intro _ _ s hs hsh
            have hpar : (c - 1) / 2 = root := by omega
            rw [hpar, vr, vo s (by omega) (by omega)]
            exact hinv.1 c (by omega) hcr s hs hsh
        have := ih c (swapAt d (first + root) (first + c)) (by rw [swapAt_length]; exact hlen)
          (by omega) (by omega) hinv2
        exact ⟨hfr.trans this.1, this.2⟩
      · -- the root stays
        simp only [hl, Bool.not_false, if_true]
        refine ⟨Frame.refl _ _ _, ?_⟩
        intro p hp
        by_cases hpr : p = root
        · subst hpr
          intro s hs hsh
          exact (hmax s hs hsh).chain w (Le.of_not_less (by simpa using hl))
        · exact hinv.1 p hp hpr

theorem heap_root_max {less : α → α → Bool} (w : Weak less) (first hi : Nat) (d : List α)
    (h : HeapFrom less first 0 hi d) :
    ∀ c, c < hi → Le less (nth d (first + c)) (nth d first) := by
  intro c
  induction c using Nat.strong_induction_on with
  | _ c ih =>
    intro hc
    by_cases h0 : c = 0
    · subst h0; exact Le.self _ _
    · have h1 := h ((c - 1) / 2) (Nat.zero_le _) c (by omega) hc
      have h2 := ih ((c - 1) / 2) (by omega) (by omega)
      exact h1.chain w h2

theorem heapBuild_spec {less : α → α → Bool} (w : Weak less) (hi first : Nat) :
    ∀ (n : Nat) (d : List α), first + hi ≤ d.length → HeapFrom less first n hi d →
      Frame first (first + hi) d (forDown (fun i d => siftDown less hi first hi i d) n d) ∧
        HeapFrom less first 0 hi (forDown (fun i d => siftDown less hi first hi i d) n d) := by
  intro n
  induction n with
  | zero => intro d _ h; rw [forDown]; exact ⟨Frame.refl _ _ _, h⟩
  | succ n ih =>
    intro d hlen h
    rw [forDown]
    have h1 := siftDown_spec w hi first n hi n d hlen (by omega) (Nat.le_refl _)
      ⟨fun p hp hpn => h p (by omega), fun h1 h2 => by omega⟩
    have h2 := ih (siftDown less hi first hi n d) (by rw [h1.1.1]; exact hlen) h1.2
    exact ⟨h1.1.trans h2.1, h2.2⟩

theorem heapPop_spec {less : α → α → Bool} (w : Weak less) (hi first : Nat) :
    ∀ (n : Nat) (d : List α), first + hi ≤ d.length → n ≤ hi → PopInv less first hi n d →
      Frame first (first + hi) d
          (forDown (fun i d => siftDown less i first i 0 (swapAt d first (first + i))) n d) ∧
        SortedSeg less
          (forDown (fun i d => siftDown less i first i 0 (swapAt d first (first + i))) n d)
          first (first + hi) := by
  intro n
  induction n with
  | zero =>
    intro d _ _ h
    rw [forDown]
    refine ⟨Frame.refl _ _ _, ?_⟩
    have := h.2.1
    simpa using this
  | succ n ih =>
    intro d hlen hn h
    rw [forDown]
    rcases h with ⟨hheap, hsorted, hcross⟩
    have hmax := heap_root_max w first (n + 1) d hheap
    have h0 : first < d.length := by omega
    have hnl : first + n < d.length := by omega
    have hsw := nth_swapAt d first (first + n)
    have hfs : Frame first (first + hi) d (swapAt d first (first + n)) :=
      Frame.swap d _ _ hlen ⟨Nat.le_refl _, by omega⟩ ⟨by omega, by omega⟩
    have vo : ∀ k, k ≠ 0 → k ≠ n →
        nth (swapAt d first (first + n)) (first + k) = nth d (first + k) := by
      intro k h1 h2
      rw [hsw _ h0 hnl, if_neg (by omega), if_neg (by omega)]
    have hsift := siftDown_spec w n first 0 n 0 (swapAt d first (first + n))
      (by rw [swapAt_length]; omega) (by omega) (Nat.le_refl _)
      ⟨by
        intro p _ hp0 c hc hcn
        rw [vo c (by omega) (by omega), vo p hp0 (by omega)]
        exact hheap p (Nat.zero_le _) c hc (by omega),
       fun h1 => by omega⟩
    generalize siftDown less n first n 0 (swapAt d first (first + n)) = d2 at *
    rcases hsift with ⟨hf2, hheap2⟩
    have hf2w : Frame first (first + hi) (swapAt d first (first + n)) d2 :=
      hf2.mono (Nat.le_refl _) (by omega)
    -- what the part after the heap holds
    have hout : ∀ m, n ≤ m → nth d2 (first + m)
        = if m = n then nth d first else nth d (first + m) := by
      intro m hm
      rw [hf2.2.1 (first + m) (Or.inr (by omega)), hsw _ h0 hnl]
      by_cases hmn : m = n
      · subst hmn; rw [if_pos rfl, if_pos rfl]
      · rw [if_neg (by omega), if_neg (by omega), if_neg hmn]
    -- what the heap holds comes from the old heap
    have hin : ∀ k, k < n → ∃ k1, k1 < n + 1 ∧ nth d2 (first + k) = nth d (first + k1) := by
      intro k hk
      rcases hf2.2.2 (first + k) (by omega) (by omega) with ⟨k1, g1, g2, e⟩
      rw [e, hsw _ h0 hnl]
      by_cases hk1 : k1 = first
      · exact ⟨n, by omega, by rw [if_neg (by omega), if_pos hk1]⟩
      · exact ⟨k1 - first, by omega, by
          rw [if_neg (by omega), if_neg hk1]
          congr 1; omega⟩
    have hinv2 : PopInv less first hi n d2 := by
      refine ⟨hheap2, ?_, ?_⟩
      · intro i j hi1 hij hj
        obtain ⟨i1, rfl⟩ : ∃ i1, i = first + i1 := ⟨i - first, by omega⟩
        obtain ⟨j1, rfl⟩ : ∃ j1, j = first + j1 := ⟨j - first, by omega⟩
        have hj1n : ¬ j1 = n := by omega
        rw [hout i1 (by omega), hout j1 (by omega), if_neg hj1n]
        by_cases hin1 : i1 = n
        · rw [if_pos hin1]
          have := hcross 0 j1 (by omega) (by omega) (by omega)
          simpa using this
        · rw [if_neg hin1]
          exact hsorted (first + i1) (first + j1) (by omega) (by omega) (by omega)
      · intro k m hk hm hmh
        rcases hin k hk with ⟨k1, hk1, e⟩
        rw [e, hout m hm]
        by_cases hmn : m = n
        · rw [if_pos hmn]
          exact hmax k1 hk1
        · rw [if_neg hmn]
          exact hcross k1 m hk1 (by omega) hmh
    have := ih d2 (by rw [hf2.1, swapAt_length]; exact hlen) (by omega) hinv2
    exact ⟨(hfs.trans hf2w).trans this.1, this.2⟩

/-- Heap sort orders `data[a:b]` and touches nothing else. -/
theorem heapSort_spec {less : α → α → Bool} (w : Weak less) (d : List α) (a b : Nat)
    (hab : a ≤ b) (hb : b ≤ d.length) :
    Frame a b d (heapSort less d a b) ∧ SortedSeg less (heapSort less d a b) a b := by
  unfold heapSort
  dsimp only
  have hb1 := heapBuild_spec w (b - a) a ((b - a - 1) / 2 + 1) d (by omega)
    (fun p hp c hc hch => by omega)
  generalize forDown (fun i d => siftDown less (b - a) a (b - a) i d) ((b - a - 1) / 2 + 1) d
    = d1 at *
  have hb2 := heapPop_spec w (b - a) a (b - a) d1 (by rw [hb1.1.1]; omega) (Nat.le_refl _)
    ⟨hb1.2, fun i j h1 h2 h3 => by omega, fun k m h1 h2 h3 => by omega⟩
  have e : a + (b - a) = b := by omega
  rw [e] at hb1 hb2
  exact ⟨hb1.1.trans hb2.1, hb2.2⟩

theorem SortedSeg.extend {less : α → α → Bool} (w : Weak less) {d : List α} {a k : Nat}
    (h : SortedSeg less d a k) (hak : a < k)
    (hle : Le less (nth d (k - 1)) (nth d k)) : SortedSeg less d a (k + 1) := by
  intro i j hi hij hj
  by_cases hjk : j = k
  · subst hjk
    by_cases hik : i = j - 1
    · subst hik; exact hle
    · exact (h i (j - 1) hi (by omega) (by omega)).chain w hle
  · exact h i j hi hij (by omega)

theorem SortedSeg.extend_many {less : α → α → Bool} (w : Weak less) {d : List α} {a i : Nat}
    (hai : a < i) :
    ∀ (m : Nat), SortedSeg less d a i →
      (∀ k, i ≤ k → k < i + m → Le less (nth d (k - 1)) (nth d k)) →
      SortedSeg less d a (i + m) := by
  intro m
  induction m with
  | zero => intro h _; exact h
  | succ m ih =>
    intro h hadj
    have h1 := ih h (fun k h1 h2 => hadj k h1 (by omega))
    exact h1.extend w (by omega) (hadj (i + m) (by omega) (by omega))

theorem SortedSeg.narrow {less : α → α → Bool} {d : List α} {a b b1 : Nat}
    (h : SortedSeg less d a b) (hb : b1 ≤ b) : SortedSeg less d a b1 :=
  fun i j hi hij hj => h i j hi hij (by omega)

/-- Order inside a part that a change elsewhere leaves alone stays. -/
theorem SortedSeg.frame {less : α → α → Bool} {d1 d2 : List α} {a i x y : Nat}
    (h : SortedSeg less d1 a i) (hf : Frame x y d1 d2) (hx : i ≤ x) :
    SortedSeg less d2 a i := by
  intro p q hp hpq hq
  rw [hf.2.1 p (Or.inl (by omega)), hf.2.1 q (Or.inl (by omega))]
  exact h p q hp hpq hq

theorem shiftRight_frame (less : α → α → Bool) (b : Nat) :
    ∀ (n j : Nat) (d : List α), 1 ≤ j → j + n = b → b ≤ d.length →
      Frame (j - 1) b d (shiftRight less n j d) := by
  intro n
  induction n with
  | zero => intro j d _ _ _; rw [shiftRight]; exact Frame.refl _ _ _
  | succ n ih =>
    intro j d hj hn hb
    rw [shiftRight]
    by_cases hl : (!lessAt less d j (j - 1)) = true
    · rw [if_pos hl]; exact Frame.refl _ _ _
    · rw [if_neg hl]
      have h1 : Frame (j - 1) b d (swapAt d j (j - 1)) :=
        Frame.swap d j (j - 1) hb ⟨by omega, by omega⟩ ⟨by omega, by omega⟩
      have h2 := ih (j + 1) (swapAt d j (j - 1)) (by omega) (by omega)
        (by rw [swapAt_length]; exact hb)
      exact h1.trans (h2.mono (by omega) (Nat.le_refl _))

theorem partialInsertionLoop_spec {less : α → α → Bool} (w : Weak less) (a b : Nat) :
    ∀ (steps i : Nat) (d : List α), a + 1 ≤ i → i ≤ b → b ≤ d.length → Guard less d a b →
      SortedSeg less d a i →
      Frame a b d (partialInsertionLoop less a b steps i d).1 ∧
        ((partialInsertionLoop less a b steps i d).2 = true →
          SortedSeg less (partialInsertionLoop less a b steps i d).1 a b) := by
  intro steps
  induction steps with
  | zero =>
    intro i d _ _ _ _ _
    rw [partialInsertionLoop]
    exact ⟨Frame.refl _ _ _, fun h => by simp at h⟩
  | succ steps ih =>
    intro i d hai hib hb g hs
    rw [partialInsertionLoop]
    dsimp only
    rcases scanUp_spec (fun k => !lessAt less d k (k - 1)) (b - i) i with ⟨u1, u2, u3, u4⟩
    generalize scanUp (fun k => !lessAt less d k (k - 1)) (b - i) i = i1 at *
    have hs1 : SortedSeg less d a i1 := by
      have := SortedSeg.extend_many w (d := d) (a := a) (i := i) (by omega) (i1 - i) hs ?_
      · have e : i + (i1 - i) = i1 := by omega
        rwa [e] at this
      · intro k hk1 hk2
        have := u3 k hk1 (by omega)
        rw [lessAt_eq less d k (k - 1) (by omega) (by omega)] at this
        exact Le.of_not_less (by simpa using this)
    by_cases hi1b : i1 = b
    · rw [if_pos hi1b]
      subst hi1b
      exact ⟨Frame.refl _ _ _, fun _ => hs1⟩
    · rw [if_neg hi1b]
      by_cases hshort : b - a < 50
      · rw [if_pos hshort]
        exact ⟨Frame.refl _ _ _, fun h => by simp at h⟩
      · rw [if_neg hshort]
        have hlt : less (nth d i1) (nth d (i1 - 1)) = true := by
          have := u4 (by omega)
          rw [lessAt_eq less d i1 (i1 - 1) (by omega) (by omega)] at this
          simpa using this
        have hi1l : i1 < d.length := by omega
        have hi0l : i1 - 1 < d.length := by omega
        have hf1 : Frame a b d (swapAt d i1 (i1 - 1)) :=
          Frame.swap d i1 (i1 - 1) hb ⟨by omega, by omega⟩ ⟨by omega, by omega⟩
        have g1 : Guard less (swapAt d i1 (i1 - 1)) a b :=
          hf1.guard (Nat.le_refl _) (Nat.le_refl _) g
        have v1 : nth (swapAt d i1 (i1 - 1)) i1 = nth d (i1 - 1) := by
          rw [nth_swapAt d _ _ _ hi1l hi0l, if_neg (by omega), if_pos rfl]
        have v0 : nth (swapAt d i1 (i1 - 1)) (i1 - 1) = nth d i1 := by
          rw [nth_swapAt d _ _ _ hi1l hi0l, if_pos rfl]
        have vo : ∀ k, k ≠ i1 → k ≠ i1 - 1 → nth (swapAt d i1 (i1 - 1)) k = nth d k := by
          intro k h1 h2
          rw [nth_swapAt d _ _ _ hi1l hi0l, if_neg h2, if_neg h1]
        -- after the shift to the left
        obtain ⟨d2, hd2, hf2, hs2⟩ : ∃ d2,
            (if i1 - a ≥ 2 then shiftLeft less (i1 - 1) (swapAt d i1 (i1 - 1))
              else swapAt d i1 (i1 - 1)) = d2 ∧
            Frame a b d d2 ∧ SortedSeg less d2 a i1 := by
          by_cases h2 : i1 - a ≥ 2
          · rw [if_pos h2]
            rw [shiftLeft_eq a b (i1 - 1) _ (by omega) (by omega)
              (by rw [swapAt_length]; exact hb) g1]
            have := insertionInner_spec w a i1 (i1 - 1) (swapAt d i1 (i1 - 1)) (by omega)
              (by omega) (by rw [swapAt_length]; exact hi1l) ?_ ?_
            · exact ⟨_, rfl, hf1.trans (this.1.mono (Nat.le_refl _) (by omega)),
                this.2.narrow (by omega)⟩
            · intro p q hp hpq hq hpj hqj
              by_cases hqi : q = i1
              · subst hqi
                rw [v1, vo p (by omega) hpj]
                exact hs1 p (q - 1) hp (by omega) (by omega)
              · rw [vo p (by omega) hpj, vo q hqi hqj]
                exact hs1 p q hp hpq (by omega)
            · intro q hq1 hq2
              have : q = i1 := by omega
              subst this
              rw [v0, v1]
              exact Le.of_less hlt
          · rw [if_neg h2]
            exact ⟨_, rfl, hf1, fun p q hp hpq hq => by omega⟩
        rw [hd2]
        obtain ⟨d3, hd3, hf3, hs3⟩ : ∃ d3,
            (if b - i1 ≥ 2 then shiftRight less (b - (i1 + 1)) (i1 + 1) d2 else d2) = d3 ∧
            Frame a b d d3 ∧ SortedSeg less d3 a i1 := by
          by_cases h2 : b - i1 ≥ 2
          · rw [if_pos h2]
            have := shiftRight_frame less b (b - (i1 + 1)) (i1 + 1) d2 (by omega)
              (by omega) (by rw [hf2.1]; exact hb)
            simp only [Nat.add_sub_cancel] at this
            exact ⟨_, rfl, hf2.trans (this.mono (by omega) (Nat.le_refl _)),
              hs2.frame this (Nat.le_refl _)⟩
          · rw [if_neg h2]
            exact ⟨_, rfl, hf2, hs2⟩
        rw [hd3]
        have := ih i1 d3 (by omega) (by omega) (by rw [hf3.1]; exact hb)
          (hf3.guard (Nat.le_refl _) (Nat.le_refl _) g) hs3
        exact ⟨hf3.trans this.1, this.2⟩

/-- The partial insertion sort keeps to `data[a:b]`, and when it answers
`true` that part is ordered. -/
theorem partialInsertionSort_spec {less : α → α → Bool} (w : Weak less) (d : List α)
    (a b : Nat) (hab : a + 1 ≤ b) (hb : b ≤ d.length) (g : Guard less d a b) :
    Frame a b d (partialInsertionSort less d a b).1 ∧
      ((partialInsertionSort less d a b).2 = true →
        SortedSeg less (partialInsertionSort less d a b).1 a b) :=
  partialInsertionLoop_spec w a b 5 (a + 1) d (Nat.le_refl _) hab hb g
    (fun i j h1 h2 h3 => by omega)

theorem reverseLoop_frame (a b : Nat) :
    ∀ (n i j : Nat) (d : List α), a ≤ i → j < b → b ≤ d.length →
      Frame a b d (reverseLoop n i j d) := by
  intro n
  induction n with
  | zero => intro i j d _ _ _; rw [reverseLoop]; exact Frame.refl _ _ _
  | succ n ih =>
    intro i j d hi hj hb
    rw [reverseLoop]
    by_cases hij : i < j
    · rw [if_pos hij]
      exact (Frame.swap d i j hb ⟨hi, by omega⟩ ⟨by omega, hj⟩).trans
        (ih (i + 1) (j - 1) _ (by omega) (by omega) (by rw [swapAt_length]; exact hb))
    · rw [if_neg hij]; exact Frame.refl _ _ _

theorem reverseRange_frame (d : List α) (a b : Nat) (hab : a < b) (hb : b ≤ d.length) :
    Frame a b d (reverseRange d a b) :=
  reverseLoop_frame a b (b - a) a (b - 1) d (Nat.le_refl _) (by omega) hb

theorem bitsLenLoop_le : ∀ (f n : Nat), n ≤ f → 1 ≤ n → 2 ^ bitsLenLoop f n ≤ 2 * n := by
  intro f
  induction f with
  | zero => intro n h1 h2; omega
  | succ f ih =>
    intro n h1 h2
    rw [bitsLenLoop, if_neg (by omega)]
    by_cases h : n / 2 = 0
    · rw [h]
      have : bitsLenLoop f 0 = 0 := by
        cases f with
        | zero => rfl
        | succ f => rw [bitsLenLoop, if_pos rfl]
      rw [this]; omega
    · have := ih (n / 2) (by omega) (by omega)
      rw [Nat.pow_add]
      omega

theorem breakPatterns_frame (next : Nat → Nat) (d : List α) (a b : Nat) (hb : b ≤ d.length) :
    Frame a b d (breakPatterns next d a b) := by
  unfold breakPatterns
  dsimp only
  by_cases h8 : b - a ≥ 8
  · rw [if_pos h8]
    have hm : 2 ^ bitsLen (b - a) ≤ 2 * (b - a) :=
      bitsLenLoop_le (b - a) (b - a) (Nat.le_refl _) (by omega)
    have hmpos : 0 < 2 ^ bitsLen (b - a) := Nat.two_pow_pos _
    have hstep : ∀ (i : Nat) (s : Nat × List α), i < 3 → s.2.length = d.length →
        Frame a b s.2
          (swapAt s.2 (a + (b - a) / 4 * 2 - 1 + i)
            (a + if next s.1 % 2 ^ bitsLen (b - a) ≥ b - a
              then next s.1 % 2 ^ bitsLen (b - a) - (b - a)
              else next s.1 % 2 ^ bitsLen (b - a))) := by
      intro i s hi hl
      have hlt := Nat.mod_lt (next s.1) hmpos
      refine Frame.swap s.2 _ _ (by omega) ⟨by omega, by omega⟩ ⟨by omega, ?_⟩
      split <;> omega
    simp only [forUp]
    have f0 := hstep 0 (b - a, d) (by omega) rfl
    have f1 := hstep 1 (next (b - a), _) (by omega) f0.1
    have f2 := hstep 2 (next (next (b - a)), _) (by omega) (f1.1.trans f0.1)
    exact (f0.trans f1).trans f2
  · rw [if_neg h8]; exact Frame.refl _ _ _

theorem order2_mem (less : α → α → Bool) (d : List α) (x y s : Nat) :
    ((order2 less d x y s).1 = x ∨ (order2 less d x y s).1 = y) ∧
      ((order2 less d x y s).2.1 = x ∨ (order2 less d x y s).2.1 = y) := by
  unfold order2
  split
  · exact ⟨Or.inr rfl, Or.inl rfl⟩
  · exact ⟨Or.inl rfl, Or.inr rfl⟩

theorem median_mem (less : α → α → Bool) (d : List α) (x y z s : Nat) :
    (median less d x y z s).1 = x ∨ (median less d x y z s).1 = y ∨
      (median less d x y z s).1 = z := by
  unfold median
  dsimp only
  have h1 := order2_mem less d x y s
  generalize order2 less d x y s = o1 at *
  have h2 := order2_mem less d o1.2.1 z o1.2.2
  generalize order2 less d o1.2.1 z o1.2.2 = o2 at *
  have h3 := order2_mem less d o1.1 o2.1 o2.2.2
  generalize order2 less d o1.1 o2.1 o2.2.2 = o3 at *
  omega

theorem choosePivot_range (less : α → α → Bool) (d : List α) (a b : Nat) (hab : a < b) :
    a ≤ (choosePivot less d a b).1 ∧ (choosePivot less d a b).1 < b := by
  have key : ∀ (p : Nat × Nat), (a ≤ p.1 ∧ p.1 < b) →
      a ≤ (if p.2 = 0 then (p.1, SortedHint.increasingHint)
        else if p.2 = 12 then (p.1, SortedHint.decreasingHint)
        else (p.1, SortedHint.unknownHint)).1 ∧
      (if p.2 = 0 then (p.1, SortedHint.increasingHint)
        else if p.2 = 12 then (p.1, SortedHint.decreasingHint)
        else (p.1, SortedHint.unknownHint)).1 < b := by
    intro p hp
    split
    · exact hp
    · split <;> exact hp
  unfold choosePivot
  dsimp only
  apply key
  by_cases h8 : b - a ≥ 8
  · rw [if_pos h8]
    by_cases h50 : b - a ≥ 50
    · rw [if_pos h50]
      unfold medianAdjacent
      have m1 := median_mem less d (a + (b - a) / 4 * 1 - 1) (a + (b - a) / 4 * 1)
        (a + (b - a) / 4 * 1 + 1) 0
      generalize median less d (a + (b - a) / 4 * 1 - 1) (a + (b - a) / 4 * 1)
        (a + (b - a) / 4 * 1 + 1) 0 = r1 at *
      have m2 := median_mem less d (a + (b - a) / 4 * 2 - 1) (a + (b - a) / 4 * 2)
        (a + (b - a) / 4 * 2 + 1) r1.2
      generalize median less d (a + (b - a) / 4 * 2 - 1) (a + (b - a) / 4 * 2)
        (a + (b - a) / 4 * 2 + 1) r1.2 = r2 at *
      have m3 := median_mem less d (a + (b - a) / 4 * 3 - 1) (a + (b - a) / 4 * 3)
        (a + (b - a) / 4 * 3 + 1) r2.2
      generalize median less d (a + (b - a) / 4 * 3 - 1) (a + (b - a) / 4 * 3)
        (a + (b - a) / 4 * 3 + 1) r2.2 = r3 at *
      have m4 := median_mem less d r1.1 r2.1 r3.1 r3.2
      generalize median less d r1.1 r2.1 r3.1 r3.2 = r4 at *
      omega
    · rw [if_neg h50]
      have m4 := median_mem less d (a + (b - a) / 4 * 1) (a + (b - a) / 4 * 2)
        (a + (b - a) / 4 * 3) 0
      generalize median less d (a + (b - a) / 4 * 1) (a + (b - a) / 4 * 2)
        (a + (b - a) / 4 * 3) 0 = r4 at *
      omega
  · rw [if_neg h8]
    dsimp only
    omega

theorem Guard.frame_left {less : α → α → Bool} {d1 d2 : List α} {x y a b : Nat}
    (g : Guard less d1 a b) (hf : Frame x y d1 d2) (hy : y + 1 ≤ a) : Guard less d2 a b := by
  intro h0 k hak hkb
  rw [hf.2.1 k (Or.inr (by omega)), hf.2.1 (a - 1) (Or.inr (by omega))]
  exact g h0 k hak hkb

theorem Guard.frame_right {less : α → α → Bool} {d1 d2 : List α} {x y a b : Nat}
    (g : Guard less d1 a b) (hf : Frame x y d1 d2) (hx : b ≤ x) : Guard less d2 a b := by
  intro h0 k hak hkb
  rw [hf.2.1 k (Or.inl (by omega)), hf.2.1 (a - 1) (Or.inl (by omega))]
  exact g h0 k hak hkb

theorem Guard.shorten {less : α → α → Bool} {d : List α} {a b b1 : Nat}
    (g : Guard less d a b) (hb : b1 ≤ b) : Guard less d a b1 :=
  fun h0 k hak hkb => g h0 k hak (by omega)

/-- Two ordered parts around a pivot that separates them make an ordered part. -/
theorem SortedSeg.join {less : α → α → Bool} (w : Weak less) {r : List α} {a mid b : Nat}
    (h1 : SortedSeg less r a mid) (h2 : SortedSeg less r (mid + 1) b)
    (hl : ∀ k, a ≤ k → k < mid → Le less (nth r k) (nth r mid))
    (hr : ∀ k, mid < k → k < b → Le less (nth r mid) (nth r k)) : SortedSeg less r a b := by
  intro i j hi hij hj
  by_cases hjm : j < mid
  · exact h1 i j hi hij hjm
  · by_cases hje : j = mid
    · subst hje; exact hl i hi hij
    · by_cases him : i < mid
      · exact (hl i hi him).chain w (hr j (by omega) hj)
      · by_cases hie : i = mid
        · subst hie; exact hr j (by omega) hj
        · exact h2 i j (by omega) hij hj

/-- The two recursive calls after `partition_func`, in either order. -/
theorem sorted_after_partition {less : α → α → Bool} (w : Weak less) (d4 r : List α)
    (a mid b : Nat) (hf : Frame a b d4 r)
    (hmid : nth r mid = nth d4 mid)
    (hL : ∀ k, a ≤ k → k < mid → ∃ k1, a ≤ k1 ∧ k1 < mid ∧ nth r k = nth d4 k1)
    (hR : ∀ k, mid < k → k < b → ∃ k1, mid < k1 ∧ k1 < b ∧ nth r k = nth d4 k1)
    (pl : ∀ k, a ≤ k → k < mid → less (nth d4 k) (nth d4 mid) = true)
    (pr : ∀ k, mid < k → k < b → less (nth d4 k) (nth d4 mid) = false)
    (h1 : SortedSeg less r a mid) (h2 : SortedSeg less r (mid + 1) b) :
    Frame a b d4 r ∧ SortedSeg less r a b := by
  refine ⟨hf, SortedSeg.join w h1 h2 ?_ ?_⟩
  · intro k hk1 hk2
    rcases hL k hk1 hk2 with ⟨k1, g1, g2, e⟩
    rw [e, hmid]
    exact Le.of_less (pl k1 g1 g2)
  · intro k hk1 hk2
    rcases hR k hk1 hk2 with ⟨k1, g1, g2, e⟩
    rw [e, hmid]
    exact Le.of_not_less (pr k1 g1 g2)

/-- `pdqsort_func` orders `data[a:b]` and touches nothing else, whatever the
limit and the two flags. -/
theorem pdqsort_spec {less : α → α → Bool} (w : Weak less) (next : Nat → Nat) :
    ∀ (n a b limit : Nat) (wb wp : Bool) (d : List α), a ≤ b → b ≤ d.length → b - a < n →
      Guard less d a b →
      Frame a b d (pdqsort less next n a b limit wb wp d) ∧
        SortedSeg less (pdqsort less next n a b limit wb wp d) a b := by
  intro n
  induction n with
  | zero => intro a b _ _ _ d _ _ h _; omega
  | succ n ih =>
    intro a b limit wb wp d hab hb hn g
    rw [pdqsort]
    dsimp only
    by_cases h12 : b - a ≤ 12
    · rw [if_pos h12]; exact insertionSort_spec w d a b hb
    rw [if_neg h12]
    by_cases hlim : limit = 0
    · rw [if_pos hlim]; exact heapSort_spec w d a b hab hb
    rw [if_neg hlim]
    -- breakPatterns
    obtain ⟨d1, hd1, hf1⟩ : ∃ d1, (if (!wb) = true then breakPatterns next d a b else d) = d1 ∧
        Frame a b d d1 := by
      by_cases hwb : (!wb) = true
      · rw [if_pos hwb]; exact ⟨_, rfl, breakPatterns_frame next d a b hb⟩
      · rw [if_neg hwb]; exact ⟨_, rfl, Frame.refl _ _ _⟩
    rw [hd1]
    generalize (if (!wb) = true then limit - 1 else limit) = limit1
    have hb1 : b ≤ d1.length := by rw [hf1.1]; exact hb
    -- choosePivot and reverseRange
    have hpr := choosePivot_range less d1 a b (by omega)
    generalize choosePivot less d1 a b = ph at *
    obtain ⟨d2, hd2, hf2⟩ : ∃ d2,
        (if ph.2 = SortedHint.decreasingHint then reverseRange d1 a b else d1) = d2 ∧
        Frame a b d d2 := by
      by_cases hh : ph.2 = SortedHint.decreasingHint
      · rw [if_pos hh]; exact ⟨_, rfl, hf1.trans (reverseRange_frame d1 a b (by omega) hb1)⟩
      · rw [if_neg hh]; exact ⟨_, rfl, hf1⟩
    rw [hd2]
    obtain ⟨pivot, hpv, hpa, hpb⟩ : ∃ pivot,
        (if ph.2 = SortedHint.decreasingHint then b - 1 - (ph.1 - a) else ph.1) = pivot ∧
        a ≤ pivot ∧ pivot < b := by
      by_cases hh : ph.2 = SortedHint.decreasingHint
      · rw [if_pos hh]; exact ⟨_, rfl, by omega, by omega⟩
      · rw [if_neg hh]; exact ⟨_, rfl, hpr.1, hpr.2⟩
    rw [hpv]
    generalize (if ph.2 = SortedHint.decreasingHint then SortedHint.increasingHint else ph.2)
      = hint
    have hb2 : b ≤ d2.length := by rw [hf2.1]; exact hb
    have g2 : Guard less d2 a b := hf2.guard (Nat.le_refl _) (Nat.le_refl _) g
    -- partialInsertionSort
    obtain ⟨ps, hps, hf3, hs3⟩ : ∃ ps : List α × Bool,
        (if (wb && wp && decide (hint = SortedHint.increasingHint)) = true
          then partialInsertionSort less d2 a b else (d2, false)) = ps ∧
        Frame a b d ps.1 ∧ (ps.2 = true → SortedSeg less ps.1 a b) := by
      by_cases hc : (wb && wp && decide (hint = SortedHint.increasingHint)) = true
      · rw [if_pos hc]
        have := partialInsertionSort_spec w d2 a b (by omega) hb2 g2
        exact ⟨_, rfl, hf2.trans this.1, this.2⟩
      · rw [if_neg hc]
        exact ⟨_, rfl, hf2, fun h => by simp at h⟩
    rw [hps]
    by_cases hdone : ps.2 = true
    · rw [if_pos hdone]; exact ⟨hf3, hs3 hdone⟩
    rw [if_neg hdone]
    generalize ps.1 = d3 at *
    have hb3 : b ≤ d3.length := by rw [hf3.1]; exact hb
    have g3 : Guard less d3 a b := hf3.guard (Nat.le_refl _) (Nat.le_refl _) g
    by_cases heq : (decide (a > 0) && !lessAt less d3 (a - 1) pivot) = true
    · -- partitionEqual
      rw [if_pos heq]
      simp only [Bool.and_eq_true, decide_eq_true_eq, Bool.not_eq_true'] at heq
      rcases heq with ⟨ha0, hnl⟩
      rw [lessAt_eq less d3 (a - 1) pivot (by omega) (by omega)] at hnl
      have hgp := g3 ha0 pivot hpa hpb
      rcases w.split with hasym | hconn
      · rcases partitionEqual_spec less d3 a b pivot hb3 hpa hpb with ⟨hfe, m1, m2, hp0, he, hx⟩
        generalize partitionEqual less d3 a b pivot = pe at *
        have hbe : b ≤ pe.1.length := by rw [hfe.1]; exact hb3
        have ge : Guard less pe.1 a b := hfe.guard (Nat.le_refl _) (Nat.le_refl _) g3
        have hpred : nth pe.1 (a - 1) = nth d3 (a - 1) := hfe.2.1 _ (Or.inl (by omega))
        -- every element before `mid` stands level with the pivot
        have hEp : ∀ k, a ≤ k → k < pe.2 → Le less (nth pe.1 k) (nth pe.1 a) := by
          intro k hk1 hk2
          by_cases hka : k = a
          · subst hka; exact Le.self _ _
          · exact Le.of_not_less (he k (by omega) hk2)
        have hpE : ∀ k, a ≤ k → k < pe.2 → Le less (nth pe.1 a) (nth pe.1 k) := by
          intro k hk1 hk2
          have h1 : Le less (nth pe.1 a) (nth d3 (a - 1)) := by
            rw [hp0]; exact Le.of_not_less hnl
          have h2 : Le less (nth d3 (a - 1)) (nth pe.1 k) := by
            rw [← hpred]; exact Le.of_not_less (ge ha0 k hk1 (by omega))
          exact h1.chain w h2
        have gnew : Guard less pe.1 pe.2 b := by
          intro _ k hk1 hk2
          have hpx := hx k hk1 hk2
          by_cases hm : pe.2 - 1 = a
          · rw [hm]; exact hasym _ _ hpx
          · have hpe := he (pe.2 - 1) (by omega) (by omega)
            cases hxe : less (nth pe.1 k) (nth pe.1 (pe.2 - 1)) with
            | false => rfl
            | true =>
              have := w.trans _ _ _ hpx hxe
              rw [hpe] at this; exact absurd this (by simp)
        have hrec := ih pe.2 b limit1 wb wp pe.1 m2 hbe (by omega) gnew
        generalize pdqsort less next n pe.2 b limit1 wb wp pe.1 = r at *
        refine ⟨hf3.trans (hfe.trans (hrec.1.mono (by omega) (Nat.le_refl _))), ?_⟩
        have hrx : ∀ k, pe.2 ≤ k → k < b → Le less (nth pe.1 a) (nth r k) :=
          hrec.1.all (fun x => Le less (nth pe.1 a) x) (fun k h1 h2 => Le.of_less (hx k h1 h2))
        intro i j hi hij hj
        by_cases hjm : j < pe.2
        · rw [hrec.1.2.1 i (Or.inl (by omega)), hrec.1.2.1 j (Or.inl hjm)]
          exact (hEp i hi (by omega)).chain w (hpE j (by omega) hjm)
        · by_cases him : i < pe.2
          · rw [hrec.1.2.1 i (Or.inl him)]
            exact (hEp i hi him).chain w (hrx j (by omega) hj)
          · exact hrec.2 i j (by omega) hij hj
      · have := hconn _ _ hgp
        rw [hnl] at this; exact absurd this (by simp)
    · -- partition
      rw [if_neg heq]
      rcases partition_spec less d3 a b pivot hb3 hpa hpb with ⟨hfp, m1, m2, pl, pr⟩
      generalize partition less d3 a b pivot = pt at *
      generalize pt.1 = d4 at *
      generalize pt.2.1 = mid at *
      have hb4 : b ≤ d4.length := by rw [hfp.1]; exact hb3
      have g4 : Guard less d4 a b := hfp.guard (Nat.le_refl _) (Nat.le_refl _) g3
      have gl : Guard less d4 a mid := g4.shorten (by omega)
      have gr : Guard less d4 (mid + 1) b := by
        intro _ k hk1 hk2
        simp only [Nat.add_sub_cancel]
        exact pr k (by omega) hk2
      by_cases hlr : mid - a < b - mid
      · rw [if_pos hlr]
        have r1 := ih a mid limit1 true true d4 m1 (by omega) (by omega) gl
        generalize pdqsort less next n a mid limit1 true true d4 = d5 at *
        have r2 := ih (mid + 1) b limit1 (decide (mid - a ≥ (b - a) / 8)) pt.2.2 d5 (by omega)
          (by rw [r1.1.1]; exact hb4) (by omega) (gr.frame_left r1.1 (by omega))
        generalize pdqsort less next n (mid + 1) b limit1 (decide (mid - a ≥ (b - a) / 8))
          pt.2.2 d5 = d6 at *
        have hall := sorted_after_partition w d4 d6 a mid b
          ((r1.1.mono (Nat.le_refl _) (by omega)).trans (r2.1.mono (by omega) (Nat.le_refl _)))
          (by rw [r2.1.2.1 mid (Or.inl (by omega)), r1.1.2.1 mid (Or.inr (by omega))])
          (by
            intro k hk1 hk2
            rw [r2.1.2.1 k (Or.inl (by omega))]
            exact r1.1.2.2 k hk1 hk2)
          (by
            intro k hk1 hk2
            rcases r2.1.2.2 k (by omega) hk2 with ⟨k1, g1, g2, e⟩
            exact ⟨k1, by omega, g2, by rw [e, r1.1.2.1 k1 (Or.inr (by omega))]⟩)
          pl pr
          (r1.2.frame r2.1 (by omega)) r2.2
        exact ⟨hf3.trans (hfp.trans hall.1), hall.2⟩
      · rw [if_neg hlr]
        have r1 := ih (mid + 1) b limit1 true true d4 (by omega) hb4 (by omega) gr
        generalize pdqsort less next n (mid + 1) b limit1 true true d4 = d5 at *
        have r2 := ih a mid limit1 (decide (b - mid ≥ (b - a) / 8)) pt.2.2 d5 m1
          (by rw [r1.1.1]; omega) (by omega) (gl.frame_right r1.1 (by omega))
        generalize pdqsort less next n a mid limit1 (decide (b - mid ≥ (b - a) / 8))
          pt.2.2 d5 = d6 at *
        have hs2 : SortedSeg less d6 (mid + 1) b := by
          intro i j hi hij hj
          rw [r2.1.2.1 i (Or.inr (by omega)), r2.1.2.1 j (Or.inr (by omega))]
          exact r1.2 i j hi hij hj
        have hall := sorted_after_partition w d4 d6 a mid b
          ((r1.1.mono (by omega) (Nat.le_refl _)).trans (r2.1.mono (Nat.le_refl _) (by omega)))
          (by rw [r2.1.2.1 mid (Or.inr (by omega)), r1.1.2.1 mid (Or.inl (by omega))])
          (by
            intro k hk1 hk2
            rcases r2.1.2.2 k hk1 hk2 with ⟨k1, g1, g2, e⟩
            exact ⟨k1, g1, g2, by rw [e, r1.1.2.1 k1 (Or.inl (by omega))]⟩)
          (by
            intro k hk1 hk2
            rw [r2.1.2.1 k (Or.inr (by omega))]
            rcases r1.1.2.2 k (by omega) hk2 with ⟨k1, g1, g2, e⟩
            exact ⟨k1, by omega, g2, e⟩)
          pl pr r2.2 hs2
        exact ⟨hf3.trans (hfp.trans hall.1), hall.2⟩

/-- `sort.Slice` orders the whole slice by the order of the comparison. -/
theorem sortSlice_pairwise {less : α → α → Bool} (w : Weak less) (next : Nat → Nat)
    (x : List α) : (sortSlice less next x).Pairwise (Le less) := by
  have h := pdqsort_spec w next (x.length + 1) 0 x.length (bitsLen x.length) true true x
    (Nat.zero_le _) (Nat.le_refl _) (by omega) (fun h => by omega)
  unfold sortSlice
  dsimp only
  generalize pdqsort less next (x.length + 1) 0 x.length (bitsLen x.length) true true x = r at *
  rw [List.pairwise_iff_getElem]
  intro i j hi hj hij
  have := h.2 i j (Nat.zero_le _) hij (by rw [← h.1.1]; exact hj)
  unfold nth at this
  rw [List.getElem?_eq_getElem hi, List.getElem?_eq_getElem hj] at this
  exact this

/-- A strict comparison of keys is an admissible comparison function. -/
theorem Weak.of_lt {κ : Type} [LinearOrder κ] (key : α → κ) (less : α → α → Bool)
    (h : ∀ x y, less x y = true ↔ key x < key y) : Weak less := by
  have hf : ∀ x y, less x y = false ↔ key y ≤ key x := by
    intro x y
    rw [← not_lt, ← h, Bool.not_eq_true]
  refine ⟨?_, ?_, Or.inl ?_⟩
  · intro x y z h1 h2
    rw [h] at *
    exact lt_trans h1 h2
  · intro x y z h1 h2
    rw [hf] at *
    exact le_trans h2 h1
  · intro x y h1
    rw [hf]; rw [h] at h1
    exact le_of_lt h1

/-- The negation of a strict comparison of keys is an admissible comparison
function. -/
theorem Weak.of_not_lt {κ : Type} [LinearOrder κ] (key : α → κ) (less : α → α → Bool)
    (h : ∀ x y, less x y = true ↔ ¬ key x < key y) : Weak less := by
  have hf : ∀ x y, less x y = false ↔ key x < key y := by
    intro x y
    rw [← Bool.not_eq_true, h, not_not]
  refine ⟨?_, ?_, Or.inr ?_⟩
  · intro x y z h1 h2
    rw [h, not_lt] at *
    exact le_trans h2 h1
  · intro x y z h1 h2
    rw [hf] at *
    exact lt_trans h1 h2
  · intro x y h1
    rw [h, not_lt]; rw [hf] at h1
    exact le_of_lt h1

theorem Le.of_lt_iff {κ : Type} [LinearOrder κ] (key : α → κ) (less : α → α → Bool)
    (h : ∀ x y, less x y = true ↔ key x < key y) (x y : α) (hle : Le less x y) :
    key x ≤ key y := by
  rcases hle with h1 | h1
  · exact le_of_lt ((h x y).1 h1)
  · rw [← not_lt, ← h, Bool.not_eq_true]; exact h1

theorem Le.of_not_lt_iff {κ : Type} [LinearOrder κ] (key : α → κ) (less : α → α → Bool)
    (h : ∀ x y, less x y = true ↔ ¬ key x < key y) (x y : α) (hle : Le less x y) :
    key y ≤ key x := by
  rcases hle with h1 | h1
  · rw [← not_lt]; exact (h x y).1 h1
  · have : key y < key x := by
      by_contra hn
      have := (h y x).2 hn
      rw [h1] at this; exact absurd this (by simp)
    exact le_of_lt this

theorem forUp_fixed {σ : Type} (body : Nat → σ → σ) (s : σ) :
    ∀ (n i : Nat), (∀ k, i ≤ k → k < i + n → body k s = s) → forUp body n i s = s := by
  intro n
  induction n with
  | zero => intro i _; rw [forUp]
  | succ n ih =>
    intro i h
    rw [forUp, h i (Nat.le_refl _) (by omega)]
    exact ih (i + 1) (fun k h1 h2 => h k (by omega) (by omega))

theorem scanUp_all (test : Nat → Bool) :
    ∀ (n i : Nat), (∀ k, i ≤ k → k < i + n → test k = true) → scanUp test n i = i + n := by
  intro n
  induction n with
  | zero => intro i _; rw [scanUp]; rfl
  | succ n ih =>
    intro i h
    rw [scanUp, if_pos (h i (Nat.le_refl _) (by omega)),
      ih (i + 1) (fun k h1 h2 => h k (by omega) (by omega))]
    omega

/-- Where no element of the slice is less than an earlier one, the inner loop
of the insertion sort moves nothing. -/
theorem insertionInner_of_ordered (less : α → α → Bool) (d : List α) (a j : Nat)
    (hj : j < d.length)
    (h : ∀ i k, i < k → k < d.length → less (nth d k) (nth d i) = false) :
    insertionInner less a j d = d := by
  cases j with
  | zero => rw [insertionInner]
  | succ j =>
    rw [insertionInner, lessAt_eq less d (j + 1) j hj (by omega), h j (j + 1) (by omega) hj]
    simp

theorem order2_of_ordered (less : α → α → Bool) (d : List α) (x y s : Nat) (hxy : x < y)
    (hy : y < d.length)
    (h : ∀ i k, i < k → k < d.length → less (nth d k) (nth d i) = false) :
    order2 less d x y s = (x, y, s) := by
  unfold order2
  rw [lessAt_eq less d y x hy (by omega), h x y hxy hy]
  simp

theorem median_of_ordered (less : α → α → Bool) (d : List α) (x y z s : Nat) (hxy : x < y)
    (hyz : y < z) (hz : z < d.length)
    (h : ∀ i k, i < k → k < d.length → less (nth d k) (nth d i) = false) :
    median less d x y z s = (y, s) := by
  unfold median
  dsimp only
  rw [order2_of_ordered less d x y s hxy (by omega) h]
  dsimp only
  rw [order2_of_ordered less d y z s hyz hz h]
  dsimp only
  rw [order2_of_ordered less d x y s hxy (by omega) h]

theorem choosePivot_of_ordered (less : α → α → Bool) (d : List α) (a b : Nat)
    (hab : 12 < b - a) (hb : b ≤ d.length)
    (h : ∀ i k, i < k → k < d.length → less (nth d k) (nth d i) = false) :
    (choosePivot less d a b).2 = SortedHint.increasingHint := by
  unfold choosePivot
  dsimp only
  rw [if_pos (show b - a ≥ 8 by omega)]
  by_cases h50 : b - a ≥ 50
  · rw [if_pos h50]
    unfold medianAdjacent
    rw [median_of_ordered less d _ _ _ 0 (by omega) (by omega) (by omega) h]
    dsimp only
    rw [median_of_ordered less d _ _ _ 0 (by omega) (by omega) (by omega) h]
    dsimp only
    rw [median_of_ordered less d _ _ _ 0 (by omega) (by omega) (by omega) h]
    dsimp only
    rw [median_of_ordered less d _ _ _ 0 (by omega) (by omega) (by omega) h]
    simp
  · rw [if_neg h50]
    rw [median_of_ordered less d _ _ _ 0 (by omega) (by omega) (by omega) h]
    simp

theorem partialInsertionSort_of_ordered (less : α → α → Bool) (d : List α) (a b : Nat)
    (hab : a + 1 ≤ b) (hb : b ≤ d.length)
    (h : ∀ i k, i < k → k < d.length → less (nth d k) (nth d i) = false) :
    partialInsertionSort less d a b = (d, true) := by
  unfold partialInsertionSort
  rw [partialInsertionLoop]
  dsimp only
  have hs := scanUp_all (fun k => !lessAt less d k (k - 1)) (b - (a + 1)) (a + 1) (by
    intro k hk1 hk2
    show (!lessAt less d k (k - 1)) = true
    rw [lessAt_eq less d k (k - 1) (by omega) (by omega), h (k - 1) k (by omega) (by omega)]
    rfl)
  have e : a + 1 + (b - (a + 1)) = b := by omega
  rw [hs, e, if_pos rfl]

theorem bitsLen_pos (n : Nat) (hn : 1 ≤ n) : bitsLen n ≠ 0 := by
  unfold bitsLen
  cases n with
  | zero => omega
  | succ n => rw [bitsLenLoop, if_neg (by omega)]; omega

/-- On a slice in which no element is less than an earlier one, `sort.Slice`
changes nothing. -/
theorem sortSlice_of_ordered (less : α → α → Bool) (next : Nat → Nat) (d : List α)
    (h : ∀ i k, i < k → k < d.length → less (nth d k) (nth d i) = false) :
    sortSlice less next d = d := by
  unfold sortSlice
  dsimp only
  rw [pdqsort]
  dsimp only
  by_cases h12 : d.length - 0 ≤ 12
  · rw [if_pos h12]
    unfold insertionSort
    apply forUp_fixed
    intro k hk1 hk2
    exact insertionInner_of_ordered less d 0 k (by omega) h
  · rw [if_neg h12, if_neg (bitsLen_pos d.length (by omega))]
    have hcp := choosePivot_of_ordered less d 0 d.length (by omega) (Nat.le_refl _) h
    have hne : ¬ (choosePivot less d 0 d.length).2 = SortedHint.decreasingHint := by
      rw [hcp]; decide
    have hps := partialInsertionSort_of_ordered less d 0 d.length (by omega) (Nat.le_refl _) h
    simp [hcp, hps]

theorem ordered_of_pairwise (less : α → α → Bool)
    (hasym : ∀ x y, less x y = true → less y x = false) (d : List α)
    (hp : d.Pairwise (Le less)) :
    ∀ i k, i < k → k < d.length → less (nth d k) (nth d i) = false := by
  intro i k hik hk
  rw [List.pairwise_iff_getElem] at hp
  have := hp i k (by omega) hk hik
  unfold nth
  rw [List.getElem?_eq_getElem hk, List.getElem?_eq_getElem (show i < d.length by omega)]
  rcases this with h1 | h1
  · exact hasym _ _ h1
  · exact h1

/-- With an asymmetric comparison, sorting a second time changes nothing. -/
theorem sortSlice_idem {less : α → α → Bool} (w : Weak less)
    (hasym : ∀ x y, less x y = true → less y x = false) (next : Nat → Nat) (d : List α) :
    sortSlice less next (sortSlice less next d) = sortSlice less next d :=
  sortSlice_of_ordered less next _
    (ordered_of_pairwise less hasym _ (sortSlice_pairwise w next d))

end SortProofs

/-! ## sort.Slice only reorders -/

section SortPerm
variable {α : Type}

theorem swapAt_perm (d : List α) (i j : Nat) : (swapAt d i j).Perm d := by
  classical
  unfold swapAt
  split
  · rename_i x y hx hy
    have hi : i < d.length := (List.getElem?_eq_some.1 hx).1
    have hj : j < d.length := (List.getElem?_eq_some.1 hy).1
    have hxi : d[i] = x := (List.getElem?_eq_some.1 hx).2
    have hyj : d[j] = y := (List.getElem?_eq_some.1 hy).2
    by_cases hij : i = j
    · subst hij
      have hxy : x = y := by rw [← hxi, ← hyj]
      subst hxy
      have : (d.set i x).set i x = d := by
        apply List.ext_getElem?
        intro k
        rw [List.set_set, List.getElem?_set]
        by_cases hk : i = k
        · subst hk; rw [if_pos rfl, if_pos hi, hx]
        · rw [if_neg hk]
      rw [this]
    · rw [List.perm_iff_count]
      intro a
      have hj2 : j < (d.set i y).length := by rw [List.length_set]; exact hj
      rw [List.count_set _ _ _ _ hj2, List.count_set _ _ _ _ hi]
      have e1 : (d.set i y)[j] = y := by
        rw [List.getElem_set_ne hij]; exact hyj
      rw [e1, hxi]
      have hpos : (x == a) = true → 0 < List.count a d := by
        intro h
        have hxa : x = a := by simpa using h
        rw [List.count_pos_iff]
        rw [← hxa, ← hxi]
        exact List.getElem_mem hi
      by_cases h1 : (x == a) = true <;> by_cases h2 : (y == a) = true
      · have := hpos h1
        rw [if_pos h1, if_pos h2]; omega
      · have := hpos h1
        rw [if_pos h1, if_neg h2]; omega
      · rw [if_neg h1, if_pos h2]; omega
      · rw [if_neg h1, if_neg h2]; omega
  · exact List.Perm.refl _

theorem perm_ite (c : Prop) [Decidable c] {x y d : List α} (hx : x.Perm d) (hy : y.Perm d) :
    (if c then x else y).Perm d := by
  split
  · exact hx
  · exact hy

theorem forUp_perm (body : Nat → List α → List α) (h : ∀ i d, (body i d).Perm d) :
    ∀ n i d, (forUp body n i d).Perm d := by
  intro n
  induction n with
  | zero => intro i d; rw [forUp]
  | succ n ih => intro i d; rw [forUp]; exact (ih _ _).trans (h i d)

theorem forDown_perm (body : Nat → List α → List α) (h : ∀ i d, (body i d).Perm d) :
    ∀ n d, (forDown body n d).Perm d := by
  intro n
  induction n with
  | zero => intro d; rw [forDown]
  | succ n ih => intro d; rw [forDown]; exact (ih _).trans (h n d)

theorem insertionInner_perm (less : α → α → Bool) (a : Nat) :
    ∀ j d, (insertionInner less a j d).Perm d := by
  intro j
  induction j with
  | zero => intro d; rw [insertionInner]
  | succ j ih =>
    intro d
    rw [insertionInner]
    split
    · exact (ih _).trans (swapAt_perm d _ _)
    · exact List.Perm.refl _

theorem insertionSort_perm (less : α → α → Bool) (d : List α) (a b : Nat) :
    (insertionSort less d a b).Perm d :=
  forUp_perm _ (fun i d => insertionInner_perm less a i d) _ _ _

theorem siftDown_perm (less : α → α → Bool) (hi first : Nat) :
    ∀ n root d, (siftDown less hi first n root d).Perm d := by
  intro n
  induction n with
  | zero => intro root d; rw [siftDown]
  | succ n ih =>
    intro root d
    rw [siftDown]
    dsimp only
    exact perm_ite _ (List.Perm.refl _)
      (perm_ite _ (List.Perm.refl _) ((ih _ _).trans (swapAt_perm d _ _)))

theorem heapSort_perm (less : α → α → Bool) (d : List α) (a b : Nat) :
    (heapSort less d a b).Perm d := by
  unfold heapSort
  dsimp only
  exact (forDown_perm _ (fun i d => (siftDown_perm less _ _ _ _ _).trans (swapAt_perm d _ _)) _
    _).trans (forDown_perm _ (fun i d => siftDown_perm less _ _ _ _ _) _ _)

theorem partitionLoop_perm (less : α → α → Bool) (a : Nat) :
    ∀ n i j d, (partitionLoop less a n i j d).1.Perm d := by
  intro n
  induction n with
  | zero => intro i j d; rw [partitionLoop]
  | succ n ih =>
    intro i j d
    rw [partitionLoop]
    split
    · exact List.Perm.refl _
    · exact (ih _ _ _).trans (swapAt_perm d _ _)

theorem partition_perm (less : α → α → Bool) (d : List α) (a b pivot : Nat) :
    (partition less d a b pivot).1.Perm d := by
  unfold partition
  dsimp only
  split
  · exact (swapAt_perm _ _ _).trans (swapAt_perm d _ _)
  · exact (swapAt_perm _ _ _).trans
      ((partitionLoop_perm less a _ _ _ _).trans
        ((swapAt_perm _ _ _).trans (swapAt_perm d _ _)))

theorem partitionEqualLoop_perm (less : α → α → Bool) (a : Nat) :
    ∀ n i j d, (partitionEqualLoop less a n i j d).1.Perm d := by
  intro n
  induction n with
  | zero => intro i j d; rw [partitionEqualLoop]
  | succ n ih =>
    intro i j d
    rw [partitionEqualLoop]
    split
    · exact List.Perm.refl _
    · exact (ih _ _ _).trans (swapAt_perm d _ _)

theorem partitionEqual_perm (less : α → α → Bool) (d : List α) (a b pivot : Nat) :
    (partitionEqual less d a b pivot).1.Perm d :=
  (partitionEqualLoop_perm less a _ _ _ _).trans (swapAt_perm d _ _)

theorem shiftLeft_perm (less : α → α → Bool) : ∀ j d, (shiftLeft less j d).Perm d := by
  intro j
  induction j with
  | zero => intro d; rw [shiftLeft]
  | succ j ih =>
    intro d
    rw [shiftLeft]
    split
    · exact List.Perm.refl _
    · exact (ih _).trans (swapAt_perm d _ _)

theorem shiftRight_perm (less : α → α → Bool) : ∀ n j d, (shiftRight less n j d).Perm d := by
  intro n
  induction n with
  | zero => intro j d; rw [shiftRight]
  | succ n ih =>
    intro j d
    rw [shiftRight]
    split
    · exact List.Perm.refl _
    · exact (ih _ _).trans (swapAt_perm d _ _)

theorem partialInsertionLoop_perm (less : α → α → Bool) (a b : Nat) :
    ∀ steps i d, (partialInsertionLoop less a b steps i d).1.Perm d := by
  intro steps
  induction steps with
  | zero => intro i d; rw [partialInsertionLoop]
  | succ steps ih =>
    intro i d
    rw [partialInsertionLoop]
    dsimp only
    split
    · exact List.Perm.refl _
    · split
      · exact List.Perm.refl _
      · refine (ih _ _).trans ?_
        have h1 : ∀ (c : Prop) [Decidable c] (f : List α → List α) (x : List α),
            (∀ y, (f y).Perm y) → (if c then f x else x).Perm x := by
          intro c _ f x hf
          split
          · exact hf x
          · exact List.Perm.refl _
        exact (h1 _ _ _ (fun y => shiftRight_perm less _ _ y)).trans
          ((h1 _ _ _ (fun y => shiftLeft_perm less _ y)).trans (swapAt_perm d _ _))

theorem partialInsertionSort_perm (less : α → α → Bool) (d : List α) (a b : Nat) :
    (partialInsertionSort less d a b).1.Perm d :=
  partialInsertionLoop_perm less a b _ _ _

theorem reverseLoop_perm : ∀ n i j (d : List α), (reverseLoop n i j d).Perm d := by
  intro n
  induction n with
  | zero => intro i j d; rw [reverseLoop]
  | succ n ih =>
    intro i j d
    rw [reverseLoop]
    split
    · exact (ih _ _ _).trans (swapAt_perm d _ _)
    · exact List.Perm.refl _

theorem breakPatterns_perm (next : Nat → Nat) (d : List α) (a b : Nat) :
    (breakPatterns next d a b).Perm d := by
  unfold breakPatterns
  dsimp only
  split
  · simp only [forUp]
    exact (swapAt_perm _ _ _).trans ((swapAt_perm _ _ _).trans (swapAt_perm d _ _))
  · exact List.Perm.refl _

theorem perm_ite_fst {β : Type} (c : Prop) [Decidable c] {x y : List α × β} {d : List α}
    (hx : x.1.Perm d) (hy : y.1.Perm d) : (if c then x else y).1.Perm d := by
  split
  · exact hx
  · exact hy

theorem pdqsort_perm (less : α → α → Bool) (next : Nat → Nat) :
    ∀ (n a b limit : Nat) (wb wp : Bool) (d : List α),
      (pdqsort less next n a b limit wb wp d).Perm d := by
  intro n
  induction n with
  | zero => intro a b limit wb wp d; rw [pdqsort]
  | succ n ih =>
    intro a b limit wb wp d
    rw [pdqsort]
    dsimp only
    have hbp : (if (!wb) = true then breakPatterns next d a b else d).Perm d :=
      perm_ite _ (breakPatterns_perm next d a b) (List.Perm.refl _)
    generalize (if (!wb) = true then breakPatterns next d a b else d) = d1 at *
    generalize choosePivot less d1 a b = ph at *
    have hd2 : (if ph.2 = SortedHint.decreasingHint then reverseRange d1 a b else d1).Perm d :=
      perm_ite _ ((reverseLoop_perm _ _ _ _).trans hbp) hbp
    generalize (if ph.2 = SortedHint.decreasingHint then reverseRange d1 a b else d1) = d2 at *
    generalize (if ph.2 = SortedHint.decreasingHint then SortedHint.increasingHint else ph.2)
      = hint at *
    have h3 : (if (wb && wp && decide (hint = SortedHint.increasingHint)) = true
        then partialInsertionSort less d2 a b else (d2, false)).1.Perm d :=
      perm_ite_fst _ ((partialInsertionSort_perm less d2 a b).trans hd2) hd2
    generalize (if (wb && wp && decide (hint = SortedHint.increasingHint)) = true
        then partialInsertionSort less d2 a b else (d2, false)) = ps at *
    refine perm_ite _ (insertionSort_perm less d a b) (perm_ite _ (heapSort_perm less d a b) ?_)
    refine perm_ite _ h3 (perm_ite _ ?_ (perm_ite _ ?_ ?_))
    · exact (ih _ _ _ _ _ _).trans ((partitionEqual_perm less _ _ _ _).trans h3)
    · exact (ih _ _ _ _ _ _).trans
        ((ih _ _ _ _ _ _).trans ((partition_perm less _ _ _ _).trans h3))
    · exact (ih _ _ _ _ _ _).trans
        ((ih _ _ _ _ _ _).trans ((partition_perm less _ _ _ _).trans h3))

/-- `sort.Slice` only reorders the slice. -/
theorem sortSlice_perm (less : α → α → Bool) (next : Nat → Nat) (x : List α) :
    (sortSlice less next x).Perm x :=
  pdqsort_perm less next _ _ _ _ _ _ x

end SortPerm

/-! ## The bounds on the rounds of the loops are enough -/

section SortRounds
set_option linter.unusedSectionVars false
variable {α : Type} [Inhabited α]

/-- The rounds allowed to `siftDown_func` are enough: one more changes nothing. -/
theorem siftDown_rounds (less : α → α → Bool) (hi first : Nat) :
    ∀ (n root : Nat) (d : List α), hi ≤ root + n →
      siftDown less hi first (n + 1) root d = siftDown less hi first n root d := by
  intro n
  induction n with
  | zero =>
    intro root d h
    conv_lhs => rw [siftDown]
    conv_rhs => rw [siftDown]
    dsimp only
    rw [if_pos (show 2 * root + 1 ≥ hi by omega)]
  | succ n ih =>
    intro root d h
    conv_lhs => rw [siftDown]
    conv_rhs => rw [siftDown]
    dsimp only
    by_cases hc : 2 * root + 1 ≥ hi
    · rw [if_pos hc, if_pos hc]
    · rw [if_neg hc, if_neg hc]
      have hcr : 2 * root + 1 ≤ (if (decide (2 * root + 1 + 1 < hi) &&
          lessAt less d (first + (2 * root + 1)) (first + (2 * root + 1) + 1)) = true
        then 2 * root + 1 + 1 else 2 * root + 1) := by
        split <;> omega
      generalize (if (decide (2 * root + 1 + 1 < hi) &&
          lessAt less d (first + (2 * root + 1)) (first + (2 * root + 1) + 1)) = true
        then 2 * root + 1 + 1 else 2 * root + 1) = c at *
      by_cases hl : (!lessAt less d (first + root) (first + c)) = true
      · rw [if_pos hl, if_pos hl]
      · rw [if_neg hl, if_neg hl]
        exact ih _ _ (by omega)

/-- The rounds allowed to the loop of `reverseRange_func` are enough. -/
theorem reverseLoop_rounds :
    ∀ (n i j : Nat) (d : List α), j ≤ i + 2 * n →
      reverseLoop (n + 1) i j d = reverseLoop n i j d := by
  intro n
  induction n with
  | zero =>
    intro i j d h
    conv_lhs => rw [reverseLoop]
    conv_rhs => rw [reverseLoop]
    by_cases hij : i < j
    · rw [if_pos hij, reverseLoop]
      exfalso; omega
    · rw [if_neg hij]
  | succ n ih =>
    intro i j d h
    conv_lhs => rw [reverseLoop]
    conv_rhs => rw [reverseLoop]
    by_cases hij : i < j
    · rw [if_pos hij, if_pos hij]
      exact ih _ _ _ (by omega)
    · rw [if_neg hij, if_neg hij]

/-- The rounds allowed to the loop of `partition_func` are enough. -/
theorem partitionLoop_rounds (less : α → α → Bool) (a : Nat) :
    ∀ (n i j : Nat) (d : List α), 1 ≤ i → j + 1 - i ≤ n →
      partitionLoop less a (n + 1) i j d = partitionLoop less a n i j d := by
  intro n
  induction n with
  | zero =>
    intro i j d hi h
    conv_lhs => rw [partitionLoop]
    conv_rhs => rw [partitionLoop]
    have e : j + 1 - i = 0 := by omega
    rw [e, scanUp]
    have e2 : j + 1 - i = 0 := by omega
    rw [e2, scanDown, if_pos (by omega)]
  | succ n ih =>
    intro i j d hi h
    conv_lhs => rw [partitionLoop]
    conv_rhs => rw [partitionLoop]
    rcases scanUp_spec (fun k => lessAt less d k a) (j + 1 - i) i with ⟨u1, u2, _, _⟩
    generalize scanUp (fun k => lessAt less d k a) (j + 1 - i) i = i1 at *
    by_cases hle : j + 1 - i1 ≤ j
    · rcases scanDown_spec (fun k => !lessAt less d k a) (j + 1 - i1) j hle with ⟨v1, v2, _, _⟩
      generalize scanDown (fun k => !lessAt less d k a) (j + 1 - i1) j = j1 at *
      by_cases hgt : i1 > j1
      · rw [if_pos hgt, if_pos hgt]
      · rw [if_neg hgt, if_neg hgt]
        exact ih _ _ _ (by omega) (by omega)
    · omega

/-- The rounds allowed to the loop of `partitionEqual_func` are enough. -/
theorem partitionEqualLoop_rounds (less : α → α → Bool) (a : Nat) :
    ∀ (n i j : Nat) (d : List α), 1 ≤ i → j + 1 - i ≤ n →
      partitionEqualLoop less a (n + 1) i j d = partitionEqualLoop less a n i j d := by
  intro n
  induction n with
  | zero =>
    intro i j d hi h
    conv_lhs => rw [partitionEqualLoop]
    conv_rhs => rw [partitionEqualLoop]
    have e : j + 1 - i = 0 := by omega
    rw [e, scanUp]
    have e2 : j + 1 - i = 0 := by omega
    rw [e2, scanDown, if_pos (by omega)]
  | succ n ih =>
    intro i j d hi h
    conv_lhs => rw [partitionEqualLoop]
    conv_rhs => rw [partitionEqualLoop]
    rcases scanUp_spec (fun k => !lessAt less d a k) (j + 1 - i) i with ⟨u1, u2, _, _⟩
    generalize scanUp (fun k => !lessAt less d a k) (j + 1 - i) i = i1 at *
    by_cases hle : j + 1 - i1 ≤ j
    · rcases scanDown_spec (fun k => lessAt less d a k) (j + 1 - i1) j hle with ⟨v1, v2, _, _⟩
      generalize scanDown (fun k => lessAt less d a k) (j + 1 - i1) j = j1 at *
      by_cases hgt : i1 > j1
      · rw [if_pos hgt, if_pos hgt]
      · rw [if_neg hgt, if_neg hgt]
        exact ih _ _ _ (by omega) (by omega)
    · omega

/-- The rounds allowed to `pdqsort_func` are enough: with any two bounds above
the length of the part the result is the same. -/
theorem pdqsort_rounds (less : α → α → Bool) (next : Nat → Nat) :
    ∀ (n m a b limit : Nat) (wb wp : Bool) (d : List α), a ≤ b → b ≤ d.length →
      b - a < n → b - a < m →
      pdqsort less next n a b limit wb wp d = pdqsort less next m a b limit wb wp d := by
  intro n
  induction n with
  | zero => intro m a b _ _ _ d _ _ h _; omega
  | succ n ih =>
    intro m a b limit wb wp d hab hb hn hm
    cases m with
    | zero => omega
    | succ m =>
      conv_lhs => rw [pdqsort]
      conv_rhs => rw [pdqsort]
      dsimp only
      by_cases h12 : b - a ≤ 12
      · rw [if_pos h12, if_pos h12]
      rw [if_neg h12, if_neg h12]
      by_cases hlim : limit = 0
      · rw [if_pos hlim, if_pos hlim]
      rw [if_neg hlim, if_neg hlim]
      have hl1 : (if (!wb) = true then breakPatterns next d a b else d).length = d.length := by
        split
        · exact (breakPatterns_perm next d a b).length_eq
        · rfl
      generalize (if (!wb) = true then breakPatterns next d a b else d) = d1 at *
      generalize (if (!wb) = true then limit - 1 else limit) = limit1
      have hpr := choosePivot_range less d1 a b (by omega)
      generalize choosePivot less d1 a b = ph at *
      have hl2 : (if ph.2 = SortedHint.decreasingHint then reverseRange d1 a b else d1).length
          = d.length := by
        split
        · unfold reverseRange
          rw [(reverseLoop_perm _ _ _ _).length_eq]; exact hl1
        · exact hl1
      generalize (if ph.2 = SortedHint.decreasingHint then reverseRange d1 a b else d1) = d2 at *
      obtain ⟨pivot, hpv, hpa, hpb⟩ : ∃ pivot,
          (if ph.2 = SortedHint.decreasingHint then b - 1 - (ph.1 - a) else ph.1) = pivot ∧
          a ≤ pivot ∧ pivot < b := by
        by_cases hh : ph.2 = SortedHint.decreasingHint
        · rw [if_pos hh]; exact ⟨_, rfl, by omega, by omega⟩
        · rw [if_neg hh]; exact ⟨_, rfl, hpr.1, hpr.2⟩
      rw [hpv]
      generalize (if ph.2 = SortedHint.decreasingHint then SortedHint.increasingHint else ph.2)
        = hint
      have hl3 : (if (wb && wp && decide (hint = SortedHint.increasingHint)) = true
          then partialInsertionSort less d2 a b else (d2, false)).1.length = d.length := by
        split
        · rw [(partialInsertionSort_perm less d2 a b).length_eq]; exact hl2
        · exact hl2
      generalize (if (wb && wp && decide (hint = SortedHint.increasingHint)) = true
          then partialInsertionSort less d2 a b else (d2, false)) = ps at *
      by_cases hdone : ps.2 = true
      · rw [if_pos hdone, if_pos hdone]
      rw [if_neg hdone, if_neg hdone]
      have hb3 : b ≤ ps.1.length := by rw [hl3]; exact hb
      by_cases heq : (decide (a > 0) && !lessAt less ps.1 (a - 1) pivot) = true
      · rw [if_pos heq, if_pos heq]
        rcases partitionEqual_spec less ps.1 a b pivot hb3 hpa hpb with ⟨hfe, m1, m2, _, _, _⟩
        exact ih m _ _ _ _ _ _ m2 (by rw [hfe.1]; exact hb3) (by omega) (by omega)
      · rw [if_neg heq, if_neg heq]
        rcases partition_spec less ps.1 a b pivot hb3 hpa hpb with ⟨hfp, m1, m2, _, _⟩
        have hb4 : b ≤ (partition less ps.1 a b pivot).1.length := by rw [hfp.1]; exact hb3
        by_cases hlr : (partition less ps.1 a b pivot).2.1 - a
            < b - (partition less ps.1 a b pivot).2.1
        · rw [if_pos hlr, if_pos hlr]
          rw [ih m a _ limit1 true true _ m1 (by omega) (by omega) (by omega)]
          exact ih m _ _ _ _ _ _ (by omega)
            (by rw [(pdqsort_perm less next _ _ _ _ _ _ _).length_eq]; exact hb4)
            (by omega) (by omega)
        · rw [if_neg hlr, if_neg hlr]
          rw [ih m _ b limit1 true true _ (by omega) hb4 (by omega) (by omega)]
          exact ih m _ _ _ _ _ _ m1
            (by rw [(pdqsort_perm less next _ _ _ _ _ _ _).length_eq]; omega)
            (by omega) (by omega)

/-- The bound on the rounds in `sortSlice` is enough: any larger one gives
the same slice. -/
theorem sortSlice_rounds (less : α → α → Bool) (next : Nat → Nat) (x : List α) (n : Nat)
    (hn : x.length < n) :
    pdqsort less next n 0 x.length (bitsLen x.length) true true x = sortSlice less next x :=
  pdqsort_rounds less next n (x.length + 1) 0 x.length _ _ _ x (Nat.zero_le _) (Nat.le_refl _)
    (by omega) (by omega)

end SortRounds

/-! ## sortData -/

theorem strLess_iff (a b : String) : strLess a b = true ↔ a < b := by
  unfold strLess
  rw [decide_eq_true_eq, String.lt_iff_toList_lt]
  rfl

/-- The comparison of `sortData` in column `c`, ascending, is the strict
comparison of the keys of the column. -/
theorem sortLess_asc (lib : Lib) (c : Int) (hc : 0 ≤ c ∧ c ≤ 4) :
    (c = 0 ∨ c = 1 ∨ c = 4) ∧
        (∀ p q, sortLess lib c true p q = true ↔ strKey lib c p < strKey lib c q) ∨
      (c = 2 ∨ c = 3) ∧ (∀ p q, sortLess lib c true p q = true ↔ natKey c p < natKey c q) := by
  have h5 : c = 0 ∨ c = 1 ∨ c = 2 ∨ c = 3 ∨ c = 4 := by omega
  rcases h5 with h | h | h | h | h <;> subst h
  · exact Or.inl ⟨by simp, fun p q => by simp [sortLess, strKey, strLess_iff]⟩
  · exact Or.inl ⟨by simp, fun p q => by simp [sortLess, strKey, strLess_iff]⟩
  · exact Or.inr ⟨by simp, fun p q => by simp [sortLess, natKey]⟩
  · exact Or.inr ⟨by simp, fun p q => by simp [sortLess, natKey]⟩
  · exact Or.inl ⟨by simp, fun p q => by simp [sortLess, strKey, strLess_iff]⟩

theorem sortLess_desc (lib : Lib) (c : Int) (p q : Project) :
    sortLess lib c false p q = !sortLess lib c true p q := by
  simp [sortLess]

theorem KeyLe_str (lib : Lib) (c : Int) (hc : c = 0 ∨ c = 1 ∨ c = 4) (p q : Project) :
    KeyLe lib c p q ↔ strKey lib c p ≤ strKey lib c q := by
  rcases hc with h | h | h <;> subst h <;> simp [KeyLe, strKey]

theorem KeyLe_nat (lib : Lib) (c : Int) (hc : c = 2 ∨ c = 3) (p q : Project) :
    KeyLe lib c p q ↔ natKey c p ≤ natKey c q := by
  rcases hc with h | h <;> subst h <;> simp [KeyLe, natKey]

/-- The comparison function of `sortData` is admissible for `sort.Slice` in
every column and direction, and its order is the order of the keys. -/
theorem sortLess_weak (lib : Lib) (c : Int) (asc : Bool) (hc : 0 ≤ c ∧ c ≤ 4) :
    Weak (sortLess lib c asc) ∧
      ∀ p q, Le (sortLess lib c asc) p q →
        (asc = true → KeyLe lib c p q) ∧ (asc = false → KeyLe lib c q p) := by
  rcases sortLess_asc lib c hc with ⟨hcs, h⟩ | ⟨hcn, h⟩
  · cases asc with
    | true =>
      refine ⟨Weak.of_lt (strKey lib c) _ h, fun p q hle => ⟨fun _ => ?_, fun h => by simp at h⟩⟩
      rw [KeyLe_str lib c hcs]
      exact Le.of_lt_iff (strKey lib c) _ h p q hle
    | false =>
      have h2 : ∀ p q, sortLess lib c false p q = true ↔ ¬ strKey lib c p < strKey lib c q := by
        intro p q
        rw [sortLess_desc, ← h]; simp
      refine ⟨Weak.of_not_lt (strKey lib c) _ h2,
        fun p q hle => ⟨fun h => by simp at h, fun _ => ?_⟩⟩
      rw [KeyLe_str lib c hcs]
      exact Le.of_not_lt_iff (strKey lib c) _ h2 p q hle
  · cases asc with
    | true =>
      refine ⟨Weak.of_lt (natKey c) _ h, fun p q hle => ⟨fun _ => ?_, fun h => by simp at h⟩⟩
      rw [KeyLe_nat lib c hcn]
      exact Le.of_lt_iff (natKey c) _ h p q hle
    | false =>
      have h2 : ∀ p q, sortLess lib c false p q = true ↔ ¬ natKey c p < natKey c q := by
        intro p q
        rw [sortLess_desc, ← h]; simp
      refine ⟨Weak.of_not_lt (natKey c) _ h2,
        fun p q hle => ⟨fun h => by simp at h, fun _ => ?_⟩⟩
      rw [KeyLe_nat lib c hcn]
      exact Le.of_not_lt_iff (natKey c) _ h2 p q hle

/-- C9: `sortData` reorders the project list, and afterwards the list is
ordered by the key of the active column (0: lower-cased Name, 1: Marker,
2: Size, 3: FileCount, 4: Status): non-decreasing when `ascending`,
non-increasing otherwise. -/
theorem sortData_sorted (lib : Lib) (m : model)
    (hc : 0 ≤ m.sortColumnIdx ∧ m.sortColumnIdx ≤ 4) :
    (sortData lib m).projects.Perm m.projects ∧
      (m.ascending = true →
        (sortData lib m).projects.Pairwise (fun p q => KeyLe lib m.sortColumnIdx p q)) ∧
      (m.ascending = false →
        (sortData lib m).projects.Pairwise (fun p q => KeyLe lib m.sortColumnIdx q p)) := by
  have hw := sortLess_weak lib m.sortColumnIdx m.ascending hc
  have hp := sortSlice_pairwise hw.1 lib.xorshiftNext m.projects
  refine ⟨sortSlice_perm _ _ _, ?_, ?_⟩
  · intro ha
    exact hp.imp (fun {p q} hle => (hw.2 p q hle).1 ha)
  · intro ha
    exact hp.imp (fun {p q} hle => (hw.2 p q hle).2 ha)

/-- The statement of C9 for four projects of sizes 200, 100, 300 and 100,
which are not in descending order of size, sorted by size, descending. -/
theorem sortData_sorted_witness :
    (0 ≤ unsortedModel.sortColumnIdx ∧ unsortedModel.sortColumnIdx ≤ 4) ∧
      unsortedModel.ascending = false ∧
      unsortedModel.projects.map (·.Size) = [200, 100, 300, 100] ∧
      ¬ unsortedModel.projects.Pairwise
        (fun p q => KeyLe sampleLib unsortedModel.sortColumnIdx q p) ∧
      (sortData sampleLib unsortedModel).projects.Perm unsortedModel.projects ∧
      (sortData sampleLib unsortedModel).projects.Pairwise
        (fun p q => KeyLe sampleLib unsortedModel.sortColumnIdx q p) ∧
      (sortData sampleLib unsortedModel).projects.map (·.Size) = [300, 200, 100, 100] :=
  ⟨by decide, rfl, rfl, by simp [unsortedModel, KeyLe],
    (sortData_sorted sampleLib unsortedModel (by decide)).1,
    (sortData_sorted sampleLib unsortedModel (by decide)).2.2 rfl, by decide⟩

theorem getTableColumns_sortData (lib : Lib) (m : model) :
    getTableColumns (sortData lib m) = getTableColumns m := rfl

/-- In ascending order a second `sortData` changes nothing, ties included. -/
theorem sortData_idem_ascending (lib : Lib) (m : model)
    (hc : 0 ≤ m.sortColumnIdx ∧ m.sortColumnIdx ≤ 4) (ha : m.ascending = true) :
    sortData lib (sortData lib m) = sortData lib m := by
  have hw := (sortLess_weak lib m.sortColumnIdx m.ascending hc).1
  have hasym : ∀ p q, sortLess lib m.sortColumnIdx m.ascending p q = true →
      sortLess lib m.sortColumnIdx m.ascending q p = false := by
    rw [ha]
    rcases sortLess_asc lib m.sortColumnIdx hc with ⟨_, h⟩ | ⟨_, h⟩
    · intro p q hpq
      rw [← Bool.not_eq_true, h]
      exact not_lt_of_lt ((h p q).1 hpq)
    · intro p q hpq
      rw [← Bool.not_eq_true, h]
      exact not_lt_of_lt ((h p q).1 hpq)
  have := sortSlice_idem hw hasym lib.xorshiftNext m.projects
  unfold sortData
  simp only [this]
  rfl

/-! ## sortData on concrete lists -/

/-- C10 at a failing input: with two projects of the same size and the
table sorted by size, descending, one `sortData` swaps the two projects and a
second one swaps them back, so sorting twice is not sorting once. -/
theorem sortData_twice_flips_ties (lib : Lib) :
    (sortData lib tiedModel).projects.map (·.Name) = ["b", "a"] ∧
      (sortData lib (sortData lib tiedModel)).projects.map (·.Name) = ["a", "b"] ∧
      (sortData lib (sortData lib tiedModel)).projects ≠ (sortData lib tiedModel).projects := by
  have h1 : (sortData lib tiedModel).projects.map (·.Name) = ["b", "a"] := rfl
  have h2 : (sortData lib (sortData lib tiedModel)).projects.map (·.Name) = ["a", "b"] := rfl
  refine ⟨h1, h2, ?_⟩
  intro h
  rw [h, h1] at h2
  exact absurd h2 (by decide)

/-! ## The marker of a project -/

theorem sortedNames_pairwise :
    ∀ (cs : List Entry), Entry.Sorted.sortedNames cs = true →
      cs.Pairwise (fun a b => a.name < b.name)
  | [], _ => List.Pairwise.nil
  | [a], _ => List.pairwise_singleton _ _
  | a :: b :: rest, h => by
    have h2 : decide (a.name.data < b.name.data) = true ∧
        Entry.Sorted.sortedNames (b :: rest) = true := by
      simpa [Entry.Sorted.sortedNames] using h
    have ih := sortedNames_pairwise (b :: rest) h2.2
    have hab : a.name < b.name := (strLess_iff a.name b.name).1 h2.1
    refine List.pairwise_cons.2 ⟨?_, ih⟩
    intro x hx
    rcases List.mem_cons.1 hx with hx | hx
    · rw [hx]; exact hab
    · exact lt_trans hab ((List.pairwise_cons.1 ih).1 x hx)

theorem allSorted_mem :
    ∀ (cs : List Entry), Entry.Sorted.allSorted cs = true → ∀ c ∈ cs, c.Sorted = true
  | [], _, c, hc => by simp at hc
  | a :: rest, h, c, hc => by
    have h2 : a.Sorted = true ∧ Entry.Sorted.allSorted rest = true := by
      simpa [Entry.Sorted.allSorted] using h
    rcases List.mem_cons.1 hc with hc | hc
    · rw [hc]; exact h2.1
    · exact allSorted_mem rest h2.2 c hc

theorem sorted_dir (n : String) (cs : List Entry) (h : (Entry.dir n cs).Sorted = true) :
    cs.Pairwise (fun a b => a.name < b.name) ∧ ∀ c ∈ cs, c.Sorted = true := by
  have h2 : Entry.Sorted.sortedNames cs = true ∧ Entry.Sorted.allSorted cs = true := by
    simpa [Entry.Sorted] using h
  exact ⟨sortedNames_pairwise cs h2.1, allSorted_mem cs h2.2⟩

theorem getAt_sorted : ∀ (pos : List Nat) (t e : Entry), t.Sorted = true →
    t.getAt pos = some e → e.Sorted = true
  | [], t, e, h, hg => by
    simp only [Entry.getAt, Option.some.injEq] at hg
    rw [← hg]; exact h
  | i :: pos, .file n sz, e, _, hg => by simp [Entry.getAt] at hg
  | i :: pos, .dir n cs, e, h, hg => by
    cases hd : cs[i]? with
    | none => simp [Entry.getAt, hd] at hg
    | some c =>
      simp only [Entry.getAt, hd] at hg
      exact getAt_sorted pos c e
        ((sorted_dir n cs h).2 c (List.mem_iff_getElem?.2 ⟨_, hd⟩)) hg

theorem join_not_below (p : Path) (n : String) : ¬ filepathJoin p n <+: p := by
  intro h
  have := h.length_le
  simp [filepathJoin] at this

mutual
/-- The walk of an entry of the directory at `p` adds to the processed paths
only `p` itself, when the entry is not pruned and bears a marker name, and
paths at or below the entry. -/
theorem walkDir_processed (git : Path → GitProbe) :
    ∀ (d par : Entry) (p : Path) (st : ScanState),
      ∀ x ∈ (walkDir git par (filepathJoin p d.name) d st).1.processed,
        x ∈ st.processed ∨ (x = p ∧ passes d = false) ∨ filepathJoin p d.name <+: x
  | .file n sz, par, p, st, x, hx => by
    rw [walkDir] at hx
    rcases visit_cases git par (filepathJoin p (Entry.file n sz).name) (.file n sz) st
      with h | ⟨h, _, _⟩ | ⟨marker, hm, hp, h⟩
    · rw [h] at hx; exact Or.inl hx
    · rw [h] at hx; exact Or.inl hx
    · rw [h] at hx
      rcases List.mem_cons.1 hx with hx | hx
      · refine Or.inr (Or.inl ⟨by rw [hx, filepathDir_join], ?_⟩)
        simp [passes, hp, hm]
      · exact Or.inl hx
  | .dir n cs, par, p, st, x, hx => by
    rw [walkDir] at hx
    have hname : (Entry.dir n cs).name = n := rfl
    rw [hname] at hx ⊢
    rcases visit_cases git par (filepathJoin p n) (.dir n cs) st
      with h | ⟨h, _, _⟩ | ⟨marker, hm, hp, h⟩
    · rw [h] at hx; exact Or.inl hx
    · rw [h] at hx
      dsimp only at hx
      rcases walkEntries_processed git cs (.dir n cs) (filepathJoin p n) st x hx
        with h1 | ⟨h1, _⟩ | ⟨c, _, h1⟩
      · exact Or.inl h1
      · exact Or.inr (Or.inr (by rw [h1]))
      · exact Or.inr (Or.inr ((List.prefix_append _ _).trans h1))
    · rw [h] at hx
      rcases List.mem_cons.1 hx with hx | hx
      · refine Or.inr (Or.inl ⟨by rw [hx, filepathDir_join], ?_⟩)
        have hm2 : markers (Entry.dir n cs).name = some marker := hm
        simp [passes, hp, hm2]
      · exact Or.inl hx
/-- The loop over the entries of the directory at `p` adds to the processed
paths only `p` itself, when an entry is not pruned and bears a marker name,
and paths at or below the entries. -/
theorem walkEntries_processed (git : Path → GitProbe) :
    ∀ (cs : List Entry) (par : Entry) (p : Path) (st : ScanState),
      ∀ x ∈ (walkEntries git par p cs st).processed,
        x ∈ st.processed ∨ (x = p ∧ ∃ e ∈ cs, passes e = false) ∨
          ∃ c ∈ cs, filepathJoin p c.name <+: x
  | [], par, p, st, x, hx => by
    rw [walkEntries] at hx; exact Or.inl hx
  | d1 :: rest, par, p, st, x, hx => by
    rw [walkEntries] at hx
    have h1 := walkDir_processed git d1 par p st
    rcases hw : walkDir git par (filepathJoin p d1.name) d1 st with ⟨st1, r⟩
    rw [hw] at hx h1
    have hx1 : ∀ y ∈ st1.processed, y ∈ st.processed ∨
        (y = p ∧ ∃ e ∈ d1 :: rest, passes e = false) ∨
        ∃ c ∈ d1 :: rest, filepathJoin p c.name <+: y := by
      intro y hy
      rcases h1 y hy with h2 | ⟨h2, h3⟩ | h2
      · exact Or.inl h2
      · exact Or.inr (Or.inl ⟨h2, d1, List.mem_cons_self _ _, h3⟩)
      · exact Or.inr (Or.inr ⟨d1, List.mem_cons_self _ _, h2⟩)
    cases r with
    | skipDir => exact hx1 x hx
    | ok =>
      dsimp only at hx
      rcases walkEntries_processed git rest par p st1 x hx with h2 | ⟨h2, e, he, h3⟩ | ⟨c, hc, h2⟩
      · exact hx1 x h2
      · exact Or.inr (Or.inl ⟨h2, e, List.mem_cons_of_mem _ he, h3⟩)
      · exact Or.inr (Or.inr ⟨c, List.mem_cons_of_mem _ hc, h2⟩)
end

theorem walkDir_goesOn (git : Path → GitProbe) (d par : Entry) (path : Path) (st : ScanState)
    (h : goesOn d = true) : (walkDir git par path d st).2 = .ok := by
  cases d with
  | file n sz =>
    have hn : markers (Entry.file n sz).name = none := by
      simpa [goesOn, Entry.isDir] using h
    exact walkDir_passes git _ par path st (by simp [passes, hn])
  | dir n cs =>
    rw [walkDir]
    split <;> rfl

theorem walkDir_keeps_project (git : Path → GitProbe) (d par : Entry) (path : Path)
    (st : ScanState) (q : Project) (h : q ∈ st.projects) :
    q ∈ (walkDir git par path d st).1.projects :=
  walkDir_preserves git (fun s => q ∈ s.projects)
    (fun par path d s hs => visit_keeps git par path d s q hs) d par path st h

theorem walkEntries_keeps_project (git : Path → GitProbe) (cs : List Entry) (par : Entry)
    (path : Path) (st : ScanState) (q : Project) (h : q ∈ st.projects) :
    q ∈ (walkEntries git par path cs st).projects :=
  walkEntries_preserves git (fun s => q ∈ s.projects)
    (fun par path d s hs => visit_keeps git par path d s q hs) cs par path st h

/-- The loop over a directory that is not yet processed, whose entries up to
a marker-named file neither end the loop nor declare the directory, records
the directory with the tag of that file. -/
theorem walkEntries_first_marker (git : Path → GitProbe) (par : Entry) (path : Path)
    (f : Entry) (tag : String) (post : List Entry) (hfile : f.isDir = false)
    (htag : markers f.name = some tag) :
    ∀ (pre : List Entry) (st : ScanState), (∀ e ∈ pre, passes e = true) →
      path ∉ st.processed →
      ∃ q ∈ (walkEntries git par path (pre ++ f :: post) st).projects,
        q.Path = path ∧ q.Marker = tag
  | [], st, _, hnot => by
    rw [List.nil_append, walkEntries]
    cases f with
    | dir n cs => simp [Entry.isDir] at hfile
    | file n sz =>
      rw [walkDir]
      rcases visit_cases git par (filepathJoin path (Entry.file n sz).name) (.file n sz) st
        with h | ⟨_, _, hm⟩ | ⟨marker, hm, _, h⟩
      · exfalso
        unfold visit at h
        have hp : pruned (Entry.file n sz) = false := rfl
        rw [hp, htag] at h
        simp only [Bool.false_eq_true, if_false, filepathDir_join, if_neg hnot] at h
        have := congrArg (fun r => r.1.processed.length) h
        simp at this
      · rw [htag] at hm; simp at hm
      · rw [h]
        rw [htag] at hm
        cases hm
        exact ⟨_, List.mem_append_right _ (List.mem_singleton_self _),
          by simp [analyzeProject, filepathDir_join], rfl⟩
  | e :: pre, st, hpre, hnot => by
    rw [List.cons_append, walkEntries]
    have hpass := hpre e (List.mem_cons_self _ _)
    have hr := walkDir_passes git e par (filepathJoin path e.name) st hpass
    have hproc := walkDir_processed git e par path st
    rcases hw : walkDir git par (filepathJoin path e.name) e st with ⟨st1, r⟩
    rw [hw] at hr hproc
    dsimp only at hr
    subst hr
    dsimp only
    refine walkEntries_first_marker git par path f tag post hfile htag pre st1
      (fun x hx => hpre x (List.mem_cons_of_mem _ hx)) ?_
    intro hin
    rcases hproc path hin with h | ⟨_, h⟩ | h
    · exact hnot h
    · rw [hpass] at h; simp at h
    · exact join_not_below path e.name h

mutual
/-- The walk of an entry records, for a directory below it that the walk
enters and whose first marker-named entry that is not a pruned directory is
a file, a project with the tag of that file. -/
theorem walkDir_tag (git : Path → GitProbe) (f : Entry) (tag : String)
    (hfile : f.isDir = false) (htag : markers f.name = some tag) :
    ∀ (pos : List Nat) (t par : Entry) (path : Path) (st : ScanState) (n : String)
      (pre post : List Entry), t.Sorted = true → entered t pos = true →
      t.getAt pos = some (.dir n (pre ++ f :: post)) → (∀ e ∈ pre, passes e = true) →
      st.NoneBelow path →
      ∃ q ∈ (walkDir git par path t st).1.projects,
        q.Path = pathAt t path pos ∧ q.Marker = tag
  | [], t, par, path, st, n, pre, post, _, hent, hget, hpre, hnb => by
    simp only [Entry.getAt, Option.some.injEq] at hget
    subst hget
    have hc : pruned (Entry.dir n (pre ++ f :: post)) = false ∧ markers n = none := by
      simpa [entered] using hent
    rw [walkDir]
    have hv : visit git par path (.dir n (pre ++ f :: post)) st = (st, .ok) := by
      unfold visit
      rw [hc.1]
      simp only [Bool.false_eq_true, if_false, Entry.name, hc.2]
    rw [hv]
    exact walkEntries_first_marker git _ path f tag post hfile htag pre st hpre
      (fun hin => hnb path hin (List.prefix_refl _))
  | i :: pos, .file m sz, par, path, st, n, pre, post, _, hent, _, _, _ => by
    simp [entered] at hent
  | i :: pos, .dir m ds, par, path, st, n, pre, post, hs, hent, hget, hpre, hnb => by
    have hc : ((pruned (Entry.dir m ds) = false ∧ markers m = none) ∧
        (ds.take i).all goesOn = true) ∧
        (match ds[i]? with
          | some c => entered c pos
          | none => false) = true := by
      simpa [entered, Bool.and_eq_true] using hent
    rw [walkDir]
    have hv : visit git par path (.dir m ds) st = (st, .ok) := by
      unfold visit
      rw [hc.1.1.1]
      simp only [Bool.false_eq_true, if_false, Entry.name, hc.1.1.2]
    rw [hv]
    dsimp only
    cases hd : ds[i]? with
    | none => rw [hd] at hc; simp at hc
    | some c =>
      have hent2 : entered c pos = true := by
        have := hc.2; rw [hd] at this; exact this
      have hget2 : c.getAt pos = some (.dir n (pre ++ f :: post)) := by
        simp only [Entry.getAt, hd] at hget; exact hget
      simp only [pathAt, hd]
      have hsd := sorted_dir m ds hs
      exact walkEntries_tag git f tag hfile htag pos ds i c (.dir m ds) path st n pre post
        (hsd.1.imp (fun h => ne_of_lt h)) hsd.2 hc.1.2 hd hent2 hget2 hpre
        (fun x hx hpx => hnb x hx ((List.prefix_append _ _).trans hpx))
/-- The loop over a directory reaches its entry number `i` when no file
before it has a marker name, and then records what the walk of that entry
records. -/
theorem walkEntries_tag (git : Path → GitProbe) (f : Entry) (tag : String)
    (hfile : f.isDir = false) (htag : markers f.name = some tag) :
    ∀ (pos : List Nat) (ds : List Entry) (i : Nat) (c par : Entry) (path : Path)
      (st : ScanState) (n : String) (pre post : List Entry),
      ds.Pairwise (fun a b => a.name ≠ b.name) → (∀ d ∈ ds, d.Sorted = true) →
      (ds.take i).all goesOn = true → ds[i]? = some c → entered c pos = true →
      c.getAt pos = some (.dir n (pre ++ f :: post)) → (∀ e ∈ pre, passes e = true) →
      st.NoneBelow (filepathJoin path c.name) →
      ∃ q ∈ (walkEntries git par path ds st).projects,
        q.Path = pathAt c (filepathJoin path c.name) pos ∧ q.Marker = tag
  | _, [], i, c, par, path, st, n, pre, post, _, _, _, hd, _, _, _, _ => by simp at hd
  | pos, d1 :: rest, 0, c, par, path, st, n, pre, post, _, hsorted, _, hd, hent, hget, hpre,
      hnb => by
    simp only [List.getElem?_cons_zero, Option.some.injEq] at hd
    subst hd
    rw [walkEntries]
    have hf := walkDir_tag git f tag hfile htag pos d1 par (filepathJoin path d1.name) st n
      pre post (hsorted d1 (List.mem_cons_self _ _)) hent hget hpre hnb
    rcases hw : walkDir git par (filepathJoin path d1.name) d1 st with ⟨st1, r⟩
    rw [hw] at hf
    rcases hf with ⟨q, hq, e⟩
    cases r with
    | skipDir => exact ⟨q, hq, e⟩
    | ok => exact ⟨q, walkEntries_keeps_project git rest par path st1 q hq, e⟩
  | pos, d1 :: rest, i + 1, c, par, path, st, n, pre, post, hnames, hsorted, hgo, hd, hent,
      hget, hpre, hnb => by
    simp only [List.getElem?_cons_succ] at hd
    have hp : goesOn d1 = true ∧ (rest.take i).all goesOn = true := by
      simpa [List.take_succ_cons, Bool.and_eq_true] using hgo
    rw [walkEntries]
    have hr := walkDir_goesOn git d1 par (filepathJoin path d1.name) st hp.1
    have hproc := walkDir_processed git d1 par path st
    rcases hw : walkDir git par (filepathJoin path d1.name) d1 st with ⟨st1, r⟩
    rw [hw] at hr hproc
    dsimp only at hr
    subst hr
    dsimp only
    have hn := List.pairwise_cons.1 hnames
    refine walkEntries_tag git f tag hfile htag pos rest i c par path st1 n pre post hn.2
      (fun d hd => hsorted d (List.mem_cons_of_mem _ hd)) hp.2 hd hent hget hpre ?_
    intro x hx hpx
    rcases hproc x hx with h | ⟨h, _⟩ | h
    · exact hnb x h hpx
    · rw [h] at hpx; exact join_not_below path c.name hpx
    · exact hn.1 c (List.mem_iff_getElem?.2 ⟨_, hd⟩) (join_prefix_same path d1.name c.name x h hpx)
end

/-- C17: in a tree listed in sorted name order, a directory that the
discovery walk enters and that holds marker-named files, and no marker-named
directory other than `.git`, is reported as a project, and every project
reported for it carries the tag of the marker-named file whose name is the
smallest. -/
theorem scanProjects_marker_smallest (git : Path → GitProbe) (up : Entry) (root : Path)
    (t : Entry) (pos : List Nat) (n : String) (cs : List Entry) (f : Entry) (tag : String)
    (hs : t.Sorted = true) (hent : entered t pos = true)
    (hget : t.getAt pos = some (.dir n cs))
    (hf : f ∈ cs) (hfile : f.isDir = false) (htag : markers f.name = some tag)
    (hmin : ∀ g ∈ cs, g.isDir = false → (markers g.name).isSome = true →
      strLess g.name f.name = false)
    (hdirs : ∀ g ∈ cs, g.isDir = true → (markers g.name).isSome = true → g.name = ".git") :
    (∃ q ∈ scanProjects git up root t, q.Path = pathAt t root pos) ∧
      ∀ q ∈ scanProjects git up root t, q.Path = pathAt t root pos → q.Marker = tag := by
  rcases List.append_of_mem hf with ⟨pre, post, hcs⟩
  have hD := sorted_dir n cs (getAt_sorted pos t _ hs hget)
  rw [hcs] at hD hget
  have hlt : ∀ e ∈ pre, e.name < f.name := fun e he =>
    (List.pairwise_append.1 hD.1).2.2 e he f (List.mem_cons_self _ _)
  have hpre : ∀ e ∈ pre, passes e = true := by
    intro e he
    have hecs : e ∈ cs := by rw [hcs]; exact List.mem_append_left _ he
    cases hm : markers e.name with
    | none => simp [passes, hm]
    | some mk =>
      cases hdir : e.isDir with
      | true =>
        have := hdirs e hecs hdir (by rw [hm]; rfl)
        have hb : blacklist e.name = true := by rw [this]; decide
        simp [passes, pruned, hdir, hb]
      | false =>
        have h1 := hmin e hecs hdir (by rw [hm]; rfl)
        have h2 := (strLess_iff e.name f.name).2 (hlt e he)
        rw [h1] at h2; exact absurd h2 (by decide)
  rcases walkDir_tag git f tag hfile htag pos t up root ⟨[], []⟩ n pre post hs hent hget hpre
    (fun x hx => by simp at hx) with ⟨q0, hq0, hpath, hmark⟩
  refine ⟨⟨q0, hq0, hpath⟩, ?_⟩
  intro q hq hqp
  have hnd : ((scanProjects git up root t).map (·.Path)).Nodup :=
    (walkDir_preserves git ScanState.Dedup (visit_dedup git) t up root ⟨[], []⟩
      ⟨by simp, by simp⟩).2
  have := List.inj_on_of_nodup_map hnd hq hq0 (by rw [hqp, hpath])
  rw [this]; exact hmark

/-- The statement of C17 for the directory `a` with `Cargo.toml`, `go.mod` and
`package.json`, whose project is tagged "Rust". -/
theorem scanProjects_marker_smallest_witness :
    treeTwoMarkers.Sorted = true ∧ entered treeTwoMarkers [0] = true ∧
      (∃ q ∈ scanProjects noGit (.dir "" []) ["r"] treeTwoMarkers, q.Path = ["r", "a"]) ∧
      ∀ q ∈ scanProjects noGit (.dir "" []) ["r"] treeTwoMarkers,
        q.Path = ["r", "a"] → q.Marker = "Rust" :=
  ⟨by decide, by decide,
    scanProjects_marker_smallest noGit (.dir "" []) ["r"] treeTwoMarkers [0] "a"
      [.file "Cargo.toml" 1, .file "go.mod" 2, .file "package.json" 3] (.file "Cargo.toml" 1)
      "Rust" (by decide) (by decide) rfl (by simp) rfl (by decide)
      (by
        intro g hg _ _
        simp only [List.mem_cons, List.mem_singleton, List.not_mem_nil, or_false] at hg
        rcases hg with h | h | h <;> subst h <;> decide)
      (by
        intro g hg hd _
        simp only [List.mem_cons, List.mem_singleton, List.not_mem_nil, or_false] at hg
        rcases hg with h | h | h <;> subst h <;> simp [Entry.isDir] at hd)⟩

/-! ## The scan root -/

/-- C18: when the name of the scan root is blacklisted or starts with a dot,
the callback answers `filepath.SkipDir` for the root itself and `scanProjects`
returns no project, whatever the directory holds. -/
theorem scanProjects_pruned_root (git : Path → GitProbe) (up : Entry) (root : Path)
    (n : String) (cs : List Entry) (h : blacklist n = true ∨ HasPrefix n "." = true) :
    scanProjects git up root (.dir n cs) = [] := by
  have hp : pruned (.dir n cs) = true := by
    by_cases hb : blacklist n = true
    · simp [pruned, Entry.isDir, Entry.name, hb]
    · rcases h with h | h
      · exact absurd h hb
      · have hne : n ≠ ".git" := by
          intro e; rw [e] at hb; exact hb (by decide)
        simp [pruned, Entry.isDir, Entry.name, h, hne]
  unfold scanProjects
  rw [walkDir]
  have hv : visit git up root (.dir n cs) ⟨[], []⟩ = (⟨[], []⟩, .skipDir) := by
    unfold visit
    rw [if_pos hp]
  rw [hv]

/-- The statement of C18 for the root path `.`, whose name is `.`, above a Go
project. -/
theorem scanProjects_pruned_root_witness :
    filepathBase [] = "." ∧ HasPrefix "." "." = true ∧
      scanProjects noGit (.dir "" []) []
        (.dir (filepathBase []) [.dir "a" [.file "package.json" 7], .file "go.mod" 5]) = [] ∧
      scanProjects noGit (.dir "" []) ["r"]
        (.dir "r" [.dir "a" [.file "package.json" 7], .file "go.mod" 5]) ≠ [] :=
  ⟨rfl, by decide,
    scanProjects_pruned_root noGit (.dir "" []) [] (filepathBase [])
      [.dir "a" [.file "package.json" 7], .file "go.mod" 5] (Or.inr (by decide)),
    by decide⟩

/-! ## The interaction loop: one message -/

/-- The "enter" key opens the project under the cursor when the cursor stands
on a project, and nothing otherwise; the model goes to the table widget as
it is. -/
theorem Update_enter (lib : Lib) (w : Widget) (m : model) :
    (∃ p, 0 ≤ m.table.cursor ∧ m.table.cursor < m.projects.length ∧
        m.projects[m.table.cursor.toNat]? = some p ∧
        Update lib w m (.key "enter") = some (forward w (.key "enter") m [p.Path])) ∨
      (¬ (0 ≤ m.table.cursor ∧ m.table.cursor < m.projects.length) ∧
        Update lib w m (.key "enter") = some (forward w (.key "enter") m [])) := by
  have hk1 : ¬ ("enter" = "esc" ∨ "enter" = "q" ∨ "enter" = "ctrl+c") := by decide
  have hk2 : ¬ ("enter" = "left" ∨ "enter" = "h") := by decide
  have hk3 : ¬ ("enter" = "right" ∨ "enter" = "l") := by decide
  have hk4 : ¬ ("enter" = "s") := by decide
  unfold Update
  simp only [if_neg hk1, if_neg hk2, if_neg hk3, if_neg hk4, if_true]
  by_cases hc : 0 ≤ m.table.cursor ∧ m.table.cursor < m.projects.length
  · rw [if_pos hc]
    have hlt : m.table.cursor.toNat < m.projects.length := by omega
    refine Or.inl ⟨m.projects[m.table.cursor.toNat], hc.1, hc.2,
      List.getElem?_eq_getElem hlt, ?_⟩
    rw [List.getElem?_eq_getElem hlt]
  · rw [if_neg hc]
    exact Or.inr ⟨hc, rfl⟩

/-! ## The sort column and the direction -/

theorem wrapInt_small (x : Int) (h : -10 ≤ x ∧ x ≤ 10) : wrapInt x = x := by
  unfold wrapInt; omega

theorem left_column (c : Int) (hc : 0 ≤ c ∧ c ≤ 4) :
    Int.tmod (wrapInt (wrapInt (c - 1) + 5)) 5 = (c - 1 + 5) % 5 := by
  rw [wrapInt_small (c - 1) (by omega), wrapInt_small _ (by omega)]
  exact Int.tmod_eq_emod (by omega) (by omega)

theorem right_column (c : Int) (hc : 0 ≤ c ∧ c ≤ 4) :
    Int.tmod (wrapInt (c + 1)) 5 = (c + 1) % 5 := by
  rw [wrapInt_small _ (by omega)]
  exact Int.tmod_eq_emod (by omega) (by omega)

theorem Update_left (lib : Lib) (w : Widget) (m : model) (k : String)
    (hk : k = "left" ∨ k = "h") :
    Update lib w m (.key k) = some (forward w (.key k) (sortData lib { m with
      sortColumnIdx := Int.tmod (wrapInt (wrapInt (m.sortColumnIdx - 1) + 5)) 5 }) []) := by
  have h1 : ¬ (k = "esc" ∨ k = "q" ∨ k = "ctrl+c") := by
    rcases hk with h | h <;> subst h <;> decide
  unfold Update
  simp only [if_neg h1, if_pos hk]

theorem Update_right (lib : Lib) (w : Widget) (m : model) (k : String)
    (hk : k = "right" ∨ k = "l") :
    Update lib w m (.key k) = some (forward w (.key k) (sortData lib { m with
      sortColumnIdx := Int.tmod (wrapInt (m.sortColumnIdx + 1)) 5 }) []) := by
  have h1 : ¬ (k = "esc" ∨ k = "q" ∨ k = "ctrl+c") := by
    rcases hk with h | h <;> subst h <;> decide
  have h2 : ¬ (k = "left" ∨ k = "h") := by
    rcases hk with h | h <;> subst h <;> decide
  unfold Update
  simp only [if_neg h1, if_neg h2, if_pos hk]

theorem Update_s (lib : Lib) (w : Widget) (m : model) :
    Update lib w m (.key "s") = some (forward w (.key "s") (sortData lib { m with
      ascending := !m.ascending }) []) := by
  have h1 : ¬ ("s" = "esc" ∨ "s" = "q" ∨ "s" = "ctrl+c") := by decide
  have h2 : ¬ ("s" = "left" ∨ "s" = "h") := by decide
  have h3 : ¬ ("s" = "right" ∨ "s" = "l") := by decide
  unfold Update
  simp only [if_neg h1, if_neg h2, if_neg h3, if_true]

/-- What `Update` returns, message by message: it never fails, and the model
it returns is the old one (quit), or the old one after the table widget saw
the message, or the one `sortData` leaves for the new column or direction,
after the table widget saw the message. -/
theorem Update_cases (lib : Lib) (w : Widget) (m : model) (msg : Msg) :
    ∃ s, Update lib w m msg = some s ∧
      (s.next = m ∨ (∃ o, s = forward w msg m o) ∨
        ∃ m1, s = forward w msg (sortData lib m1) [] ∧ m1.projects = m.projects ∧
          m1.table = m.table ∧
          ((m1.ascending = m.ascending ∧
              (m1.sortColumnIdx = Int.tmod (wrapInt (wrapInt (m.sortColumnIdx - 1) + 5)) 5 ∨
                m1.sortColumnIdx = Int.tmod (wrapInt (m.sortColumnIdx + 1)) 5)) ∨
            (m1.ascending = (!m.ascending) ∧ m1.sortColumnIdx = m.sortColumnIdx))) := by
  cases msg with
  | other c => exact ⟨_, rfl, Or.inr (Or.inl ⟨_, rfl⟩)⟩
  | key k =>
    by_cases h1 : k = "esc" ∨ k = "q" ∨ k = "ctrl+c"
    · refine ⟨{ next := m, cmd := .Quit, opened := [] }, ?_, Or.inl rfl⟩
      unfold Update; simp only [if_pos h1]
    by_cases h2 : k = "left" ∨ k = "h"
    · exact ⟨_, Update_left lib w m k h2,
        Or.inr (Or.inr ⟨_, rfl, rfl, rfl, Or.inl ⟨rfl, Or.inl rfl⟩⟩)⟩
    by_cases h3 : k = "right" ∨ k = "l"
    · exact ⟨_, Update_right lib w m k h3,
        Or.inr (Or.inr ⟨_, rfl, rfl, rfl, Or.inl ⟨rfl, Or.inr rfl⟩⟩)⟩
    by_cases h4 : k = "s"
    · subst h4
      exact ⟨_, Update_s lib w m, Or.inr (Or.inr ⟨_, rfl, rfl, rfl, Or.inr ⟨rfl, rfl⟩⟩)⟩
    by_cases h5 : k = "enter"
    · subst h5
      rcases Update_enter lib w m with ⟨p, _, _, _, h⟩ | ⟨_, h⟩
      · exact ⟨_, h, Or.inr (Or.inl ⟨_, rfl⟩)⟩
      · exact ⟨_, h, Or.inr (Or.inl ⟨_, rfl⟩)⟩
    · refine ⟨forward w (.key k) m [], ?_, Or.inr (Or.inl ⟨_, rfl⟩)⟩
      unfold Update
      simp only [if_neg h1, if_neg h2, if_neg h3, if_neg h4, if_neg h5]

theorem sortData_projects_perm (lib : Lib) (m : model) :
    (sortData lib m).projects.Perm m.projects :=
  sortSlice_perm _ _ _

/-- C12: `Update` returns for every model and every message, and the project
list of the model it returns is a permutation of the list before: the same
`Project` values, each as often as before. -/
theorem Update_projects_perm (lib : Lib) (w : Widget) (m : model) (msg : Msg) :
    ∃ s, Update lib w m msg = some s ∧ s.next.projects.Perm m.projects := by
  rcases Update_cases lib w m msg with ⟨s, hs, h | ⟨o, h⟩ | ⟨m1, h, hp, _⟩⟩
  · exact ⟨s, hs, by rw [h]⟩
  · exact ⟨s, hs, by rw [h]; exact List.Perm.refl _⟩
  · refine ⟨s, hs, ?_⟩
    rw [h, ← hp]
    exact sortData_projects_perm lib m1

/-- The column stays one of the five over every message. -/
theorem Update_column_range (lib : Lib) (w : Widget) (m : model) (msg : Msg) (s : Step)
    (hc : 0 ≤ m.sortColumnIdx ∧ m.sortColumnIdx ≤ 4) (hs : Update lib w m msg = some s) :
    0 ≤ s.next.sortColumnIdx ∧ s.next.sortColumnIdx ≤ 4 := by
  rcases Update_cases lib w m msg with ⟨s1, hs1, h⟩
  rw [hs] at hs1
  cases hs1
  rcases h with h | ⟨o, h⟩ | ⟨m1, h, _, _, ⟨_, h2 | h2⟩ | ⟨_, h2⟩⟩
  · rw [h]; exact hc
  · rw [h]; exact hc
  · rw [h]
    show 0 ≤ m1.sortColumnIdx ∧ m1.sortColumnIdx ≤ 4
    rw [h2, left_column _ hc]; omega
  · rw [h]
    show 0 ≤ m1.sortColumnIdx ∧ m1.sortColumnIdx ≤ 4
    rw [h2, right_column _ hc]; omega
  · rw [h]
    show 0 ≤ m1.sortColumnIdx ∧ m1.sortColumnIdx ≤ 4
    rw [h2]; exact hc

/-! ## Sequences of messages -/

/-- A property of the model that every `Update` keeps holds after every
sequence of messages, and the sequence is processed to its end. -/
theorem run_invariant (lib : Lib) (w : Widget) (I : model → Prop)
    (hstep : ∀ m msg s, I m → Update lib w m msg = some s → I s.next) :
    ∀ (msgs : List Msg) (m : model), I m → ∃ m1, run lib w m msgs = some m1 ∧ I m1
  | [], m, h => ⟨m, rfl, h⟩
  | msg :: rest, m, h => by
    rcases Update_cases lib w m msg with ⟨s, hs, _⟩
    rw [run, hs]
    exact run_invariant lib w I hstep rest s.next (hstep m msg s h hs)

/-- The columns `getTableColumns` returns when the sort column is one of the
five. -/
theorem getTableColumns_titles (m : model) (hc : 0 ≤ m.sortColumnIdx ∧ m.sortColumnIdx ≤ 4) :
    (getTableColumns m).map (·.Width) = [25, 8, 10, 8, 15] ∧
      (getTableColumns m).map (·.Title) =
        labels.set m.sortColumnIdx.toNat
          (labels.getD m.sortColumnIdx.toNat "" ++ (if m.ascending then " 🔼" else " 🔽")) := by
  rcases m with ⟨t, ps, c, a⟩
  have h5 : c = 0 ∨ c = 1 ∨ c = 2 ∨ c = 3 ∨ c = 4 := by
    dsimp only at hc; omega
  rcases h5 with h | h | h | h | h <;> subst h <;> cases a <;> exact ⟨rfl, rfl⟩

/-- C13: from a model whose sort column is one of the five, as the initial
one with column 0, every sequence of messages leads to a model for which
`getTableColumns` returns five columns of widths 25, 8, 10, 8, 15 whose titles
are the five labels, except that the title at index `sortColumnIdx` has " 🔼"
appended when `ascending` and " 🔽" otherwise. -/
theorem getTableColumns_reachable (lib : Lib) (w : Widget) (m0 : model) (msgs : List Msg)
    (h0 : 0 ≤ m0.sortColumnIdx ∧ m0.sortColumnIdx ≤ 4) :
    ∃ m, run lib w m0 msgs = some m ∧
      (getTableColumns m).length = 5 ∧
      (getTableColumns m).map (·.Width) = [25, 8, 10, 8, 15] ∧
      ∃ i : Nat, i < 5 ∧ (i : Int) = m.sortColumnIdx ∧
        (getTableColumns m).map (·.Title) =
          ["Project", "Type", "Size", "Files", "Git Status"].set i
            (["Project", "Type", "Size", "Files", "Git Status"].getD i "" ++
              (if m.ascending then " 🔼" else " 🔽")) := by
  rcases run_invariant lib w (fun m => 0 ≤ m.sortColumnIdx ∧ m.sortColumnIdx ≤ 4)
    (fun m msg s h hs => Update_column_range lib w m msg s h hs) msgs m0 h0 with ⟨m, hm, hc⟩
  have ht := getTableColumns_titles m hc
  refine ⟨m, hm, rfl, ht.1, m.sortColumnIdx.toNat, by omega, by omega, ht.2⟩

/-- The statement of C13 for the model `main` builds and the keys
"right", "s", "down", "left", "left". -/
theorem getTableColumns_reachable_witness :
    (0 ≤ (mainModel sampleLib threeProjects).sortColumnIdx ∧
        (mainModel sampleLib threeProjects).sortColumnIdx ≤ 4) ∧
      ∃ m, run sampleLib sampleWidget (mainModel sampleLib threeProjects)
          [.key "right", .key "s", .key "down", .key "left", .key "left"] = some m ∧
        (getTableColumns m).length = 5 ∧
        (getTableColumns m).map (·.Width) = [25, 8, 10, 8, 15] ∧
        ∃ i : Nat, i < 5 ∧ (i : Int) = m.sortColumnIdx ∧
          (getTableColumns m).map (·.Title) =
            ["Project", "Type", "Size", "Files", "Git Status"].set i
              (["Project", "Type", "Size", "Files", "Git Status"].getD i "" ++
                (if m.ascending then " 🔼" else " 🔽")) :=
  ⟨by decide, getTableColumns_reachable sampleLib sampleWidget (mainModel sampleLib threeProjects)
    [.key "right", .key "s", .key "down", .key "left", .key "left"] (by decide)⟩

/-! ## The keys of the sort column and the direction -/

theorem run_cons (lib : Lib) (w : Widget) (m : model) (msg : Msg) (rest : List Msg) (s : Step)
    (h : Update lib w m msg = some s) : run lib w m (msg :: rest) = run lib w s.next rest := by
  rw [run, h]

/-- Pressing "right" `n` times moves the column `n` places to the right,
around the five columns. -/
theorem run_right (lib : Lib) (w : Widget) :
    ∀ (n : Nat) (m : model), 0 ≤ m.sortColumnIdx ∧ m.sortColumnIdx ≤ 4 →
      ∃ m1, run lib w m (List.replicate n (.key "right")) = some m1 ∧
        m1.sortColumnIdx = (m.sortColumnIdx + n) % 5
  | 0, m, hc => ⟨m, rfl, by simp only [Nat.cast_zero, add_zero]; omega⟩
  | n + 1, m, hc => by
    have hu := Update_right lib w m "right" (Or.inl rfl)
    rw [List.replicate_succ, run_cons lib w m _ _ _ hu]
    have hidx : (forward w (.key "right") (sortData lib { m with
        sortColumnIdx := Int.tmod (wrapInt (m.sortColumnIdx + 1)) 5 }) []).next.sortColumnIdx
        = (m.sortColumnIdx + 1) % 5 := right_column _ hc
    rcases run_right lib w n _ (by rw [hidx]; omega) with ⟨m1, h1, h2⟩
    refine ⟨m1, h1, ?_⟩
    rw [h2, hidx]
    push_cast
    omega

/-- C14: with the sort column among the five, "left" and "h" move it to
`(sortColumnIdx - 1 + 5) mod 5` and "right" and "l" to
`(sortColumnIdx + 1) mod 5`, with `ascending` as it was; "s" negates
`ascending` and keeps the column; the column stays among the five; "right"
then "left" gives the column back, and so do five times "right". -/
theorem Update_sort_keys (lib : Lib) (w : Widget) (m : model)
    (hc : 0 ≤ m.sortColumnIdx ∧ m.sortColumnIdx ≤ 4) :
    (∀ k, k = "left" ∨ k = "h" → ∃ s, Update lib w m (.key k) = some s ∧
        s.next.sortColumnIdx = (m.sortColumnIdx - 1 + 5) % 5 ∧
        s.next.ascending = m.ascending ∧
        0 ≤ s.next.sortColumnIdx ∧ s.next.sortColumnIdx ≤ 4) ∧
      (∀ k, k = "right" ∨ k = "l" → ∃ s, Update lib w m (.key k) = some s ∧
        s.next.sortColumnIdx = (m.sortColumnIdx + 1) % 5 ∧
        s.next.ascending = m.ascending ∧
        0 ≤ s.next.sortColumnIdx ∧ s.next.sortColumnIdx ≤ 4) ∧
      (∃ s, Update lib w m (.key "s") = some s ∧
        s.next.sortColumnIdx = m.sortColumnIdx ∧ s.next.ascending = !m.ascending) ∧
      (∃ m2, run lib w m [.key "right", .key "left"] = some m2 ∧
        m2.sortColumnIdx = m.sortColumnIdx) ∧
      (∃ m5, run lib w m (List.replicate 5 (.key "right")) = some m5 ∧
        m5.sortColumnIdx = m.sortColumnIdx) := by
  refine ⟨?_, ?_, ?_, ?_, ?_⟩
  · intro k hk
    refine ⟨_, Update_left lib w m k hk, ?_, rfl, ?_⟩
    · exact left_column _ hc
    · show 0 ≤ Int.tmod (wrapInt (wrapInt (m.sortColumnIdx - 1) + 5)) 5 ∧
        Int.tmod (wrapInt (wrapInt (m.sortColumnIdx - 1) + 5)) 5 ≤ 4
      rw [left_column _ hc]; omega
  · intro k hk
    refine ⟨_, Update_right lib w m k hk, ?_, rfl, ?_⟩
    · exact right_column _ hc
    · show 0 ≤ Int.tmod (wrapInt (m.sortColumnIdx + 1)) 5 ∧
        Int.tmod (wrapInt (m.sortColumnIdx + 1)) 5 ≤ 4
      rw [right_column _ hc]; omega
  · exact ⟨_, Update_s lib w m, rfl, rfl⟩
  · have hu := Update_right lib w m "right" (Or.inl rfl)
    have hidx : (forward w (.key "right") (sortData lib { m with
        sortColumnIdx := Int.tmod (wrapInt (m.sortColumnIdx + 1)) 5 }) []).next.sortColumnIdx
        = (m.sortColumnIdx + 1) % 5 := right_column _ hc
    rw [run_cons lib w m _ _ _ hu]
    have hu2 := Update_left lib w (forward w (.key "right") (sortData lib { m with
        sortColumnIdx := Int.tmod (wrapInt (m.sortColumnIdx + 1)) 5 }) []).next "left"
        (Or.inl rfl)
    rw [run_cons lib w _ _ _ _ hu2]
    refine ⟨_, rfl, ?_⟩
    show Int.tmod (wrapInt (wrapInt ((forward w (.key "right") (sortData lib { m with
        sortColumnIdx := Int.tmod (wrapInt (m.sortColumnIdx + 1)) 5 }) []).next.sortColumnIdx
          - 1) + 5)) 5 = m.sortColumnIdx
    rw [hidx, left_column _ (by omega)]
    omega
  · rcases run_right lib w 5 m hc with ⟨m5, h1, h2⟩
    refine ⟨m5, h1, ?_⟩
    rw [h2]; push_cast; omega

/-- The statement of C14 for the model `main` builds. -/
theorem Update_sort_keys_witness :
    (0 ≤ (mainModel sampleLib threeProjects).sortColumnIdx ∧
        (mainModel sampleLib threeProjects).sortColumnIdx ≤ 4) ∧
      ∃ s, Update sampleLib sampleWidget (mainModel sampleLib threeProjects) (.key "h") = some s ∧
        s.next.sortColumnIdx = 4 ∧ s.next.ascending = true :=
  ⟨by decide, by
    rcases (Update_sort_keys sampleLib sampleWidget (mainModel sampleLib threeProjects)
      (by decide)).1 "h" (Or.inr rfl) with ⟨s, hs, h1, h2, _⟩
    exact ⟨s, hs, h1, h2⟩⟩

/-! ## Opening a project -/

/-- C15: "enter" returns a model with the sort column, the direction and the
project list as they were, in the same order.  With the cursor `i` on a
project it hands exactly the `Path` of the project at position `i` to
`openFolder`; with the cursor elsewhere it opens nothing.  In both cases
`Update` returns: no index outside the project list is read. -/
theorem Update_enter_opens (lib : Lib) (w : Widget) (m : model) :
    ∃ s, Update lib w m (.key "enter") = some s ∧
      s.next.sortColumnIdx = m.sortColumnIdx ∧ s.next.ascending = m.ascending ∧
      s.next.projects = m.projects ∧
      (∀ i : Nat, m.table.cursor = i → i < m.projects.length →
        ∃ p, m.projects[i]? = some p ∧ s.opened = [p.Path]) ∧
      (¬ (0 ≤ m.table.cursor ∧ m.table.cursor < m.projects.length) → s.opened = []) := by
  rcases Update_enter lib w m with ⟨p, h0, h1, hp, h⟩ | ⟨hn, h⟩
  · refine ⟨_, h, rfl, rfl, rfl, ?_, fun hn => absurd ⟨h0, h1⟩ hn⟩
    intro i hi _
    rw [hi] at hp
    exact ⟨p, by simpa using hp, rfl⟩
  · refine ⟨_, h, rfl, rfl, rfl, ?_, fun _ => rfl⟩
    intro i hi hlt
    exact absurd ⟨by omega, by omega⟩ hn

/-- The rows of the table are the rows of the projects, in their order, after
every message. -/
theorem Update_rows (lib : Lib) (w : Widget) (m : model) (msg : Msg) (s : Step)
    (hr : m.table.rows = m.projects.map projectRow ∧ m.table.cols = getTableColumns m)
    (hs : Update lib w m msg = some s) :
    s.next.table.rows = s.next.projects.map projectRow ∧
      s.next.table.cols = getTableColumns s.next := by
  rcases Update_cases lib w m msg with ⟨s1, hs1, h⟩
  rw [hs] at hs1
  cases hs1
  rcases h with h | ⟨o, h⟩ | ⟨m1, h, _⟩
  · rw [h]; exact hr
  · rw [h]; exact hr
  · rw [h]; exact ⟨rfl, rfl⟩

/-- C16: from the model `main` builds, every sequence of messages leads to a
model whose table has one row for each project, row `i` being `Name`,
`Marker`, `formatSize(Size)`, the decimal `FileCount` and `Status` of the
project at position `i`; "enter" with the cursor `i` then opens the project
whose row is row `i`.  The columns of the table are those of
`getTableColumns`. -/
theorem rows_aligned (lib : Lib) (w : Widget) (projs : List Project) (msgs : List Msg) :
    ∃ m, run lib w (mainModel lib projs) msgs = some m ∧
      m.table.rows.length = m.projects.length ∧
      (∀ (i : Nat) (p : Project), m.projects[i]? = some p →
        m.table.rows[i]? =
          some [p.Name, p.Marker, formatSize p.Size, toString p.FileCount, p.Status]) ∧
      (∀ (i : Nat) (p : Project), m.table.cursor = i → m.projects[i]? = some p →
        ∃ s, Update lib w m (.key "enter") = some s ∧ s.opened = [p.Path] ∧
          m.table.rows[i]? = some (projectRow p)) ∧
      m.table.cols = getTableColumns m := by
  rcases run_invariant lib w
    (fun m => m.table.rows = m.projects.map projectRow ∧ m.table.cols = getTableColumns m)
    (fun m msg s h hs => Update_rows lib w m msg s h hs) msgs (mainModel lib projs) ⟨rfl, rfl⟩
    with ⟨m, hm, hrows, hcols⟩
  have hrow : ∀ (i : Nat) (p : Project), m.projects[i]? = some p →
      m.table.rows[i]? = some (projectRow p) := by
    intro i p hp
    rw [hrows, List.getElem?_map, hp]; rfl
  refine ⟨m, hm, by rw [hrows, List.length_map], hrow, ?_, hcols⟩
  intro i p hi hp
  have hlt : i < m.projects.length := by
    rcases List.getElem?_eq_some_iff.1 hp with ⟨h, _⟩
    exact h
  rcases Update_enter lib w m with ⟨q, _, _, hq, h⟩ | ⟨hn, _⟩
  · rw [hi] at hq
    simp only [Int.toNat_ofNat] at hq
    rw [hp] at hq
    cases hq
    exact ⟨_, h, rfl, hrow i p hp⟩
  · exact absurd ⟨by omega, by omega⟩ hn

/-! ## Toggling the direction -/

/-- The project list `sortData` leaves is in the order of the keys of the sort
column, in the direction of the model. -/
theorem sortData_ordered (lib : Lib) (m : model)
    (hc : 0 ≤ m.sortColumnIdx ∧ m.sortColumnIdx ≤ 4) :
    (m.ascending = true →
        (sortData lib m).projects.Pairwise (fun p q => KeyLe lib m.sortColumnIdx p q)) ∧
      (m.ascending = false →
        (sortData lib m).projects.Pairwise (fun p q => KeyLe lib m.sortColumnIdx q p)) := by
  have hw := sortLess_weak lib m.sortColumnIdx m.ascending hc
  have hp := sortSlice_pairwise hw.1 lib.xorshiftNext m.projects
  exact ⟨fun ha => hp.imp (fun {p q} hle => (hw.2 p q hle).1 ha),
    fun ha => hp.imp (fun {p q} hle => (hw.2 p q hle).2 ha)⟩

theorem KeyLe_antisymm (lib : Lib) (c : Int) (p q : Project) (h1 : KeyLe lib c p q)
    (h2 : KeyLe lib c q p) : SameKey lib c p q := by
  unfold KeyLe at h1 h2
  unfold SameKey
  split_ifs at h1 h2 ⊢ <;> exact le_antisymm h1 h2

/-- C11: with the sort column among the five and the keys of the projects in
that column pairwise distinct, sorting in ascending order and then pressing
"s" leaves the projects in exactly the reverse of the ascending order, in
descending direction, and the title of the sort column in the table is its
label with " 🔽" appended. -/
theorem toggle_reverses (lib : Lib) (w : Widget) (m : model)
    (hc : 0 ≤ m.sortColumnIdx ∧ m.sortColumnIdx ≤ 4) (ha : m.ascending = true)
    (hd : m.projects.Pairwise (fun p q => ¬ SameKey lib m.sortColumnIdx p q)) :
    ∃ s, Update lib w (sortData lib m) (.key "s") = some s ∧
      s.next.projects = (sortData lib m).projects.reverse ∧
      s.next.ascending = false ∧ s.next.sortColumnIdx = m.sortColumnIdx ∧
      ∃ i : Nat, i < 5 ∧ (i : Int) = m.sortColumnIdx ∧
        s.next.table.cols.map (·.Title) =
          ["Project", "Type", "Size", "Files", "Git Status"].set i
            (["Project", "Type", "Size", "Files", "Git Status"].getD i "" ++ " 🔽") := by
  have hM : ∃ M : model, M = (⟨(sortData lib m).table, (sortData lib m).projects,
      m.sortColumnIdx, false⟩ : model) := ⟨_, rfl⟩
  rcases hM with ⟨M, hM⟩
  have hu : Update lib w (sortData lib m) (.key "s")
      = some (forward w (.key "s") (sortData lib M) []) := by
    rw [Update_s, hM]
    have hasc : (sortData lib m).ascending = true := ha
    rw [hasc]
    rfl
  have hMc : M.sortColumnIdx = m.sortColumnIdx := by rw [hM]
  have hMa : M.ascending = false := by rw [hM]
  have hMp : M.projects = (sortData lib m).projects := by rw [hM]
  refine ⟨_, hu, ?_, hMa, hMc, ?_⟩
  · show (sortData lib M).projects = (sortData lib m).projects.reverse
    have h1 := (sortData_ordered lib m hc).1 ha
    have h2 := (sortData_ordered lib M (by rw [hMc]; exact hc)).2 hMa
    rw [hMc] at h2
    have hp1 : (sortData lib m).projects.Perm m.projects := sortData_projects_perm lib m
    have hp2 : (sortData lib M).projects.Perm (sortData lib m).projects := by
      rw [← hMp]; exact sortData_projects_perm lib M
    have hsymm : ∀ {x y : Project}, ¬ SameKey lib m.sortColumnIdx x y →
        ¬ SameKey lib m.sortColumnIdx y x := by
      intro x y h h3
      apply h
      unfold SameKey at h3 ⊢
      split_ifs at h3 ⊢ <;> exact h3.symm
    have hd1 : (sortData lib m).projects.Pairwise
        (fun p q => ¬ SameKey lib m.sortColumnIdx p q) :=
      (hp1.pairwise_iff hsymm).2 hd
    have hd2 : (sortData lib M).projects.Pairwise
        (fun p q => ¬ SameKey lib m.sortColumnIdx p q) :=
      (hp2.pairwise_iff hsymm).2 hd1
    haveI : IsAntisymm Project
        (fun p q => KeyLe lib m.sortColumnIdx q p ∧ ¬ SameKey lib m.sortColumnIdx p q) :=
      ⟨fun p q hpq hqp => absurd (KeyLe_antisymm lib _ p q hqp.1 hpq.1) hpq.2⟩
    have hrev : (sortData lib m).projects.reverse.Pairwise
        (fun p q => KeyLe lib m.sortColumnIdx q p ∧ ¬ SameKey lib m.sortColumnIdx p q) := by
      rw [List.pairwise_reverse]
      exact List.Pairwise.and h1 (hd1.imp hsymm)
    exact List.eq_of_perm_of_sorted (hp2.trans (List.reverse_perm _).symm)
      (List.Pairwise.and h2 hd2) hrev
  · have ht := (getTableColumns_titles M (by rw [hMc]; exact hc)).2
    rw [hMa, hMc] at ht
    exact ⟨m.sortColumnIdx.toNat, by omega, by omega, ht⟩

/-- The statement of C11 for three projects of sizes 300, 100 and 200, sorted
by size. -/
theorem toggle_reverses_witness :
    (0 ≤ sizeModel.sortColumnIdx ∧ sizeModel.sortColumnIdx ≤ 4) ∧
      sizeModel.ascending = true ∧
      sizeModel.projects.Pairwise (fun p q => ¬ SameKey sampleLib sizeModel.sortColumnIdx p q) ∧
      (sortData sampleLib sizeModel).projects.map (·.Size) = [100, 200, 300] ∧
      ∃ s, Update sampleLib sampleWidget (sortData sampleLib sizeModel) (.key "s") = some s ∧
        s.next.projects.map (·.Size) = [300, 200, 100] ∧ s.next.ascending = false := by
  have hd : sizeModel.projects.Pairwise
      (fun p q => ¬ SameKey sampleLib sizeModel.sortColumnIdx p q) := by
    simp [sizeModel, threeProjects, SameKey]
  refine ⟨by decide, rfl, hd, by decide, ?_⟩
  rcases toggle_reverses sampleLib sampleWidget sizeModel (by decide) rfl hd
    with ⟨s, hs, hp, hasc, _⟩
  refine ⟨s, hs, ?_, hasc⟩
  rw [hp]
  decide

end RepoScope
